import Mathlib

/-!
# Binary expression calculator (`mini1.c`): a shallow embedding

The C program compiles one-line statements over the variables `x`, `y`, `z`
into instructions of a small register machine.  This file embeds the lexer,
the `+`/`-` disambiguation pass of `parser`, the recursive-descent `parse`,
`findNextSection`, `semantic_check` and `codegen`, and proves properties of
them.

Modelling conventions.

* `int` indices are `Int` (token arrays hold at most `MAX_LENGTH = 200`
  tokens, so no machine overflow occurs on indices).
* A token array is a `List Token`; `tokAt` reads an element.  Reads outside
  the array are undefined in C; `tokAt` returns `Token.outside` there, and
  every statement below is about reads inside the array.
* `AST *` is the inductive `AST` with `AST.null` for the `NULL` pointer.
* `err(x)` (print `Compile Error!`, then `exit(0)`) is the outcome
  `Res.err x`; undefined behaviour (a `NULL` dereference, a table read out of
  its bounds) is the outcome `Res.ub`.
* `parse` recurses on the grammar state and on the range; the embedding
  carries a fuel argument, decremented at every call, and returns `none`
  when it runs out.
-/

namespace Mini1

/-! ## Data model -/

/-- The `Kind` enumeration, in declaration order (`ASSIGN = 0`, ..., `END = 16`). -/
inductive Kind where
  | ASSIGN | ADD | SUB | MUL | DIV | REM | PREINC | PREDEC | POSTINC | POSTDEC
  | IDENTIFIER | CONSTANT | LPAR | RPAR | PLUS | MINUS | END
  deriving DecidableEq

/-- The integer value of an enumerator. -/
def Kind.toInt : Kind → Int
  | .ASSIGN => 0 | .ADD => 1 | .SUB => 2 | .MUL => 3 | .DIV => 4 | .REM => 5
  | .PREINC => 6 | .PREDEC => 7 | .POSTINC => 8 | .POSTDEC => 9
  | .IDENTIFIER => 10 | .CONSTANT => 11 | .LPAR => 12 | .RPAR => 13
  | .PLUS => 14 | .MINUS => 15 | .END => 16

/-- The enumerator of an integer value (used for the enum arithmetic
`kind - PLUS + ADD` and `kind - PREINC + POSTINC`, whose results are always
enumerators). -/
def Kind.ofInt (i : Int) : Kind :=
  if i = 0 then .ASSIGN else if i = 1 then .ADD else if i = 2 then .SUB
  else if i = 3 then .MUL else if i = 4 then .DIV else if i = 5 then .REM
  else if i = 6 then .PREINC else if i = 7 then .PREDEC
  else if i = 8 then .POSTINC else if i = 9 then .POSTDEC
  else if i = 10 then .IDENTIFIER else if i = 11 then .CONSTANT
  else if i = 12 then .LPAR else if i = 13 then .RPAR
  else if i = 14 then .PLUS else if i = 15 then .MINUS else .END

/-- The `GrammarState` enumeration. -/
inductive GrammarState where
  | STMT | EXPR | ASSIGN_EXPR | ADD_EXPR | MUL_EXPR | UNARY_EXPR | POSTFIX_EXPR | PRI_EXPR
  deriving DecidableEq

/-- The `Token` struct once it sits in the token array (`next` is unused there). -/
structure Token where
  kind : Kind
  val : Int
  deriving DecidableEq

/-- The `AST` struct behind an `AST *`; `null` is the `NULL` pointer. -/
inductive AST where
  | null : AST
  | node (kind : Kind) (val : Int) (lhs mid rhs : AST) : AST
  deriving DecidableEq

/-- Outcome of a run: normal return, `err(msg)`, or undefined behaviour. -/
inductive Res (α : Type) where
  | ok (a : α) : Res α
  | err (msg : String) : Res α
  | ub : Res α
  deriving DecidableEq

/-- Sequencing of outcomes: the continuation runs only after a normal return. -/
def Res.bind {α β : Type} (x : Res α) (f : α → Res β) : Res β :=
  match x with
  | .ok a => f a
  | .err m => .err m
  | .ub => .ub

/-- What a read outside the token array yields in this model. -/
def Token.outside : Token := ⟨.END, 0⟩

/-- The array read `arr[i]`. -/
def tokAt (arr : List Token) (i : Int) : Token :=
  if i < 0 then Token.outside else arr.getD i.toNat Token.outside

/-- The array write `arr[i].kind = k`. -/
def setKind (arr : List Token) (i : Int) (k : Kind) : List Token :=
  if i < 0 then arr else arr.set i.toNat ⟨k, (tokAt arr i).val⟩

/-- `new_AST(kind, val)`: a node with the three children `NULL`. -/
def new_AST (kind : Kind) (val : Int) : AST := .node kind val .null .null .null

/-! ## The disambiguation pass of `parser` -/

/-- One iteration of the `for` loop of `parser`, at index `i`. -/
def parserStep (arr : List Token) (i : Int) : List Token :=
  if (tokAt arr i).kind = .PLUS ∨ (tokAt arr i).kind = .MINUS then
    match (tokAt arr (i - 1)).kind with
    | .PREINC | .PREDEC | .IDENTIFIER | .CONSTANT | .RPAR =>
      setKind arr i (Kind.ofInt ((tokAt arr i).kind.toInt - Kind.PLUS.toInt + Kind.ADD.toInt))
    | _ => arr
  else arr

/-- The loop `for (int i = 1; i < len; i++)` of `parser`, entered at `i` with
`fuel` iterations allowed. -/
def parserLoop : Nat → Int → List Token → List Token
  | 0, _, arr => arr
  | fuel + 1, i, arr =>
    if i < (arr.length : Int) then parserLoop fuel (i + 1) (parserStep arr i) else arr

/-- The token array as `parser` leaves it before calling `parse`. -/
def disambiguate (arr : List Token) : List Token := parserLoop arr.length 1 arr

/-! ## `findNextSection` and its conditions -/

/-- `condASSIGN`. -/
def condASSIGN (kind : Kind) : Bool := kind = .ASSIGN

/-- `condADD`. -/
def condADD (kind : Kind) : Bool := kind = .ADD || kind = .SUB

/-- `condMUL`. -/
def condMUL (kind : Kind) : Bool := kind = .MUL || kind = .DIV || kind = .REM

/-- `condRPAR`. -/
def condRPAR (kind : Kind) : Bool := kind = .RPAR

/-- The `for` loop of `findNextSection`, entered at index `i` with depth
counter `par`; `fuel` bounds the number of iterations. -/
def findLoop (arr : List Token) (start stop : Int) (cond : Kind → Bool) :
    Nat → Int → Int → Int
  | 0, _, _ => -1
  | fuel + 1, i, par =>
    if (if start < stop then i ≤ stop else i ≥ stop) then
      let par1 := if (tokAt arr i).kind = .LPAR then par + 1 else par
      let par2 := if (tokAt arr i).kind = .RPAR then par1 - 1 else par1
      if par2 = 0 ∧ cond (tokAt arr i).kind = true then i
      else findLoop arr start stop cond fuel (i + (if start < stop then 1 else -1)) par2
    else -1

/-- `findNextSection(arr, start, end, cond)`: the loop runs from `start` to
`end` (in either direction), so `|end - start| + 1` iterations suffice. -/
def findNextSection (arr : List Token) (start stop : Int) (cond : Kind → Bool) : Int :=
  findLoop arr start stop cond ((stop - start).natAbs + 1) start 0

/-! ## `parse` and `parser` -/

/-- Sequencing inside `parse`: the continuation runs on the AST a recursive
call returned; an `err` or a lack of fuel in the call ends the run. -/
def andThen (x : Option (Res AST)) (f : AST → Option (Res AST)) : Option (Res AST) :=
  match x with
  | some (.ok a) => f a
  | other => other

/-- `parse(arr, l, r, S)`, with a fuel argument that is decremented at every
call; `none` means the fuel ran out.  The `default:` branch of the C `switch`
(`Unexpected grammar state.`) is unreachable for an enumerator. -/
def parse : Nat → List Token → Int → Int → GrammarState → Option (Res AST)
  | 0, _, _, _, _ => none
  | fuel + 1, arr, l, r, S =>
    if l > r then some (.err "Unexpected parsing range.")
    else
      match S with
      | .STMT =>
        if l = r ∧ (tokAt arr l).kind = .END then some (.ok .null)
        else if (tokAt arr r).kind = .END then parse fuel arr l (r - 1) .EXPR
        else some (.err "Expected ';' at the end of line.")
      | .EXPR => parse fuel arr l r .ASSIGN_EXPR
      | .ASSIGN_EXPR =>
        let nxt := findNextSection arr l r condASSIGN
        if nxt ≠ -1 then
          andThen (parse fuel arr l (nxt - 1) .UNARY_EXPR) fun lhs =>
          andThen (parse fuel arr (nxt + 1) r .ASSIGN_EXPR) fun rhs =>
          some (.ok (.node (tokAt arr nxt).kind 0 lhs .null rhs))
        else parse fuel arr l r .ADD_EXPR
      | .ADD_EXPR =>
        let nxt := findNextSection arr r l condADD
        if nxt ≠ -1 then
          andThen (parse fuel arr l (nxt - 1) .ADD_EXPR) fun lhs =>
          andThen (parse fuel arr (nxt + 1) r .MUL_EXPR) fun rhs =>
          some (.ok (.node (tokAt arr nxt).kind 0 lhs .null rhs))
        else parse fuel arr l r .MUL_EXPR
      | .MUL_EXPR =>
        let nxt := findNextSection arr r l condMUL
        if nxt ≠ -1 then
          andThen (parse fuel arr l (nxt - 1) .MUL_EXPR) fun lhs =>
          andThen (parse fuel arr (nxt + 1) r .UNARY_EXPR) fun rhs =>
          some (.ok (.node (tokAt arr nxt).kind 0 lhs .null rhs))
        else parse fuel arr l r .UNARY_EXPR
      | .UNARY_EXPR =>
        if (tokAt arr l).kind = .PREINC ∨ (tokAt arr l).kind = .PREDEC
            ∨ (tokAt arr l).kind = .PLUS ∨ (tokAt arr l).kind = .MINUS then
          andThen (parse fuel arr (l + 1) r .UNARY_EXPR) fun mid =>
          some (.ok (.node (tokAt arr l).kind 0 .null mid .null))
        else parse fuel arr l r .POSTFIX_EXPR
      | .POSTFIX_EXPR =>
        if (tokAt arr r).kind = .PREINC ∨ (tokAt arr r).kind = .PREDEC then
          andThen (parse fuel arr l (r - 1) .POSTFIX_EXPR) fun mid =>
          some (.ok (.node
            (Kind.ofInt ((tokAt arr r).kind.toInt - Kind.PREINC.toInt + Kind.POSTINC.toInt))
            0 .null mid .null))
        else parse fuel arr l r .PRI_EXPR
      | .PRI_EXPR =>
        if findNextSection arr l r condRPAR = r then
          andThen (parse fuel arr (l + 1) (r - 1) .EXPR) fun mid =>
          some (.ok (.node .LPAR 0 .null mid .null))
        else if l = r then
          if (tokAt arr l).kind = .IDENTIFIER ∨ (tokAt arr l).kind = .CONSTANT then
            some (.ok (new_AST (tokAt arr l).kind (tokAt arr l).val))
          else some (.err "Unexpected token during parsing.")
        else some (.err "No token left for parsing.")

/-- Fuel that is enough for `parse` on a token array of `len` tokens: eight
grammar states per token of the range, plus the states of the empty range. -/
def parseFuel (len : Nat) : Nat := 8 * len + 8

/-- `parser(arr, len)` with `len` the length of `arr`: the disambiguation
pass, then `parse(arr, 0, len - 1, STMT)`. -/
def parser (arr : List Token) : Option (Res AST) :=
  parse (parseFuel arr.length) (disambiguate arr) 0 ((arr.length : Int) - 1) .STMT

/-! ## `lexer` -/

/-- `isspace` in the C locale. -/
def isspace (c : Char) : Bool :=
  c.toNat = 32 || (9 ≤ c.toNat && c.toNat ≤ 13)

/-- `isdigit`. -/
def isdigit (c : Char) : Bool := 48 ≤ c.toNat && c.toNat ≤ 57

/-- The value `atoi` reads off a run of digits, most significant first. -/
def digitsVal (acc : Nat) : List Char → Nat
  | [] => acc
  | c :: cs => digitsVal (10 * acc + (c.toNat - 48)) cs

/-- The token `lexer` makes of a character that is neither a space, a digit
nor a variable, together with the number of extra characters it consumes;
`nxt` is the character after it, if any. -/
def lexSymbol (c : Char) (nxt : Option Char) : Res (Token × Nat) :=
  if c = '=' then .ok (⟨.ASSIGN, 0⟩, 0)
  else if c = '+' then
    if nxt = some '+' then .ok (⟨.PREINC, 0⟩, 1) else .ok (⟨.PLUS, 0⟩, 0)
  else if c = '-' then
    if nxt = some '-' then .ok (⟨.PREDEC, 0⟩, 1) else .ok (⟨.MINUS, 0⟩, 0)
  else if c = '*' then .ok (⟨.MUL, 0⟩, 0)
  else if c = '/' then .ok (⟨.DIV, 0⟩, 0)
  else if c = '%' then .ok (⟨.REM, 0⟩, 0)
  else if c = '(' then .ok (⟨.LPAR, 0⟩, 0)
  else if c = ')' then .ok (⟨.RPAR, 0⟩, 0)
  else if c = ';' then .ok (⟨.END, 0⟩, 0)
  else .err "Unexpected character."

/-- The `for` loop of `lexer` over the characters still to read: the loop
condition `in[i]` ends it at the first NUL character, the end of the C string.
Every iteration consumes at least one character, so `fuel` equal to the length
of the input is enough.  `atoi` on a number that does not fit an `int` is
undefined behaviour. -/
def lexLoop : Nat → List Char → Res (List Token)
  | _, [] => .ok []
  | 0, _ :: _ => .ok []
  | fuel + 1, c :: rest =>
    if c.toNat = 0 then .ok []
    else if isspace c then lexLoop fuel rest
    else if isdigit c then
      let v := digitsVal 0 (c :: rest.takeWhile isdigit)
      if v > 2147483647 then .ub
      else (lexLoop fuel (rest.dropWhile isdigit)).bind fun ts =>
        .ok (⟨.CONSTANT, (v : Int)⟩ :: ts)
    else if 'x' ≤ c ∧ c ≤ 'z' then
      (lexLoop fuel rest).bind fun ts => .ok (⟨.IDENTIFIER, (c.toNat : Int)⟩ :: ts)
    else
      (lexSymbol c rest.head?).bind fun tn =>
        (lexLoop fuel (rest.drop tn.2)).bind fun ts => .ok (tn.1 :: ts)

/-- `lexer(in)` followed by `token_list_to_arr`: the token array of the
buffer `fgets` filled (the characters after a NUL are never read). -/
def lexer (line : List Char) : Res (List Token) := lexLoop line.length line

/-! ## `semantic_check` -/

/-- The loop `while (tmp->kind == LPAR) tmp = tmp->mid;` started at `tmp`,
followed by the read of `tmp->kind`: the kind found, or undefined behaviour
when the loop reaches `NULL`. -/
def unwrapKind : AST → Res Kind
  | .null => .ub
  | .node kind _ _ mid _ => if kind = .LPAR then unwrapKind mid else .ok kind

/-- `semantic_check(now)`. -/
def semantic_check : AST → Res Unit
  | .null => .ok ()
  | .node kind _ lhs mid rhs =>
    (if kind = .ASSIGN then
      (unwrapKind lhs).bind fun k =>
        if k ≠ .IDENTIFIER then .err "Lvalue is required as left operand of assignment."
        else .ok ()
     else .ok ()).bind fun _ =>
    (if kind = .PREDEC ∨ kind = .PREINC ∨ kind = .POSTINC ∨ kind = .POSTDEC then
      (unwrapKind mid).bind fun k =>
        if k ≠ .IDENTIFIER then .err "Identifier is required as mid operand of INC/DEC."
        else .ok ()
     else .ok ()).bind fun _ =>
    (semantic_check lhs).bind fun _ =>
    (semantic_check rhs).bind fun _ =>
    semantic_check mid

/-! ## `codegen` -/

/-- The opcodes that occur in the tables `MemOP` and `ArithOP`. -/
inductive Op where
  | load | store | add | sub | mul | div | rem
  deriving DecidableEq

/-- An operand as printed: `r%d`, a bare `%d`, or `[%d]`. -/
inductive Operand where
  | reg (n : Int) : Operand
  | imm (v : Int) : Operand
  | mem (addr : Int) : Operand
  deriving DecidableEq

/-- One printed line: an opcode and its operands, in print order. -/
structure Instr where
  op : Op
  args : List Operand
  deriving DecidableEq

/-- The table `MemOP[][6] = {"load", "store"}`; `none` outside its bounds. -/
def MemOP (i : Int) : Option Op :=
  if i = 0 then some .load else if i = 1 then some .store else none

/-- The table `ArithOP[][5] = {"add", "sub", "mul", "div", "rem"}`. -/
def ArithOP (i : Int) : Option Op :=
  if i = 0 then some .add else if i = 1 then some .sub else if i = 2 then some .mul
  else if i = 3 then some .div else if i = 4 then some .rem else none

/-- The table `memAd[3] = {0, 4, 8}`. -/
def memAd (i : Int) : Option Int :=
  if i = 0 then some 0 else if i = 1 then some 4 else if i = 2 then some 8 else none

/-- The static variables of `codegen`. -/
structure CG where
  regIdx : Int
  memJudge : Int
  Val : Int
  deriving DecidableEq

/-- The statics as the program starts: zero-initialised. -/
def CG.init : CG := ⟨0, 0, 0⟩

/-- A table read: undefined behaviour outside the table. -/
def readTable {α : Type} (x : Option α) : Res α :=
  match x with
  | some a => .ok a
  | none => .ub

/-- `codegen(root)`: the statics after the call and the lines printed by it. -/
def codegen : AST → CG → Res (CG × List Instr)
  | .null, s => .ok (s, [])
  | .node kind val lhs mid rhs, s =>
    match kind with
    | .ASSIGN =>
      (codegen rhs { s with regIdx := s.regIdx + 1 }).bind fun p1 =>
      let s1 : CG := { p1.1 with regIdx := p1.1.regIdx - 1 }
      let mv : Instr := ⟨.add, [.reg s1.regIdx, .imm 0, .reg (s1.regIdx + 1)]⟩
      (codegen lhs { s1 with memJudge := s1.memJudge + 1 }).bind fun p2 =>
      .ok ({ p2.1 with memJudge := p2.1.memJudge - 1 }, p1.2 ++ [mv] ++ p2.2)
    | .ADD | .SUB | .MUL | .DIV | .REM =>
      (codegen lhs s).bind fun p1 =>
      (codegen rhs { p1.1 with regIdx := p1.1.regIdx + 1 }).bind fun p2 =>
      let s2 : CG := { p2.1 with regIdx := p2.1.regIdx - 1 }
      (readTable (ArithOP (kind.toInt - Kind.ADD.toInt))).bind fun op =>
      .ok (s2, p1.2 ++ p2.2 ++ [⟨op, [.reg s2.regIdx, .reg s2.regIdx, .reg (s2.regIdx + 1)]⟩])
    | .POSTINC | .POSTDEC =>
      (codegen mid s).bind fun p1 =>
      let s1 := p1.1
      (readTable (ArithOP (kind.toInt - Kind.POSTINC.toInt))).bind fun op =>
      (readTable (MemOP 1)).bind fun st =>
      (readTable (memAd (s1.Val - 120))).bind fun ad =>
      .ok (s1, p1.2 ++ [⟨op, [.reg (s1.regIdx + 1), .reg s1.regIdx, .imm 1]⟩,
                        ⟨st, [.mem ad, .reg (s1.regIdx + 1)]⟩])
    | .PREINC | .PREDEC =>
      (codegen mid s).bind fun p1 =>
      let s1 := p1.1
      (readTable (ArithOP (kind.toInt - Kind.PREINC.toInt))).bind fun op =>
      (readTable (MemOP 1)).bind fun st =>
      (readTable (memAd (s1.Val - 120))).bind fun ad =>
      .ok (s1, p1.2 ++ [⟨op, [.reg s1.regIdx, .reg s1.regIdx, .imm 1]⟩,
                        ⟨st, [.mem ad, .reg s1.regIdx]⟩])
    | .PLUS | .MINUS =>
      (codegen mid s).bind fun p1 =>
      let s1 := p1.1
      (readTable (ArithOP (kind.toInt - Kind.PLUS.toInt))).bind fun op =>
      .ok (s1, p1.2 ++ [⟨op, [.reg s1.regIdx, .imm 0, .reg s1.regIdx]⟩])
    | .LPAR => codegen mid s
    | .IDENTIFIER =>
      let s1 : CG := { s with Val := val }
      (readTable (MemOP s1.memJudge)).bind fun mop =>
      (readTable (memAd (val - 120))).bind fun ad =>
      if s1.memJudge = 1 then .ok (s1, [⟨mop, [.mem ad, .reg s1.regIdx]⟩])
      else .ok (s1, [⟨mop, [.reg s1.regIdx, .mem ad]⟩])
    | .CONSTANT => .ok (s, [⟨.add, [.reg s.regIdx, .imm 0, .imm val]⟩])
    | .RPAR | .END => .ok (s, [])

/-- The lines `codegen` prints for `root`, started with register index `n`
in load mode (`memJudge = 0`) and last-loaded identifier `v`. -/
def emitted (root : AST) (n v : Int) : Res (List Instr) :=
  (codegen root ⟨n, 0, v⟩).bind fun p => .ok p.2

/-! ## One input line -/

/-- The tokens of a line, handed to `parser`: `none` when `parse` runs out of
fuel.  (`main` skips a line without tokens before it reaches `parser`.) -/
def parseLine (line : String) : Option (Res AST) :=
  match lexer line.toList with
  | .ok arr => parser arr
  | .err m => some (.err m)
  | .ub => some .ub

/-- The body of the `while` loop of `main` for one line, with the statics of
`codegen` as they stand: `none` when `parse` runs out of fuel, else the
outcome.  A line without tokens is skipped. -/
def compileLine (line : String) (s : CG) : Option (Res (CG × List Instr)) :=
  match lexer line.toList with
  | .ok [] => some (.ok (s, []))
  | .ok arr =>
    match parser arr with
    | some (.ok ast) => some ((semantic_check ast).bind fun _ => codegen ast s)
    | some (.err m) => some (.err m)
    | some .ub => some .ub
    | none => none
  | .err m => some (.err m)
  | .ub => some .ub

end Mini1

namespace Mini1

/-! ## Definitions used to state the properties -/

/-- The kinds listed by the `case` labels of the disambiguation pass: a token
of such a kind can end an operand. -/
def operandEnd (k : Kind) : Prop :=
  k = .PREINC ∨ k = .PREDEC ∨ k = .IDENTIFIER ∨ k = .CONSTANT ∨ k = .RPAR

instance (k : Kind) : Decidable (operandEnd k) := by
  unfold operandEnd; infer_instance

/-- The token the disambiguation pass leaves for a token `t` whose left
neighbour had kind `p` before the pass. -/
def reclass (t : Token) (p : Kind) : Token :=
  if (t.kind = .PLUS ∨ t.kind = .MINUS) ∧ operandEnd p then
    ⟨if t.kind = .PLUS then .ADD else .SUB, t.val⟩
  else t

/-- The successful runs of `parse`, as a relation: `Parses arr l r S t` holds
when `parse(arr, l, r, S)` returns `t`, one rule per `return` of the code. -/
inductive Parses (arr : List Token) : Int → Int → GrammarState → AST → Prop where
  | stmtEmpty {l r : Int} : l = r → (tokAt arr l).kind = .END → Parses arr l r .STMT .null
  | stmt {l r : Int} {t : AST} : l ≤ r → ¬ (l = r ∧ (tokAt arr l).kind = .END) →
      (tokAt arr r).kind = .END → Parses arr l (r - 1) .EXPR t → Parses arr l r .STMT t
  | expr {l r : Int} {t : AST} : l ≤ r → Parses arr l r .ASSIGN_EXPR t → Parses arr l r .EXPR t
  | assign {l r : Int} {lhs rhs : AST} : l ≤ r → findNextSection arr l r condASSIGN ≠ -1 →
      Parses arr l (findNextSection arr l r condASSIGN - 1) .UNARY_EXPR lhs →
      Parses arr (findNextSection arr l r condASSIGN + 1) r .ASSIGN_EXPR rhs →
      Parses arr l r .ASSIGN_EXPR
        (.node (tokAt arr (findNextSection arr l r condASSIGN)).kind 0 lhs .null rhs)
  | assignNone {l r : Int} {t : AST} : l ≤ r → findNextSection arr l r condASSIGN = -1 →
      Parses arr l r .ADD_EXPR t → Parses arr l r .ASSIGN_EXPR t
  | add {l r : Int} {lhs rhs : AST} : l ≤ r → findNextSection arr r l condADD ≠ -1 →
      Parses arr l (findNextSection arr r l condADD - 1) .ADD_EXPR lhs →
      Parses arr (findNextSection arr r l condADD + 1) r .MUL_EXPR rhs →
      Parses arr l r .ADD_EXPR
        (.node (tokAt arr (findNextSection arr r l condADD)).kind 0 lhs .null rhs)
  | addNone {l r : Int} {t : AST} : l ≤ r → findNextSection arr r l condADD = -1 →
      Parses arr l r .MUL_EXPR t → Parses arr l r .ADD_EXPR t
  | mul {l r : Int} {lhs rhs : AST} : l ≤ r → findNextSection arr r l condMUL ≠ -1 →
      Parses arr l (findNextSection arr r l condMUL - 1) .MUL_EXPR lhs →
      Parses arr (findNextSection arr r l condMUL + 1) r .UNARY_EXPR rhs →
      Parses arr l r .MUL_EXPR
        (.node (tokAt arr (findNextSection arr r l condMUL)).kind 0 lhs .null rhs)
  | mulNone {l r : Int} {t : AST} : l ≤ r → findNextSection arr r l condMUL = -1 →
      Parses arr l r .UNARY_EXPR t → Parses arr l r .MUL_EXPR t
  | unary {l r : Int} {mid : AST} : l ≤ r →
      ((tokAt arr l).kind = .PREINC ∨ (tokAt arr l).kind = .PREDEC
        ∨ (tokAt arr l).kind = .PLUS ∨ (tokAt arr l).kind = .MINUS) →
      Parses arr (l + 1) r .UNARY_EXPR mid →
      Parses arr l r .UNARY_EXPR (.node (tokAt arr l).kind 0 .null mid .null)
  | unaryNone {l r : Int} {t : AST} : l ≤ r →
      ¬ ((tokAt arr l).kind = .PREINC ∨ (tokAt arr l).kind = .PREDEC
        ∨ (tokAt arr l).kind = .PLUS ∨ (tokAt arr l).kind = .MINUS) →
      Parses arr l r .POSTFIX_EXPR t → Parses arr l r .UNARY_EXPR t
  | post {l r : Int} {mid : AST} : l ≤ r →
      ((tokAt arr r).kind = .PREINC ∨ (tokAt arr r).kind = .PREDEC) →
      Parses arr l (r - 1) .POSTFIX_EXPR mid →
      Parses arr l r .POSTFIX_EXPR
        (.node (Kind.ofInt ((tokAt arr r).kind.toInt - Kind.PREINC.toInt + Kind.POSTINC.toInt))
          0 .null mid .null)
  | postNone {l r : Int} {t : AST} : l ≤ r →
      ¬ ((tokAt arr r).kind = .PREINC ∨ (tokAt arr r).kind = .PREDEC) →
      Parses arr l r .PRI_EXPR t → Parses arr l r .POSTFIX_EXPR t
  | paren {l r : Int} {mid : AST} : l ≤ r → findNextSection arr l r condRPAR = r →
      Parses arr (l + 1) (r - 1) .EXPR mid →
      Parses arr l r .PRI_EXPR (.node .LPAR 0 .null mid .null)
  | leaf {l r : Int} : l ≤ r → findNextSection arr l r condRPAR ≠ r → l = r →
      ((tokAt arr l).kind = .IDENTIFIER ∨ (tokAt arr l).kind = .CONSTANT) →
      Parses arr l r .PRI_EXPR (new_AST (tokAt arr l).kind (tokAt arr l).val)

/-- What a token of kind `k` adds to the depth counter `par` of
`findNextSection`. -/
def parDelta (k : Kind) : Int :=
  if k = .LPAR then 1 else if k = .RPAR then -1 else 0

/-- The net parenthesis depth of the `n` tokens from index `i` on. -/
def parCount (arr : List Token) : Int → Nat → Int
  | _, 0 => 0
  | i, n + 1 => parDelta (tokAt arr i).kind + parCount arr (i + 1) n

/-- Every node of a tree: the root, then the nodes below `lhs`, `mid`, `rhs`. -/
def AST.subtrees : AST → List AST
  | .null => []
  | .node kind val lhs mid rhs =>
    .node kind val lhs mid rhs :: (lhs.subtrees ++ mid.subtrees ++ rhs.subtrees)

/-- The kind of the node a pointer leads to, if it is not `NULL`. -/
def AST.rootKind : AST → Option Kind
  | .null => none
  | .node kind _ _ _ _ => some kind

/-- The kinds of the prefix nodes built in state `UNARY_EXPR`. -/
def isPre (k : Kind) : Bool := k = .PREINC || k = .PREDEC || k = .PLUS || k = .MINUS

/-- The kinds of the postfix nodes built in state `POSTFIX_EXPR`. -/
def isPost (k : Kind) : Bool := k = .POSTINC || k = .POSTDEC

/-- A child of kind `Assign`, `Add`, `Sub`, `Mul`, `Div` or `Rem`. -/
def isBinOrAssign (t : AST) : Prop :=
  ∃ k, t.rootKind = some k ∧ (condASSIGN k = true ∨ condADD k = true ∨ condMUL k = true)

instance (t : AST) : Decidable (isBinOrAssign t) := by
  unfold isBinOrAssign
  cases t with
  | null => exact isFalse (by simp [AST.rootKind])
  | node k v l m r =>
    exact decidable_of_iff (condASSIGN k = true ∨ condADD k = true ∨ condMUL k = true)
      (by simp [AST.rootKind])

/-- Precedence at a node of kind `k` with the children `lhs`, `mid`, `rhs`,
in the words of the claim: what the direct children of a node of each
operator kind may not be. -/
def precNode (k : Kind) (lhs mid rhs : AST) : Prop :=
  (condMUL k = true →
    lhs.rootKind ≠ some .ASSIGN ∧ lhs.rootKind ≠ some .ADD ∧ lhs.rootKind ≠ some .SUB ∧
    rhs.rootKind ≠ some .ASSIGN ∧ rhs.rootKind ≠ some .ADD ∧ rhs.rootKind ≠ some .SUB ∧
    rhs.rootKind ≠ some .MUL ∧ rhs.rootKind ≠ some .DIV ∧ rhs.rootKind ≠ some .REM) ∧
  (condADD k = true →
    lhs.rootKind ≠ some .ASSIGN ∧ rhs.rootKind ≠ some .ASSIGN ∧
    rhs.rootKind ≠ some .ADD ∧ rhs.rootKind ≠ some .SUB) ∧
  (isPre k = true → ¬ isBinOrAssign mid) ∧
  (k = .ASSIGN → ¬ isBinOrAssign lhs) ∧
  (isPost k = true →
    mid.rootKind = some .POSTINC ∨ mid.rootKind = some .POSTDEC ∨
    mid.rootKind = some .LPAR ∨ mid.rootKind = some .IDENTIFIER ∨
    mid.rootKind = some .CONSTANT)

set_option synthInstance.maxSize 4096 in
instance (k : Kind) (lhs mid rhs : AST) : Decidable (precNode k lhs mid rhs) := by
  unfold precNode; infer_instance

/-- Precedence at one node of a tree. -/
def precAt : AST → Prop
  | .null => True
  | .node k _ lhs mid rhs => precNode k lhs mid rhs

instance (t : AST) : Decidable (precAt t) := by
  cases t with
  | null => exact isTrue trivial
  | node k v l m r => exact inferInstanceAs (Decidable (precNode k l m r))

/-- The root kinds `parse` can return in each grammar state: the kinds the
state builds itself and those of the later states. -/
def allowed : GrammarState → Kind → Bool
  | .PRI_EXPR, k => k = .LPAR || k = .IDENTIFIER || k = .CONSTANT
  | .POSTFIX_EXPR, k => isPost k || (k = .LPAR || k = .IDENTIFIER || k = .CONSTANT)
  | .UNARY_EXPR, k => isPre k || isPost k || (k = .LPAR || k = .IDENTIFIER || k = .CONSTANT)
  | .MUL_EXPR, k =>
    condMUL k || isPre k || isPost k || (k = .LPAR || k = .IDENTIFIER || k = .CONSTANT)
  | .ADD_EXPR, k =>
    condADD k || condMUL k || isPre k || isPost k
      || (k = .LPAR || k = .IDENTIFIER || k = .CONSTANT)
  | _, k =>
    condASSIGN k || condADD k || condMUL k || isPre k || isPost k
      || (k = .LPAR || k = .IDENTIFIER || k = .CONSTANT)

/-- The root of `t` is a node of a kind allowed in state `S`. -/
def rootAllowed (S : GrammarState) (t : AST) : Prop :=
  ∃ k, t.rootKind = some k ∧ allowed S k = true

/-- An operand token: an identifier or a constant. -/
def isOperandTok (t : Token) : Prop := t.kind = .IDENTIFIER ∨ t.kind = .CONSTANT

instance (t : Token) : Decidable (isOperandTok t) := by
  unfold isOperandTok; infer_instance

/-- The kind of the binary node for an operator token as the lexer emits it:
`+` and `-` come as `PLUS` and `MINUS` and make `ADD` and `SUB` nodes. -/
def binaryOf (k : Kind) : Kind :=
  if k = .PLUS then .ADD else if k = .MINUS then .SUB else k

/-- The leaf node of an operand token. -/
def leafOf (t : Token) : AST := new_AST t.kind t.val

/-- A token with its value renamed by `f`. -/
def Token.mapVal (f : Int → Int) (t : Token) : Token := ⟨t.kind, f t.val⟩

/-- A tree with the value of every node renamed by `f`. -/
def AST.mapVal (f : Int → Int) : AST → AST
  | .null => .null
  | .node kind val lhs mid rhs =>
    .node kind (f val) (lhs.mapVal f) (mid.mapVal f) (rhs.mapVal f)

/-- An outcome with its result transformed. -/
def Res.map {α β : Type} (g : α → β) : Res α → Res β
  | .ok a => .ok (g a)
  | .err m => .err m
  | .ub => .ub

/-- The renaming that sends 1, 2, 3 to `a`, `b`, `c` and everything else to 0. -/
def rename3 (a b c : Int) (v : Int) : Int :=
  if v = 1 then a else if v = 2 then b else if v = 3 then c else 0

/-- The children a node needs are there: `lhs` and `rhs` of an Assign or
binary node, `mid` of a prefix, postfix or Parenthesized-group node. -/
def presentAt : AST → Prop
  | .null => True
  | .node k _ lhs mid rhs =>
    ((condASSIGN k = true ∨ condADD k = true ∨ condMUL k = true) →
      lhs ≠ .null ∧ rhs ≠ .null) ∧
    ((isPre k = true ∨ isPost k = true ∨ k = .LPAR) → mid ≠ .null)

instance (t : AST) : Decidable (presentAt t) := by
  cases t with
  | null => exact isTrue trivial
  | node k v l m r => unfold presentAt; infer_instance

/-- Every node of the tree has the children its kind requires. -/
def childrenPresent (t : AST) : Prop := ∀ n ∈ t.subtrees, presentAt n

instance (t : AST) : Decidable (childrenPresent t) := by
  unfold childrenPresent; infer_instance

/-- A tree with all its outer Parenthesized-group wrappers removed. -/
def stripParens : AST → AST
  | .null => .null
  | .node kind val lhs mid rhs =>
    if kind = .LPAR then stripParens mid else .node kind val lhs mid rhs

/-- The kinds of the increment and decrement nodes. -/
def isIncDec (k : Kind) : Bool :=
  k = .PREINC || k = .PREDEC || k = .POSTINC || k = .POSTDEC

/-- The lvalue requirement at one node: the `lhs` of an Assign node and the
`mid` of an increment or decrement node are identifiers once their
Parenthesized-group wrappers are removed. -/
def lvalueAt : AST → Prop
  | .null => True
  | .node k _ lhs mid _ =>
    (k = .ASSIGN → (stripParens lhs).rootKind = some .IDENTIFIER) ∧
    (isIncDec k = true → (stripParens mid).rootKind = some .IDENTIFIER)

instance (t : AST) : Decidable (lvalueAt t) := by
  cases t with
  | null => exact isTrue trivial
  | node k v l m r => unfold lvalueAt; infer_instance

/-- The two messages of `semantic_check` (the spec's LvalueError). -/
def lvalueErrors : List String :=
  ["Lvalue is required as left operand of assignment.",
   "Identifier is required as mid operand of INC/DEC."]

/-- The outcomes `semantic_check` can have on a well-formed tree. -/
def checkOutcome (x : Res Unit) : Prop :=
  x = .ok () ∨ x = .err "Lvalue is required as left operand of assignment."
    ∨ x = .err "Identifier is required as mid operand of INC/DEC."

/-- The outcome of `semantic_check` on the AST of a line. -/
def checkLine (line : String) : Option (Res Unit) :=
  match parseLine line with
  | some (.ok ast) => some (semantic_check ast)
  | some (.err m) => some (.err m)
  | some .ub => some .ub
  | none => none

/-- The messages of the four `err` calls of `parse` that can be reached. -/
def parseErrors : List String :=
  ["Expected ';' at the end of line.", "Unexpected parsing range.",
   "Unexpected token during parsing.", "No token left for parsing."]

/-- The outcomes `parse` can have: an AST, or one of its four errors. -/
def parseOutcome (x : Res AST) : Prop :=
  (∃ t, x = .ok t) ∨ ∃ m ∈ parseErrors, x = .err m

/-- The number of grammar states after `S`. -/
def GrammarState.rank : GrammarState → Nat
  | .STMT => 7 | .EXPR => 6 | .ASSIGN_EXPR => 5 | .ADD_EXPR => 4 | .MUL_EXPR => 3
  | .UNARY_EXPR => 2 | .POSTFIX_EXPR => 1 | .PRI_EXPR => 0

/-- Fuel that is enough for `parse(arr, l, r, S)`: every recursive call
shrinks the range or keeps it and moves to a later state. -/
def parseNeed (l r : Int) (S : GrammarState) : Nat :=
  8 * (r - l + 1).toNat + S.rank + 1

/-- The last token of the array is `End`. -/
def lastIsEnd (arr : List Token) : Prop := ∃ t, arr.getLast? = some t ∧ t.kind = .END

/-- No token before the last one is `End`. -/
def noEarlierEnd (arr : List Token) : Prop := ∀ t ∈ arr.dropLast, t.kind ≠ .END

/-- A load-immediate of `v`: the line `add r%d 0 %d`. -/
def isLoadImm (v : Int) : Instr → Bool
  | ⟨.add, [.reg _, .imm 0, .imm w]⟩ => w = v
  | _ => false

/-- An arithmetic line on three registers with opcode `op`. -/
def isRegOp (op : Op) : Instr → Bool
  | ⟨o, [.reg _, .reg _, .reg _]⟩ => o = op
  | _ => false

/-- The move of an assignment: the line `add r%d 0 r%d`. -/
def isMove : Instr → Bool
  | ⟨.add, [.reg _, .imm 0, .reg _]⟩ => true
  | _ => false

/-- A store to the memory slot `[a]`. -/
def isStoreTo (a : Int) : Instr → Bool
  | ⟨.store, [.mem b, .reg _]⟩ => b = a
  | _ => false

/-- The order of instructions the claim states for `x=1+2*3;`. -/
def claimedOrder : List Instr → Bool
  | [i1, i2, i3, i4, i5, i6, i7] =>
    isLoadImm 3 i1 && isLoadImm 2 i2 && isRegOp .mul i3 && isLoadImm 1 i4
      && isRegOp .add i5 && isMove i6 && isStoreTo 0 i7
  | _ => false

/-- The order of instructions `codegen` emits for `x=1+2*3;`. -/
def emittedOrder : List Instr → Bool
  | [i1, i2, i3, i4, i5, i6, i7] =>
    isLoadImm 1 i1 && isLoadImm 2 i2 && isLoadImm 3 i3 && isRegOp .mul i4
      && isRegOp .add i5 && isMove i6 && isStoreTo 0 i7
  | _ => false

/-- The register indices that appear in an operand list. -/
def regsOf : List Operand → List Int
  | [] => []
  | .reg n :: rest => n :: regsOf rest
  | _ :: rest => regsOf rest

/-- The register indices that appear in an instruction. -/
def Instr.regs (i : Instr) : List Int := regsOf i.args

/-- The number of nodes on the longest path from the root down (0 for `NULL`). -/
def AST.height : AST → Nat
  | .null => 0
  | .node _ _ lhs mid rhs => 1 + max lhs.height (max mid.height rhs.height)

/-- The nesting depth of a tree: its height in edges, a leaf having depth 0. -/
def AST.depth (t : AST) : Nat := t.height - 1

/-- The distinct register indices used by a list of instructions. -/
def usedRegs (out : List Instr) : List Int := (out.flatMap Instr.regs).dedup

/-- The identifier obtained by unwrapping an operand: the value of the
Identifier node left when the Parenthesized-group wrappers are removed. -/
def identVal (t : AST) : Option Int :=
  match stripParens t with
  | .node .IDENTIFIER v _ _ _ => some v
  | _ => none

/-- The memory access `codegen` prints for an identifier at register index
`n`: a store in store mode (`memJudge = 1`), a load otherwise. -/
def memAccess (memJudge n a : Int) : Instr :=
  if memJudge = 1 then ⟨.store, [.mem a, .reg n]⟩ else ⟨.load, [.reg n, .mem a]⟩

/-- The ParseError kind `MissingTerminator`: the message of the `err` call of
state `STMT`. -/
def MissingTerminator : String := "Expected ';' at the end of line."

/-- The ParseError kind `EmptyOrInvertedRange`: the message of the `err` call
for `l > r`. -/
def EmptyOrInvertedRange : String := "Unexpected parsing range."

/-- The ParseError kind `UnexpectedToken`: the message of the `err` call for a
single token that is no operand. -/
def UnexpectedToken : String := "Unexpected token during parsing."

/-- The ParseError kind `IncompleteExpression`: the message of the last `err`
call of state `PRI_EXPR`. -/
def IncompleteExpression : String := "No token left for parsing."

/-- A run of `main` over some input lines: the statics of `codegen` at its
end, the instructions printed, and how it ended (`ok` at the end of the
input, `err` when a line called `err`, which exits the process). -/
structure Run where
  statics : CG
  printed : List Instr
  ending : Res Unit
  deriving DecidableEq

/-- The `while` loop of `main` over the lines `fgets` delivers, started with
the statics `s`: `err` ends the whole run (`exit(0)`), so the lines after a
failing line are not read.  `none` when `parse` runs out of fuel. -/
def mainLoop : List String → CG → Option Run
  | [], s => some ⟨s, [], .ok ()⟩
  | line :: rest, s =>
    match compileLine line s with
    | none => none
    | some (.ok p) =>
      (mainLoop rest p.1).map fun run => ⟨run.statics, p.2 ++ run.printed, run.ending⟩
    | some (.err m) => some ⟨s, [], .err m⟩
    | some .ub => some ⟨s, [], .ub⟩

/-- The instructions a run of `main` prints from the start of the program. -/
def printedBy (lines : List String) : Option (List Instr) :=
  (mainLoop lines CG.init).map Run.printed

/-- The recursive calls in the body of `parse`: `Calls arr l r S l2 r2 S2`
holds when `parse(arr, l, r, S)` contains, on a path its tests allow, the call
`parse(arr, l2, r2, S2)`. -/
inductive Calls (arr : List Token) :
    Int → Int → GrammarState → Int → Int → GrammarState → Prop where
  | stmt {l r : Int} : l ≤ r → (tokAt arr r).kind = .END →
      Calls arr l r .STMT l (r - 1) .EXPR
  | expr {l r : Int} : l ≤ r → Calls arr l r .EXPR l r .ASSIGN_EXPR
  | assignL {l r : Int} : l ≤ r → findNextSection arr l r condASSIGN ≠ -1 →
      Calls arr l r .ASSIGN_EXPR l (findNextSection arr l r condASSIGN - 1) .UNARY_EXPR
  | assignR {l r : Int} : l ≤ r → findNextSection arr l r condASSIGN ≠ -1 →
      Calls arr l r .ASSIGN_EXPR (findNextSection arr l r condASSIGN + 1) r .ASSIGN_EXPR
  | assignNone {l r : Int} : l ≤ r → findNextSection arr l r condASSIGN = -1 →
      Calls arr l r .ASSIGN_EXPR l r .ADD_EXPR
  | addL {l r : Int} : l ≤ r → findNextSection arr r l condADD ≠ -1 →
      Calls arr l r .ADD_EXPR l (findNextSection arr r l condADD - 1) .ADD_EXPR
  | addR {l r : Int} : l ≤ r → findNextSection arr r l condADD ≠ -1 →
      Calls arr l r .ADD_EXPR (findNextSection arr r l condADD + 1) r .MUL_EXPR
  | addNone {l r : Int} : l ≤ r → findNextSection arr r l condADD = -1 →
      Calls arr l r .ADD_EXPR l r .MUL_EXPR
  | mulL {l r : Int} : l ≤ r → findNextSection arr r l condMUL ≠ -1 →
      Calls arr l r .MUL_EXPR l (findNextSection arr r l condMUL - 1) .MUL_EXPR
  | mulR {l r : Int} : l ≤ r → findNextSection arr r l condMUL ≠ -1 →
      Calls arr l r .MUL_EXPR (findNextSection arr r l condMUL + 1) r .UNARY_EXPR
  | mulNone {l r : Int} : l ≤ r → findNextSection arr r l condMUL = -1 →
      Calls arr l r .MUL_EXPR l r .UNARY_EXPR
  | unary {l r : Int} : l ≤ r → Calls arr l r .UNARY_EXPR (l + 1) r .UNARY_EXPR
  | unaryNone {l r : Int} : l ≤ r → Calls arr l r .UNARY_EXPR l r .POSTFIX_EXPR
  | post {l r : Int} : l ≤ r → Calls arr l r .POSTFIX_EXPR l (r - 1) .POSTFIX_EXPR
  | postNone {l r : Int} : l ≤ r → Calls arr l r .POSTFIX_EXPR l r .PRI_EXPR
  | paren {l r : Int} : l ≤ r → Calls arr l r .PRI_EXPR (l + 1) (r - 1) .EXPR

/-- A node of kind `k` has exactly the children its kind uses: `lhs` and
`rhs` (and no `mid`) for Assign and the binary operators; `mid` (and no `lhs`,
`rhs`) for the prefix and postfix operators and the Parenthesized-group; none
for Identifier and Constant.  No node has another kind. -/
def shapeNode (k : Kind) (lhs mid rhs : AST) : Prop :=
  if condASSIGN k = true ∨ condADD k = true ∨ condMUL k = true then
    lhs ≠ .null ∧ rhs ≠ .null ∧ mid = .null
  else if isPre k = true ∨ isPost k = true ∨ k = .LPAR then
    mid ≠ .null ∧ lhs = .null ∧ rhs = .null
  else if k = .IDENTIFIER ∨ k = .CONSTANT then
    lhs = .null ∧ mid = .null ∧ rhs = .null
  else False

instance (k : Kind) (lhs mid rhs : AST) : Decidable (shapeNode k lhs mid rhs) := by
  unfold shapeNode; infer_instance

/-- The shape requirement at one node of a tree. -/
def shapeAt : AST → Prop
  | .null => True
  | .node k _ lhs mid rhs => shapeNode k lhs mid rhs

instance (t : AST) : Decidable (shapeAt t) := by
  cases t with
  | null => exact isTrue trivial
  | node k v l m r => exact inferInstanceAs (Decidable (shapeNode k l m r))

/-- An Identifier node names one of the variables `x`, `y`, `z`. -/
def identAt : AST → Prop
  | .null => True
  | .node k v _ _ _ => k = .IDENTIFIER → (v = 120 ∨ v = 121 ∨ v = 122)

instance (t : AST) : Decidable (identAt t) := by
  cases t with
  | null => exact isTrue trivial
  | node k v l m r => unfold identAt; infer_instance

/-- Every Identifier node of the tree names `x`, `y` or `z`. -/
def identsOK (t : AST) : Prop := ∀ n ∈ t.subtrees, identAt n

instance (t : AST) : Decidable (identsOK t) := by
  unfold identsOK; infer_instance

/-- The instructions of an outcome of `codegen`, without the statics. -/
def printedOf (x : Res (CG × List Instr)) : Res (List Instr) := Res.map Prod.snd x

/-- A letter other than `x`, `y`, `z`. -/
def isOtherLetter (c : Char) : Prop := c.isAlpha = true ∧ c ≠ 'x' ∧ c ≠ 'y' ∧ c ≠ 'z'

instance (c : Char) : Decidable (isOtherLetter c) := by
  unfold isOtherLetter; infer_instance

/-- The characters `lexer` has a branch for: spaces, digits, the variables
and the nine symbols. -/
def lexable (c : Char) : Prop :=
  isspace c = true ∨ isdigit c = true ∨ ('x' ≤ c ∧ c ≤ 'z') ∨
    c = '=' ∨ c = '+' ∨ c = '-' ∨ c = '*' ∨ c = '/' ∨ c = '%' ∨ c = '(' ∨ c = ')' ∨ c = ';'

/-- The value of an Identifier token or node is the code of `x`, `y` or `z`. -/
def isVarCode (v : Int) : Prop := v = 120 ∨ v = 121 ∨ v = 122

instance (v : Int) : Decidable (isVarCode v) := by
  unfold isVarCode; infer_instance

/-- The parentheses of the range `[l, r]` are properly nested: the depth
never goes below zero from the left and is zero at the end. -/
def properlyNested (arr : List Token) (l r : Int) : Prop :=
  (∀ k : Nat, k ≤ (r - l + 1).toNat → 0 ≤ parCount arr l k)
    ∧ parCount arr l (r - l + 1).toNat = 0

/-- The token at index `i` of a range that starts at `l` satisfies `cond` and
lies outside every parenthesis pair of the range: no parenthesis opened at or
after `l` is still open at `i`. -/
def depth0Match (arr : List Token) (l : Int) (cond : Kind → Bool) (i : Int) : Prop :=
  cond (tokAt arr i).kind = true ∧ parCount arr l (i - l).toNat = 0

/-- The tokens of `(x+y)+z` after disambiguation, used to instantiate the
scanning theorem. -/
def nestedSample : List Token :=
  [⟨.LPAR, 0⟩, ⟨.IDENTIFIER, 120⟩, ⟨.ADD, 0⟩, ⟨.IDENTIFIER, 121⟩, ⟨.RPAR, 0⟩, ⟨.ADD, 0⟩,
    ⟨.IDENTIFIER, 122⟩]

/-- The `n` tokens `arr[i], arr[i+1], ...` read off the array. -/
def segment (arr : List Token) : Int → Nat → List Token
  | _, 0 => []
  | i, n + 1 => tokAt arr i :: segment arr (i + 1) n

/-- What the parser keeps of a token: its kind, and its value when it is an
Identifier or a Constant. -/
def tokenView (t : Token) : Token :=
  if t.kind = .IDENTIFIER ∨ t.kind = .CONSTANT then t else ⟨t.kind, 0⟩

/-- Writing a tree back out in order, in the words of the specification: a
binary node gives its lhs, its operator, its rhs; a prefix node its operator,
then its operand; a postfix node its operand, then the raw `++`/`--` kind; a
parenthesized group `LPAR`, its operand, `RPAR`; a leaf its kind and value. -/
def writeOut : AST → List Token
  | .null => []
  | .node k v lhs mid rhs =>
    if condASSIGN k = true ∨ condADD k = true ∨ condMUL k = true then
      writeOut lhs ++ ⟨k, 0⟩ :: writeOut rhs
    else if isPre k = true then ⟨k, 0⟩ :: writeOut mid
    else if k = .POSTINC then writeOut mid ++ [⟨.PREINC, 0⟩]
    else if k = .POSTDEC then writeOut mid ++ [⟨.PREDEC, 0⟩]
    else if k = .LPAR then ⟨.LPAR, 0⟩ :: (writeOut mid ++ [⟨.RPAR, 0⟩])
    else [⟨k, v⟩]

/-! ## The machine of the instructions and the reference evaluator -/

/-- A state of the machine the instructions are for: integer registers
`r0, r1, ...` and integer memory cells. -/
structure Machine where
  reg : Int → Int
  mem : Int → Int

/-- A register file or a memory with the entry at `a` replaced by `v`. -/
def setCell (f : Int → Int) (a v : Int) : Int → Int := fun k => if k = a then v else f k

/-- The arithmetic of the machine: `div` and `rem` truncate as in C and have
no result when the divisor is zero. -/
def alu : Op → Int → Int → Option Int
  | .add, a, b => some (a + b)
  | .sub, a, b => some (a - b)
  | .mul, a, b => some (a * b)
  | .div, a, b => if b = 0 then none else some (Int.tdiv a b)
  | .rem, a, b => if b = 0 then none else some (Int.tmod a b)
  | .load, _, _ => none
  | .store, _, _ => none

/-- The value of a source operand: a register or a bare number. -/
def Operand.value (st : Machine) : Operand → Option Int
  | .reg k => some (st.reg k)
  | .imm v => some v
  | .mem _ => none

/-- One instruction, destination first as printed: `load rd [a]`,
`store [a] rs`, and `op rd s1 s2` for the arithmetic opcodes.  Any other line
is not an instruction, and a division by zero has no next state. -/
def stepInstr (st : Machine) (i : Instr) : Option Machine :=
  match i.op with
  | .load =>
    match i.args with
    | [.reg d, .mem a] => some { st with reg := setCell st.reg d (st.mem a) }
    | _ => none
  | .store =>
    match i.args with
    | [.mem a, .reg s] => some { st with mem := setCell st.mem a (st.reg s) }
    | _ => none
  | op =>
    match i.args with
    | [.reg d, x, y] =>
      (x.value st).bind fun a => (y.value st).bind fun b =>
        (alu op a b).map fun c => { st with reg := setCell st.reg d c }
    | _ => none

/-- The instructions executed in order. -/
def exec : List Instr → Machine → Option Machine
  | [], st => some st
  | i :: rest, st => (stepInstr st i).bind (exec rest)

/-- The memory cell of a variable: `x` at `[0]`, `y` at `[4]`, `z` at `[8]`. -/
def cellOf (v : Int) : Option Int :=
  if v = 120 then some 0 else if v = 121 then some 4 else if v = 122 then some 8 else none

/-- The cell an operand of `=`, `++` or `--` denotes: that of the identifier
inside its parentheses. -/
def lvalueCell (t : AST) : Option Int := (identVal t).bind cellOf

/-- The value of a binary operator on two integers; `/` and `%` truncate as in
C and have no value when the divisor is zero. -/
def binop : Kind → Int → Int → Option Int
  | .ADD, a, b => some (a + b)
  | .SUB, a, b => some (a - b)
  | .MUL, a, b => some (a * b)
  | .DIV, a, b => if b = 0 then none else some (Int.tdiv a b)
  | .REM, a, b => if b = 0 then none else some (Int.tmod a b)
  | _, _, _ => none

/-- The reference evaluator: the value of an expression and the memory after
it, from the memory before it.  A binary operator evaluates its left operand,
then its right one; an assignment evaluates its right side, stores it and
yields it; prefix `++`/`--` store and yield the new value; postfix `++`/`--`
store the new value and yield the old one; unary minus yields `0 - v`, unary
plus `v`; parentheses are transparent.  There is no value for a division by
zero, nor for a tree that is not an expression. -/
def refEval : AST → (Int → Int) → Option (Int × (Int → Int))
  | .null, _ => none
  | .node kind val lhs mid rhs, m =>
    match kind with
    | .ASSIGN =>
      (refEval rhs m).bind fun p =>
        (lvalueCell lhs).map fun a => (p.1, setCell p.2 a p.1)
    | .ADD | .SUB | .MUL | .DIV | .REM =>
      (refEval lhs m).bind fun p =>
        (refEval rhs p.2).bind fun q =>
          (binop kind p.1 q.1).map fun c => (c, q.2)
    | .PREINC => (lvalueCell mid).map fun a => (m a + 1, setCell m a (m a + 1))
    | .PREDEC => (lvalueCell mid).map fun a => (m a - 1, setCell m a (m a - 1))
    | .POSTINC => (lvalueCell mid).map fun a => (m a, setCell m a (m a + 1))
    | .POSTDEC => (lvalueCell mid).map fun a => (m a, setCell m a (m a - 1))
    | .PLUS => refEval mid m
    | .MINUS => (refEval mid m).map fun p => (0 - p.1, p.2)
    | .LPAR => refEval mid m
    | .IDENTIFIER => (cellOf val).map fun a => (m a, m)
    | .CONSTANT => some (val, m)
    | .RPAR | .END => none

/-- No node of the tree is a division or a remainder. -/
def noDivision (t : AST) : Prop :=
  ∀ x ∈ t.subtrees, x.rootKind ≠ some .DIV ∧ x.rootKind ≠ some .REM

instance (t : AST) : Decidable (noDivision t) := by
  unfold noDivision; infer_instance

/-- A machine state for the examples: all registers hold 7, and the cells of
`x`, `y`, `z` hold 10, 20, 30. -/
def sampleMachine : Machine :=
  ⟨fun _ => 7, fun a => if a = 0 then 10 else if a = 4 then 20 else if a = 8 then 30 else 0⟩

/-- The AST of `x=y++*(3-z);`. -/
def sampleTree : AST :=
  .node .ASSIGN 0 (new_AST .IDENTIFIER 120) .null
    (.node .MUL 0 (.node .POSTINC 0 .null (new_AST .IDENTIFIER 121) .null) .null
      (.node .LPAR 0 .null
        (.node .SUB 0 (new_AST .CONSTANT 3) .null (new_AST .IDENTIFIER 122)) .null))

/-- The C string in a buffer: the characters before its first NUL. -/
def cString (buf : List Char) : List Char := buf.takeWhile fun c => c.toNat != 0

/-! # Properties -/

/-! ## Token array reads and writes -/

theorem tokAt_outside (arr : List Token) (i : Int) (h : i < 0 ∨ (arr.length : Int) ≤ i) :
    tokAt arr i = Token.outside := by
  unfold tokAt
  split
  · rfl
  · rw [List.getD_eq_getElem?_getD, List.getElem?_eq_none (by omega)]
    rfl

theorem length_setKind (arr : List Token) (i : Int) (k : Kind) :
    (setKind arr i k).length = arr.length := by
  unfold setKind
  split <;> simp

theorem tokAt_setKind (arr : List Token) (i j : Int) (k : Kind)
    (hi : 0 ≤ i) (hlen : i < arr.length) :
    tokAt (setKind arr i k) j = if j = i then ⟨k, (tokAt arr i).val⟩ else tokAt arr j := by
  unfold setKind
  rw [if_neg (by omega)]
  by_cases hj : j < 0
  · have : j ≠ i := by omega
    simp [tokAt, hj, this]
  · simp only [tokAt, hj, if_false, List.getD_eq_getElem?_getD, List.getElem?_set]
    by_cases hji : j = i
    · subst hji
      have : j.toNat < arr.length := by omega
      simp [this]
    · have : i.toNat ≠ j.toNat := by omega
      simp [this, hji]

/-! ## The disambiguation pass -/

theorem operandEnd_reclass (t : Token) (p : Kind) :
    operandEnd (reclass t p).kind ↔ operandEnd t.kind := by
  unfold reclass
  split
  · rename_i h
    rcases h with ⟨h | h, _⟩ <;> simp [operandEnd, h]
  · rfl

theorem parserStep_eq (arr : List Token) (i : Int) :
    parserStep arr i
      = if (tokAt arr i).kind = .PLUS ∨ (tokAt arr i).kind = .MINUS then
          (if operandEnd (tokAt arr (i - 1)).kind then
            setKind arr i (if (tokAt arr i).kind = .PLUS then .ADD else .SUB) else arr)
        else arr := by
  unfold parserStep
  split
  · rename_i h
    have hk : Kind.ofInt ((tokAt arr i).kind.toInt - Kind.PLUS.toInt + Kind.ADD.toInt)
        = if (tokAt arr i).kind = .PLUS then .ADD else .SUB := by
      rcases h with h | h <;> rw [h] <;> decide
    rw [hk]
    cases hp : (tokAt arr (i - 1)).kind <;> simp [operandEnd]
  · rfl

theorem length_parserStep (arr : List Token) (i : Int) :
    (parserStep arr i).length = arr.length := by
  unfold parserStep
  split
  · split <;> simp [length_setKind]
  · rfl

theorem tokAt_parserStep (arr : List Token) (i j : Int) (hi : 0 ≤ i) (hlen : i < arr.length) :
    tokAt (parserStep arr i) j
      = if j = i then reclass (tokAt arr i) (tokAt arr (i - 1)).kind else tokAt arr j := by
  rw [parserStep_eq arr i]
  unfold reclass
  by_cases h1 : (tokAt arr i).kind = .PLUS ∨ (tokAt arr i).kind = .MINUS
  · by_cases h2 : operandEnd (tokAt arr (i - 1)).kind
    · simp only [h1, h2, if_true, and_self]
      rw [tokAt_setKind arr i j _ hi hlen]
    · simp only [h1, h2, if_true, if_false, and_false]
      split
      · rename_i h; rw [h]
      · rfl
  · simp only [h1, if_false, false_and]
    split
    · rename_i h; rw [h]
    · rfl

/-- The loop invariant of the pass: entered at `i` on an array `a` that agrees
with the original `o` from `i` on and holds the reclassified tokens before
`i`, the loop ends with every token from index 1 on reclassified against the
original kind of its left neighbour. -/
theorem parserLoop_spec (o : List Token) :
    ∀ (fuel : Nat) (i : Int) (a : List Token), 1 ≤ i → a.length = o.length →
      (o.length : Int) ≤ i + fuel →
      (∀ j, tokAt a j = if 1 ≤ j ∧ j < i then reclass (tokAt o j) (tokAt o (j - 1)).kind
                        else tokAt o j) →
      (parserLoop fuel i a).length = o.length ∧
      ∀ j, tokAt (parserLoop fuel i a) j
            = if 1 ≤ j ∧ j < o.length then reclass (tokAt o j) (tokAt o (j - 1)).kind
              else tokAt o j := by
  intro fuel
  induction fuel with
  | zero =>
    intro i a hi hlen hfuel hinv
    refine ⟨hlen, fun j => ?_⟩
    simp only [parserLoop]
    rw [hinv j]
    by_cases hj : 1 ≤ j ∧ j < o.length
    · have : 1 ≤ j ∧ j < i := ⟨hj.1, by have := hj.2; simp at hfuel; omega⟩
      simp [hj, this]
    · by_cases hj2 : 1 ≤ j ∧ j < i
      · have hout : (o.length : Int) ≤ j := by omega
        have h1 : tokAt o j = Token.outside := tokAt_outside o j (Or.inr hout)
        simp only [hj, hj2, if_true, if_false, h1]
        simp [reclass, Token.outside]
      · simp [hj, hj2]
  | succ n ih =>
    intro i a hi hlen hfuel hinv
    simp only [parserLoop]
    by_cases hlt : i < (a.length : Int)
    · rw [if_pos hlt]
      apply ih (i + 1) (parserStep a i) (by omega) (by rw [length_parserStep, hlen])
        (by push_cast at hfuel ⊢; omega)
      intro j
      rw [tokAt_parserStep a i j (by omega) hlt]
      by_cases hji : j = i
      · subst hji
        have h1 : 1 ≤ j ∧ j < j + 1 := ⟨hi, by omega⟩
        simp only [h1, and_self, if_true]
        have h2 := hinv j
        have h3 := hinv (j - 1)
        simp only [lt_irrefl, and_false, if_false] at h2
        rw [h2]
        have hk : operandEnd (tokAt a (j - 1)).kind ↔ operandEnd (tokAt o (j - 1)).kind := by
          rw [h3]
          split
          · exact operandEnd_reclass _ _
          · rfl
        unfold reclass
        simp only [hk]
      · rw [if_neg hji, hinv j]
        have : (1 ≤ j ∧ j < i + 1) ↔ (1 ≤ j ∧ j < i) := by
          constructor
          · rintro ⟨h1, h2⟩; exact ⟨h1, by omega⟩
          · rintro ⟨h1, h2⟩; exact ⟨h1, by omega⟩
        simp only [this]
    · rw [if_neg hlt]
      refine ⟨hlen, fun j => ?_⟩
      rw [hinv j]
      rw [hlen] at hlt
      by_cases hj : 1 ≤ j ∧ j < o.length
      · have : 1 ≤ j ∧ j < i := ⟨hj.1, by omega⟩
        simp [hj, this]
      · by_cases hj2 : 1 ≤ j ∧ j < i
        · have hout : (o.length : Int) ≤ j := by omega
          have h1 : tokAt o j = Token.outside := tokAt_outside o j (Or.inr hout)
          simp only [hj, hj2, if_true, if_false, h1]
          simp [reclass, Token.outside]
        · simp [hj, hj2]

theorem length_disambiguate (arr : List Token) : (disambiguate arr).length = arr.length :=
  (parserLoop_spec arr arr.length 1 arr le_rfl rfl (by omega)
    (by intro j; rw [if_neg (by omega)])).1

theorem tokAt_disambiguate (arr : List Token) (j : Int) :
    tokAt (disambiguate arr) j
      = if 1 ≤ j ∧ j < arr.length then reclass (tokAt arr j) (tokAt arr (j - 1)).kind
        else tokAt arr j :=
  (parserLoop_spec arr arr.length 1 arr le_rfl rfl (by omega)
    (by intro j; rw [if_neg (by omega)])).2 j

/-! ## The disambiguation pass on any array -/

/-- The pass on an arbitrary token array, also one that holds `ADD` or `SUB`
before the pass (the lexer makes no such array): the token at an index
`i ≥ 1` ends up `ADD` (resp. `SUB`) iff it was `ADD` (resp. `SUB`) already, or
it was `PLUS` (resp. `MINUS`) and the original kind of the token at `i - 1` is
one of `PREINC`, `PREDEC`, `IDENTIFIER`, `CONSTANT`, `RPAR`; every other token
is left unchanged, and so are the token at index 0, every token value and the
length of the array. -/
theorem disambiguate_pure (arr : List Token) (i : Int) (h1 : 1 ≤ i) (h2 : i < arr.length) :
    tokAt (disambiguate arr) i = reclass (tokAt arr i) (tokAt arr (i - 1)).kind
    ∧ ((tokAt (disambiguate arr) i).kind = .ADD ↔
        (tokAt arr i).kind = .ADD ∨
          ((tokAt arr i).kind = .PLUS ∧ operandEnd (tokAt arr (i - 1)).kind))
    ∧ ((tokAt (disambiguate arr) i).kind = .SUB ↔
        (tokAt arr i).kind = .SUB ∨
          ((tokAt arr i).kind = .MINUS ∧ operandEnd (tokAt arr (i - 1)).kind))
    ∧ (¬ (((tokAt arr i).kind = .PLUS ∨ (tokAt arr i).kind = .MINUS)
            ∧ operandEnd (tokAt arr (i - 1)).kind) →
        tokAt (disambiguate arr) i = tokAt arr i)
    ∧ tokAt (disambiguate arr) 0 = tokAt arr 0
    ∧ (∀ j, (tokAt (disambiguate arr) j).val = (tokAt arr j).val)
    ∧ (disambiguate arr).length = arr.length := by
  have hi : tokAt (disambiguate arr) i = reclass (tokAt arr i) (tokAt arr (i - 1)).kind := by
    rw [tokAt_disambiguate, if_pos ⟨h1, h2⟩]
  refine ⟨hi, ?_, ?_, ?_, ?_, ?_, length_disambiguate arr⟩
  · rw [hi]; unfold reclass
    generalize tokAt arr i = t
    obtain ⟨k, v⟩ := t
    by_cases hp : operandEnd (tokAt arr (i - 1)).kind <;> cases k <;> simp [hp]
  · rw [hi]; unfold reclass
    generalize tokAt arr i = t
    obtain ⟨k, v⟩ := t
    by_cases hp : operandEnd (tokAt arr (i - 1)).kind <;> cases k <;> simp [hp]
  · intro h
    rw [hi]; unfold reclass
    rw [if_neg h]
  · rw [tokAt_disambiguate, if_neg (by omega)]
  · intro j
    rw [tokAt_disambiguate]
    unfold reclass
    split
    · split <;> rfl
    · rfl

/-! ## Successful runs of `parse` -/

theorem andThen_eq_ok {x : Option (Res AST)} {f : AST → Option (Res AST)} {t : AST}
    (h : andThen x f = some (.ok t)) : ∃ a, x = some (.ok a) ∧ f a = some (.ok t) := by
  unfold andThen at h
  split at h
  · rename_i a; exact ⟨a, rfl, h⟩
  · rename_i hne
    exact absurd h (fun hx => hne t hx)

/-- Every successful run of the embedded `parse` is a derivation of `Parses`. -/
theorem parse_sound (arr : List Token) :
    ∀ (fuel : Nat) (l r : Int) (S : GrammarState) (t : AST),
      parse fuel arr l r S = some (.ok t) → Parses arr l r S t := by
  intro fuel
  induction fuel with
  | zero => intro l r S t h; simp [parse] at h
  | succ n ih =>
    intro l r S t h
    unfold parse at h
    by_cases hlr : l > r
    · simp [hlr] at h
    · rw [if_neg hlr] at h
      have hle : l ≤ r := by omega
      cases S with
      | STMT =>
        simp only at h
        split_ifs at h with h1 h2
        · cases h; exact .stmtEmpty h1.1 h1.2
        · exact .stmt hle h1 h2 (ih _ _ _ _ h)
        · simp at h
      | EXPR => exact .expr hle (ih _ _ _ _ h)
      | ASSIGN_EXPR =>
        simp only at h
        split_ifs at h with h1
        · obtain ⟨a, ha, h⟩ := andThen_eq_ok h
          obtain ⟨b, hb, h⟩ := andThen_eq_ok h
          cases h
          exact .assign hle h1 (ih _ _ _ _ ha) (ih _ _ _ _ hb)
        · exact .assignNone hle (by simpa using h1) (ih _ _ _ _ h)
      | ADD_EXPR =>
        simp only at h
        split_ifs at h with h1
        · obtain ⟨a, ha, h⟩ := andThen_eq_ok h
          obtain ⟨b, hb, h⟩ := andThen_eq_ok h
          cases h
          exact .add hle h1 (ih _ _ _ _ ha) (ih _ _ _ _ hb)
        · exact .addNone hle (by simpa using h1) (ih _ _ _ _ h)
      | MUL_EXPR =>
        simp only at h
        split_ifs at h with h1
        · obtain ⟨a, ha, h⟩ := andThen_eq_ok h
          obtain ⟨b, hb, h⟩ := andThen_eq_ok h
          cases h
          exact .mul hle h1 (ih _ _ _ _ ha) (ih _ _ _ _ hb)
        · exact .mulNone hle (by simpa using h1) (ih _ _ _ _ h)
      | UNARY_EXPR =>
        simp only at h
        split_ifs at h with h1
        · obtain ⟨a, ha, h⟩ := andThen_eq_ok h
          cases h
          exact .unary hle h1 (ih _ _ _ _ ha)
        · exact .unaryNone hle h1 (ih _ _ _ _ h)
      | POSTFIX_EXPR =>
        simp only at h
        split_ifs at h with h1
        · obtain ⟨a, ha, h⟩ := andThen_eq_ok h
          cases h
          exact .post hle h1 (ih _ _ _ _ ha)
        · exact .postNone hle h1 (ih _ _ _ _ h)
      | PRI_EXPR =>
        simp only at h
        split_ifs at h with h1 h2 h3
        · obtain ⟨a, ha, h⟩ := andThen_eq_ok h
          cases h
          exact .paren hle h1 (ih _ _ _ _ ha)
        · cases h
          exact .leaf hle h1 h2 h3
        · simp at h
        · simp at h

/-! ## `findNextSection` -/

theorem parCount_add (arr : List Token) (n m : Nat) :
    ∀ i : Int, parCount arr i (n + m) = parCount arr i n + parCount arr (i + n) m := by
  induction n with
  | zero => intro i; simp [parCount]
  | succ k ih =>
    intro i
    rw [Nat.succ_add, parCount, parCount, ih (i + 1)]
    push_cast
    rw [show i + 1 + (k : Int) = i + ((k : Int) + 1) by ring]
    ring

/-- The depth counter after the two updates of one iteration. -/
theorem par_update (k : Kind) (par : Int) :
    (if k = .RPAR then (if k = .LPAR then par + 1 else par) - 1
      else (if k = .LPAR then par + 1 else par)) = par + parDelta k := by
  unfold parDelta
  cases k <;> simp [sub_eq_add_neg]

/-- One iteration of the loop of `findNextSection`. -/
theorem findLoop_succ (arr : List Token) (s e : Int) (cond : Kind → Bool) (n : Nat)
    (i par : Int) :
    findLoop arr s e cond (n + 1) i par
      = if (if s < e then i ≤ e else i ≥ e) then
          (if par + parDelta (tokAt arr i).kind = 0 ∧ cond (tokAt arr i).kind = true then i
            else findLoop arr s e cond n (i + (if s < e then 1 else -1))
              (par + parDelta (tokAt arr i).kind))
        else -1 := by
  rw [findLoop]
  simp only [par_update]

/-- What `findNextSection` returns is `-1` or an index of the scanned range
whose token satisfies the condition. -/
theorem findLoop_range (arr : List Token) (s e : Int) (cond : Kind → Bool) :
    ∀ (fuel : Nat) (i par k : Int), findLoop arr s e cond fuel i par = k →
      k = -1 ∨ (cond (tokAt arr k).kind = true ∧
        (if s < e then i ≤ k ∧ k ≤ e else e ≤ k ∧ k ≤ i)) := by
  intro fuel
  induction fuel with
  | zero => intro i par k h; left; simpa [findLoop] using h.symm
  | succ n ih =>
    intro i par k h
    rw [findLoop_succ] at h
    by_cases h1 : (if s < e then i ≤ e else i ≥ e)
    · rw [if_pos h1] at h
      by_cases h2 : par + parDelta (tokAt arr i).kind = 0 ∧ cond (tokAt arr i).kind = true
      · rw [if_pos h2] at h
        subst h
        right
        refine ⟨h2.2, ?_⟩
        by_cases hse : s < e
        · simp only [hse, if_true] at h1 ⊢; omega
        · simp only [hse, if_false] at h1 ⊢; omega
      · rw [if_neg h2] at h
        rcases ih _ _ _ h with h3 | ⟨h3, h4⟩
        · exact Or.inl h3
        · right
          refine ⟨h3, ?_⟩
          by_cases hse : s < e
          · simp only [hse, if_true] at h4 ⊢; omega
          · simp only [hse, if_false] at h4 ⊢; omega
    · rw [if_neg h1] at h
      exact Or.inl h.symm

theorem findNextSection_fwd {arr : List Token} {l r k : Int} {cond : Kind → Bool}
    (hlr : l ≤ r) (h : findNextSection arr l r cond = k) (hk : k ≠ -1) :
    cond (tokAt arr k).kind = true ∧ l ≤ k ∧ k ≤ r := by
  rcases findLoop_range arr l r cond _ _ _ _ h with h1 | ⟨h1, h2⟩
  · exact absurd h1 hk
  · refine ⟨h1, ?_⟩
    by_cases hse : l < r <;> simp [hse] at h2 <;> omega

theorem findNextSection_bwd {arr : List Token} {l r k : Int} {cond : Kind → Bool}
    (hlr : l ≤ r) (h : findNextSection arr r l cond = k) (hk : k ≠ -1) :
    cond (tokAt arr k).kind = true ∧ l ≤ k ∧ k ≤ r := by
  rcases findLoop_range arr r l cond _ _ _ _ h with h1 | ⟨h1, h2⟩
  · exact absurd h1 hk
  · refine ⟨h1, ?_⟩
    have hse : ¬ r < l := by omega
    simp [hse] at h2
    omega

/-- In a forward scan the depth counter is zero at the index returned. -/
theorem findLoop_fwd_depth (arr : List Token) (s e : Int) (cond : Kind → Bool) (hse : s < e) :
    ∀ (fuel : Nat) (i par k : Int), findLoop arr s e cond fuel i par = k → k ≠ -1 →
      par + parCount arr i (k - i + 1).toNat = 0 := by
  intro fuel
  induction fuel with
  | zero => intro i par k h hk; simp [findLoop] at h; exact absurd h.symm hk
  | succ n ih =>
    intro i par k h hk
    rw [findLoop_succ] at h
    simp only [hse, if_true] at h
    by_cases h1 : i ≤ e
    · rw [if_pos h1] at h
      by_cases h2 : par + parDelta (tokAt arr i).kind = 0 ∧ cond (tokAt arr i).kind = true
      · rw [if_pos h2] at h
        subst h
        have : (i - i + 1).toNat = 1 := by simp
        rw [this, parCount, parCount]
        have h3 := h2.1
        omega
      · rw [if_neg h2] at h
        have h3 := ih _ _ _ h hk
        rcases findLoop_range arr s e cond _ _ _ _ h with h4 | ⟨_, h4⟩
        · exact absurd h4 hk
        · simp only [hse, if_true] at h4
          have : (k - i + 1).toNat = (k - (i + 1) + 1).toNat + 1 := by omega
          rw [this, parCount]
          omega
    · rw [if_neg h1] at h
      exact absurd h.symm hk

/-- When the forward scan for `RPAR` over `[l, r]` returns `r` itself, the
token at `r` is `RPAR`, the range has at least two tokens and its net
parenthesis depth is zero. -/
theorem findNextSection_RPAR {arr : List Token} {l r : Int} (hl : 0 ≤ l) (hlr : l ≤ r)
    (h : findNextSection arr l r condRPAR = r) :
    (tokAt arr r).kind = .RPAR ∧ l < r ∧ parCount arr l (r - l + 1).toNat = 0 := by
  have hk : r ≠ -1 := by omega
  have h1 := (findNextSection_fwd hlr h hk).1
  have hR : (tokAt arr r).kind = .RPAR := by simpa [condRPAR] using h1
  have hlt : l < r := by
    by_contra hne
    have heq : l = r := by omega
    subst heq
    unfold findNextSection at h
    simp only [sub_self, Int.natAbs_zero, zero_add] at h
    unfold findLoop at h
    simp only [lt_irrefl, if_false, ge_iff_le, le_refl, if_true, par_update] at h
    rw [hR] at h
    simp [parDelta, findLoop] at h
    omega
  refine ⟨hR, hlt, ?_⟩
  have := findLoop_fwd_depth arr l r condRPAR hlt _ _ _ _ h hk
  simpa using this

/-! ## Shape of the trees `parse` returns -/

theorem forall_subtrees_node {P : AST → Prop} (k : Kind) (v : Int) (l m r : AST) :
    (∀ n ∈ (AST.node k v l m r).subtrees, P n) ↔
      P (.node k v l m r) ∧ (∀ n ∈ l.subtrees, P n) ∧ (∀ n ∈ m.subtrees, P n)
        ∧ (∀ n ∈ r.subtrees, P n) := by
  simp only [AST.subtrees, List.mem_cons, List.mem_append]
  constructor
  · intro h
    exact ⟨h _ (Or.inl rfl), fun n hn => h n (Or.inr (Or.inl (Or.inl hn))),
      fun n hn => h n (Or.inr (Or.inl (Or.inr hn))), fun n hn => h n (Or.inr (Or.inr hn))⟩
  · rintro ⟨h0, h1, h2, h3⟩ n (rfl | (hn | hn) | hn)
    · exact h0
    · exact h1 n hn
    · exact h2 n hn
    · exact h3 n hn

theorem forall_subtrees_null {P : AST → Prop} : ∀ n ∈ AST.null.subtrees, P n := by
  simp [AST.subtrees]

theorem postKind_of (k : Kind) (h : k = .PREINC ∨ k = .PREDEC) :
    isPost (Kind.ofInt (k.toInt - Kind.PREINC.toInt + Kind.POSTINC.toInt)) = true ∧
    Kind.ofInt (k.toInt - Kind.PREINC.toInt + Kind.POSTINC.toInt)
      = (if k = .PREINC then .POSTINC else .POSTDEC) := by
  rcases h with h | h <;> subst h <;> decide

/-- A kind allowed in a state is allowed in every earlier state. -/
theorem allowed_mono (k : Kind) :
    (allowed .PRI_EXPR k = true → allowed .POSTFIX_EXPR k = true) ∧
    (allowed .POSTFIX_EXPR k = true → allowed .UNARY_EXPR k = true) ∧
    (allowed .UNARY_EXPR k = true → allowed .MUL_EXPR k = true) ∧
    (allowed .MUL_EXPR k = true → allowed .ADD_EXPR k = true) ∧
    (allowed .ADD_EXPR k = true → allowed .ASSIGN_EXPR k = true) ∧
    (allowed .ASSIGN_EXPR k = true → allowed .EXPR k = true) := by
  cases k <;> decide

/-- The kinds built by each state are allowed in it. -/
theorem allowed_own (k : Kind) :
    (condASSIGN k = true → allowed .ASSIGN_EXPR k = true) ∧
    (condADD k = true → allowed .ADD_EXPR k = true) ∧
    (condMUL k = true → allowed .MUL_EXPR k = true) ∧
    (isPre k = true → allowed .UNARY_EXPR k = true) ∧
    (isPost k = true → allowed .POSTFIX_EXPR k = true) ∧
    (k = .IDENTIFIER ∨ k = .CONSTANT → allowed .PRI_EXPR k = true) := by
  cases k <;> decide

theorem isPre_iff (k : Kind) :
    isPre k = true ↔ (k = .PREINC ∨ k = .PREDEC ∨ k = .PLUS ∨ k = .MINUS) := by
  cases k <;> decide

/-- The root of a tree returned in an expression state is a node of a kind
that state or a later one builds. -/
theorem Parses.rootAllowed {arr : List Token} {l r : Int} {S : GrammarState} {t : AST}
    (h : Parses arr l r S t) : S ≠ .STMT → rootAllowed S t := by
  induction h with
  | stmtEmpty => intro h; exact absurd rfl h
  | stmt => intro h; exact absurd rfl h
  | expr _ _ ih =>
    intro _
    obtain ⟨k, hk, ha⟩ := ih (by decide)
    exact ⟨k, hk, (allowed_mono k).2.2.2.2.2 ha⟩
  | assign hle hn _ _ _ _ =>
    intro _
    exact ⟨_, rfl, (allowed_own _).1 (findNextSection_fwd hle rfl hn).1⟩
  | assignNone _ _ _ ih =>
    intro _
    obtain ⟨k, hk, ha⟩ := ih (by decide)
    exact ⟨k, hk, (allowed_mono k).2.2.2.2.1 ha⟩
  | add hle hn _ _ _ _ =>
    intro _
    exact ⟨_, rfl, (allowed_own _).2.1 (findNextSection_bwd hle rfl hn).1⟩
  | addNone _ _ _ ih =>
    intro _
    obtain ⟨k, hk, ha⟩ := ih (by decide)
    exact ⟨k, hk, (allowed_mono k).2.2.2.1 ha⟩
  | mul hle hn _ _ _ _ =>
    intro _
    exact ⟨_, rfl, (allowed_own _).2.2.1 (findNextSection_bwd hle rfl hn).1⟩
  | mulNone _ _ _ ih =>
    intro _
    obtain ⟨k, hk, ha⟩ := ih (by decide)
    exact ⟨k, hk, (allowed_mono k).2.2.1 ha⟩
  | unary _ hk _ _ =>
    intro _
    exact ⟨_, rfl, (allowed_own _).2.2.2.1 ((isPre_iff _).2 hk)⟩
  | unaryNone _ _ _ ih =>
    intro _
    obtain ⟨k, hk, ha⟩ := ih (by decide)
    exact ⟨k, hk, (allowed_mono k).2.1 ha⟩
  | post _ hk _ _ =>
    intro _
    exact ⟨_, rfl, (allowed_own _).2.2.2.2.1 (postKind_of _ hk).1⟩
  | postNone _ _ _ ih =>
    intro _
    obtain ⟨k, hk, ha⟩ := ih (by decide)
    exact ⟨k, hk, (allowed_mono k).1 ha⟩
  | paren _ _ _ _ => intro _; exact ⟨_, rfl, by decide⟩
  | leaf _ _ _ hk =>
    intro _
    exact ⟨_, rfl, (allowed_own _).2.2.2.2.2 hk⟩

/-! ## C2: precedence -/

theorem not_binOrAssign_of_unary {t : AST} (h : rootAllowed .UNARY_EXPR t) :
    ¬ isBinOrAssign t := by
  obtain ⟨k, hk, ha⟩ := h
  rintro ⟨k2, hk2, hb⟩
  rw [hk] at hk2
  cases hk2
  revert ha hb
  cases k <;> decide

theorem precNode_assign {k : Kind} {lhs mid rhs : AST} (hk : condASSIGN k = true)
    (hl : rootAllowed .UNARY_EXPR lhs) : precNode k lhs mid rhs := by
  refine ⟨fun h => ?_, fun h => ?_, fun h => ?_, fun _ => not_binOrAssign_of_unary hl,
    fun h => ?_⟩
  · exfalso; revert hk h; cases k <;> decide
  · exfalso; revert hk h; cases k <;> decide
  · exfalso; revert hk h; cases k <;> decide
  · exfalso; revert hk h; cases k <;> decide

theorem precNode_add {k : Kind} {lhs mid rhs : AST} (hk : condADD k = true)
    (hl : rootAllowed .ADD_EXPR lhs) (hr : rootAllowed .MUL_EXPR rhs) :
    precNode k lhs mid rhs := by
  obtain ⟨kl, hkl, hal⟩ := hl
  obtain ⟨kr, hkr, har⟩ := hr
  have h2 : lhs.rootKind ≠ some .ASSIGN ∧ rhs.rootKind ≠ some .ASSIGN ∧
      rhs.rootKind ≠ some .ADD ∧ rhs.rootKind ≠ some .SUB := by
    rw [hkl, hkr]
    refine ⟨?_, ?_, ?_, ?_⟩
    · revert hal; cases kl <;> decide
    · revert har; cases kr <;> decide
    · revert har; cases kr <;> decide
    · revert har; cases kr <;> decide
  refine ⟨fun h => ?_, fun _ => h2, fun h => ?_, fun h => ?_, fun h => ?_⟩
  · exfalso; revert hk h; cases k <;> decide
  · exfalso; revert hk h; cases k <;> decide
  · exfalso; revert hk; rw [h]; decide
  · exfalso; revert hk h; cases k <;> decide

theorem precNode_mul {k : Kind} {lhs mid rhs : AST} (hk : condMUL k = true)
    (hl : rootAllowed .MUL_EXPR lhs) (hr : rootAllowed .UNARY_EXPR rhs) :
    precNode k lhs mid rhs := by
  obtain ⟨kl, hkl, hal⟩ := hl
  obtain ⟨kr, hkr, har⟩ := hr
  have h1 : lhs.rootKind ≠ some .ASSIGN ∧ lhs.rootKind ≠ some .ADD ∧
      lhs.rootKind ≠ some .SUB ∧ rhs.rootKind ≠ some .ASSIGN ∧ rhs.rootKind ≠ some .ADD ∧
      rhs.rootKind ≠ some .SUB ∧ rhs.rootKind ≠ some .MUL ∧ rhs.rootKind ≠ some .DIV ∧
      rhs.rootKind ≠ some .REM := by
    rw [hkl, hkr]
    refine ⟨?_, ?_, ?_, ?_, ?_, ?_, ?_, ?_, ?_⟩
    · revert hal; cases kl <;> decide
    · revert hal; cases kl <;> decide
    · revert hal; cases kl <;> decide
    · revert har; cases kr <;> decide
    · revert har; cases kr <;> decide
    · revert har; cases kr <;> decide
    · revert har; cases kr <;> decide
    · revert har; cases kr <;> decide
    · revert har; cases kr <;> decide
  refine ⟨fun _ => h1, fun h => ?_, fun h => ?_, fun h => ?_, fun h => ?_⟩
  · exfalso; revert hk h; cases k <;> decide
  · exfalso; revert hk h; cases k <;> decide
  · exfalso; revert hk; rw [h]; decide
  · exfalso; revert hk h; cases k <;> decide

theorem precNode_pre {k : Kind} {lhs mid rhs : AST} (hk : isPre k = true)
    (hm : rootAllowed .UNARY_EXPR mid) : precNode k lhs mid rhs := by
  refine ⟨fun h => ?_, fun h => ?_, fun _ => not_binOrAssign_of_unary hm, fun h => ?_,
    fun h => ?_⟩
  · exfalso; revert hk h; cases k <;> decide
  · exfalso; revert hk h; cases k <;> decide
  · exfalso; revert hk; rw [h]; decide
  · exfalso; revert hk h; cases k <;> decide

theorem precNode_post {k : Kind} {lhs mid rhs : AST} (hk : isPost k = true)
    (hm : rootAllowed .POSTFIX_EXPR mid) : precNode k lhs mid rhs := by
  obtain ⟨km, hkm, ham⟩ := hm
  refine ⟨fun h => ?_, fun h => ?_, fun h => ?_, fun h => ?_, fun _ => ?_⟩
  · exfalso; revert hk h; cases k <;> decide
  · exfalso; revert hk h; cases k <;> decide
  · exfalso; revert hk h; cases k <;> decide
  · exfalso; revert hk; rw [h]; decide
  · rw [hkm]
    revert ham; cases km <;> decide

theorem precNode_primary {k : Kind} {lhs mid rhs : AST}
    (hk : k = .LPAR ∨ k = .IDENTIFIER ∨ k = .CONSTANT) : precNode k lhs mid rhs := by
  refine ⟨fun h => ?_, fun h => ?_, fun h => ?_, fun h => ?_, fun h => ?_⟩ <;>
    (exfalso; rcases hk with hk | hk | hk <;> subst hk <;> revert h <;> decide)

/-- Precedence holds at every node of a tree `parse` returns. -/
theorem Parses.precAt {arr : List Token} {l r : Int} {S : GrammarState} {t : AST}
    (h : Parses arr l r S t) : ∀ n ∈ t.subtrees, precAt n := by
  induction h with
  | stmtEmpty => exact forall_subtrees_null
  | stmt _ _ _ _ ih => exact ih
  | expr _ _ ih => exact ih
  | assign hle hn hl _ ihl ihr =>
    rw [forall_subtrees_node]
    exact ⟨precNode_assign (findNextSection_fwd hle rfl hn).1 (hl.rootAllowed (by decide)),
      ihl, forall_subtrees_null, ihr⟩
  | assignNone _ _ _ ih => exact ih
  | add hle hn hl hr ihl ihr =>
    rw [forall_subtrees_node]
    exact ⟨precNode_add (findNextSection_bwd hle rfl hn).1 (hl.rootAllowed (by decide))
      (hr.rootAllowed (by decide)), ihl, forall_subtrees_null, ihr⟩
  | addNone _ _ _ ih => exact ih
  | mul hle hn hl hr ihl ihr =>
    rw [forall_subtrees_node]
    exact ⟨precNode_mul (findNextSection_bwd hle rfl hn).1 (hl.rootAllowed (by decide))
      (hr.rootAllowed (by decide)), ihl, forall_subtrees_null, ihr⟩
  | mulNone _ _ _ ih => exact ih
  | unary _ hk hm ih =>
    rw [forall_subtrees_node]
    exact ⟨precNode_pre ((isPre_iff _).2 hk) (hm.rootAllowed (by decide)),
      forall_subtrees_null, ih, forall_subtrees_null⟩
  | unaryNone _ _ _ ih => exact ih
  | post _ hk hm ih =>
    rw [forall_subtrees_node]
    exact ⟨precNode_post (postKind_of _ hk).1 (hm.rootAllowed (by decide)),
      forall_subtrees_null, ih, forall_subtrees_null⟩
  | postNone _ _ _ ih => exact ih
  | paren _ _ _ ih =>
    rw [forall_subtrees_node]
    exact ⟨precNode_primary (Or.inl rfl), forall_subtrees_null, ih, forall_subtrees_null⟩
  | leaf _ _ _ hk =>
    unfold new_AST
    rw [forall_subtrees_node]
    refine ⟨precNode_primary (Or.inr hk), forall_subtrees_null, forall_subtrees_null,
      forall_subtrees_null⟩

/-- C2: precedence is honoured in every AST `parse` returns, whatever the
token array, the range and the grammar state, hence in every AST `parser`
returns.  At every node: a Mul/Div/Rem node has no Assign, Add or Sub node as
a direct child and its right child is not Mul/Div/Rem; an Add/Sub node has no
Assign node as a direct child and its right child is not Add/Sub; the operand
of a prefix node and the left child of an Assign node are neither binary nor
Assign nodes; the operand of a postfix node is a postfix node, a
Parenthesized-group or a leaf. -/
theorem parse_precedence (fuel : Nat) (arr : List Token) (l r : Int) (S : GrammarState)
    (t : AST) (h : parse fuel arr l r S = some (.ok t)) :
    ∀ n ∈ t.subtrees, precAt n :=
  (parse_sound arr fuel l r S t h).precAt

/-- C2, at `1+2*3;`: the parser yields `Add(Constant 1, Mul(Constant 2,
Constant 3))`, and precedence holds at each of its nodes. -/
theorem parse_precedence_witness :
    parseLine "1+2*3;"
      = some (.ok (.node .ADD 0 (new_AST .CONSTANT 1) .null
          (.node .MUL 0 (new_AST .CONSTANT 2) .null (new_AST .CONSTANT 3))))
    ∧ ∀ n ∈ (AST.node .ADD 0 (new_AST .CONSTANT 1) .null
          (.node .MUL 0 (new_AST .CONSTANT 2) .null (new_AST .CONSTANT 3))).subtrees,
        precAt n :=
  ⟨by decide,
   parse_precedence (parseFuel 6)
    (disambiguate [⟨.CONSTANT, 1⟩, ⟨.PLUS, 0⟩, ⟨.CONSTANT, 2⟩, ⟨.MUL, 0⟩, ⟨.CONSTANT, 3⟩,
      ⟨.END, 0⟩]) 0 5 .STMT _ (by decide)⟩

/-! ## Token values are opaque to the parser -/

theorem tokAt_map (f : Int → Int) (hf : f 0 = 0) (arr : List Token) (i : Int) :
    tokAt (arr.map (Token.mapVal f)) i = (tokAt arr i).mapVal f := by
  unfold tokAt
  split
  · simp [Token.mapVal, Token.outside, hf]
  · rw [List.getD_eq_getElem?_getD, List.getD_eq_getElem?_getD, List.getElem?_map]
    cases arr[i.toNat]? <;> simp [Token.mapVal, Token.outside, hf]

/-- `findNextSection` reads the kinds of the tokens only. -/
theorem findLoop_congr {arr arr2 : List Token}
    (hk : ∀ i, (tokAt arr2 i).kind = (tokAt arr i).kind) (s e : Int) (cond : Kind → Bool) :
    ∀ (fuel : Nat) (i par : Int),
      findLoop arr2 s e cond fuel i par = findLoop arr s e cond fuel i par := by
  intro fuel
  induction fuel with
  | zero => intro i par; rfl
  | succ n ih =>
    intro i par
    rw [findLoop_succ, findLoop_succ, hk i, ih]

theorem findNextSection_congr {arr arr2 : List Token}
    (hk : ∀ i, (tokAt arr2 i).kind = (tokAt arr i).kind) (s e : Int) (cond : Kind → Bool) :
    findNextSection arr2 s e cond = findNextSection arr s e cond :=
  findLoop_congr hk s e cond _ _ _

theorem andThen_map (g : AST → AST) (x : Option (Res AST)) (k k2 : AST → Option (Res AST))
    (h : ∀ a, k2 (g a) = Option.map (Res.map g) (k a)) :
    andThen (Option.map (Res.map g) x) k2 = Option.map (Res.map g) (andThen x k) := by
  rcases x with _ | (a | m | _)
  · rfl
  · simp only [Option.map, Res.map, andThen]
    exact h a
  · rfl
  · rfl

/-- With the token values renamed by `f` (and `f 0 = 0`, the value `parse`
gives to operator nodes), `parse` returns the same tree with its values
renamed. -/
theorem parse_mapVal (f : Int → Int) (hf : f 0 = 0) {arr arr2 : List Token}
    (h : ∀ i, tokAt arr2 i = (tokAt arr i).mapVal f) :
    ∀ (fuel : Nat) (l r : Int) (S : GrammarState),
      parse fuel arr2 l r S = Option.map (Res.map (AST.mapVal f)) (parse fuel arr l r S) := by
  have hk : ∀ i, (tokAt arr2 i).kind = (tokAt arr i).kind := fun i => by rw [h i]; rfl
  have hv : ∀ i, (tokAt arr2 i).val = f (tokAt arr i).val := fun i => by rw [h i]; rfl
  intro fuel
  induction fuel with
  | zero => intro l r S; rfl
  | succ n ih =>
    intro l r S
    unfold parse
    by_cases hlr : l > r
    · simp [hlr, Res.map]
    · rw [if_neg hlr, if_neg hlr]
      cases S with
      | STMT =>
        simp only [hk, ih]
        split_ifs <;> simp [Res.map, AST.mapVal]
      | EXPR => exact ih _ _ _
      | ASSIGN_EXPR =>
        simp only [hk, findNextSection_congr hk, ih]
        split_ifs
        · apply andThen_map; intro a
          apply andThen_map; intro b
          simp [Res.map, AST.mapVal, hf]
        · rfl
      | ADD_EXPR =>
        simp only [hk, findNextSection_congr hk, ih]
        split_ifs
        · apply andThen_map; intro a
          apply andThen_map; intro b
          simp [Res.map, AST.mapVal, hf]
        · rfl
      | MUL_EXPR =>
        simp only [hk, findNextSection_congr hk, ih]
        split_ifs
        · apply andThen_map; intro a
          apply andThen_map; intro b
          simp [Res.map, AST.mapVal, hf]
        · rfl
      | UNARY_EXPR =>
        simp only [hk, ih]
        split_ifs
        · apply andThen_map; intro a
          simp [Res.map, AST.mapVal, hf]
        · rfl
      | POSTFIX_EXPR =>
        simp only [hk, ih]
        split_ifs
        · apply andThen_map; intro a
          simp [Res.map, AST.mapVal, hf]
        · rfl
      | PRI_EXPR =>
        simp only [hk, hv, findNextSection_congr hk, ih]
        split_ifs
        · apply andThen_map; intro a
          simp [Res.map, AST.mapVal, hf]
        · simp [Res.map, AST.mapVal, new_AST]
        · simp [Res.map]
        · simp [Res.map]

theorem reclass_mapVal (f : Int → Int) (t : Token) (p : Kind) :
    reclass (t.mapVal f) p = (reclass t p).mapVal f := by
  unfold reclass Token.mapVal
  split <;> rfl

theorem tokAt_disambiguate_map (f : Int → Int) (hf : f 0 = 0) (arr : List Token) (i : Int) :
    tokAt (disambiguate (arr.map (Token.mapVal f))) i
      = (tokAt (disambiguate arr) i).mapVal f := by
  rw [tokAt_disambiguate, tokAt_disambiguate, tokAt_map f hf, tokAt_map f hf, List.length_map]
  split
  · rw [reclass_mapVal]; rfl
  · rfl

/-- Token values are opaque to `parser`: renaming them renames the values in
the tree. -/
theorem parser_mapVal (f : Int → Int) (hf : f 0 = 0) (arr : List Token) :
    parser (arr.map (Token.mapVal f)) = Option.map (Res.map (AST.mapVal f)) (parser arr) := by
  unfold parser
  rw [List.length_map]
  exact parse_mapVal f hf (tokAt_disambiguate_map f hf arr) _ _ _ _

/-! ## C3 and C4: associativity -/

/-- The statement of C3 for operands that carry the values 1, 2 and 3. -/
theorem parser_left_assoc_base (kA kB kC o1 o2 : Kind)
    (hA : kA = .IDENTIFIER ∨ kA = .CONSTANT) (hB : kB = .IDENTIFIER ∨ kB = .CONSTANT)
    (hC : kC = .IDENTIFIER ∨ kC = .CONSTANT)
    (hops : ((o1 = .PLUS ∨ o1 = .MINUS) ∧ (o2 = .PLUS ∨ o2 = .MINUS)) ∨
            ((o1 = .MUL ∨ o1 = .DIV ∨ o1 = .REM) ∧ (o2 = .MUL ∨ o2 = .DIV ∨ o2 = .REM))) :
    parser [⟨kA, 1⟩, ⟨o1, 0⟩, ⟨kB, 2⟩, ⟨o2, 0⟩, ⟨kC, 3⟩, ⟨.END, 0⟩]
      = some (.ok (.node (binaryOf o2) 0
          (.node (binaryOf o1) 0 (new_AST kA 1) .null (new_AST kB 2)) .null
          (new_AST kC 3))) := by
  rcases hA with rfl | rfl <;> rcases hB with rfl | rfl <;> rcases hC with rfl | rfl <;>
    rcases hops with ⟨rfl | rfl, rfl | rfl⟩ | ⟨rfl | rfl | rfl, rfl | rfl | rfl⟩ <;> decide

/-- C3: binary arithmetic operators of one precedence level group left to
right.  For operand tokens `A`, `B`, `C` and operators `o1`, `o2` both among
`+`, `-` or both among `*`, `/`, `%`, `parser` on the lexer-level tokens of
`A o1 B o2 C ;` returns `o2(o1(A, B), C)`. -/
theorem parser_left_assoc (A B C : Token) (o1 o2 : Kind)
    (hA : isOperandTok A) (hB : isOperandTok B) (hC : isOperandTok C)
    (hops : ((o1 = .PLUS ∨ o1 = .MINUS) ∧ (o2 = .PLUS ∨ o2 = .MINUS)) ∨
            ((o1 = .MUL ∨ o1 = .DIV ∨ o1 = .REM) ∧ (o2 = .MUL ∨ o2 = .DIV ∨ o2 = .REM))) :
    parser [A, ⟨o1, 0⟩, B, ⟨o2, 0⟩, C, ⟨.END, 0⟩]
      = some (.ok (.node (binaryOf o2) 0
          (.node (binaryOf o1) 0 (leafOf A) .null (leafOf B)) .null (leafOf C))) := by
  obtain ⟨kA, vA⟩ := A
  obtain ⟨kB, vB⟩ := B
  obtain ⟨kC, vC⟩ := C
  have h := parser_mapVal (rename3 vA vB vC) rfl
    [⟨kA, 1⟩, ⟨o1, 0⟩, ⟨kB, 2⟩, ⟨o2, 0⟩, ⟨kC, 3⟩, ⟨.END, 0⟩]
  rw [parser_left_assoc_base kA kB kC o1 o2 hA hB hC hops] at h
  exact h

/-- C3, at `x-y-z;`: the lexer-level tokens, and the AST `Sub(Sub(x, y), z)`. -/
theorem parser_left_assoc_witness :
    lexer "x-y-z;".toList
      = .ok [⟨.IDENTIFIER, 120⟩, ⟨.MINUS, 0⟩, ⟨.IDENTIFIER, 121⟩, ⟨.MINUS, 0⟩,
          ⟨.IDENTIFIER, 122⟩, ⟨.END, 0⟩]
    ∧ parser [⟨.IDENTIFIER, 120⟩, ⟨.MINUS, 0⟩, ⟨.IDENTIFIER, 121⟩, ⟨.MINUS, 0⟩,
          ⟨.IDENTIFIER, 122⟩, ⟨.END, 0⟩]
      = some (.ok (.node .SUB 0
          (.node .SUB 0 (new_AST .IDENTIFIER 120) .null (new_AST .IDENTIFIER 121)) .null
          (new_AST .IDENTIFIER 122))) :=
  ⟨by decide,
   parser_left_assoc ⟨.IDENTIFIER, 120⟩ ⟨.IDENTIFIER, 121⟩ ⟨.IDENTIFIER, 122⟩ .MINUS .MINUS
    (by decide) (by decide) (by decide) (by decide)⟩

/-- The statement of C4 for operands that carry the values 1, 2 and 3. -/
theorem parser_assign_base (kA kB kC : Kind)
    (hA : kA = .IDENTIFIER ∨ kA = .CONSTANT) (hB : kB = .IDENTIFIER ∨ kB = .CONSTANT)
    (hC : kC = .IDENTIFIER ∨ kC = .CONSTANT) :
    parser [⟨kA, 1⟩, ⟨.ASSIGN, 0⟩, ⟨kB, 2⟩, ⟨.ASSIGN, 0⟩, ⟨kC, 3⟩, ⟨.END, 0⟩]
      = some (.ok (.node .ASSIGN 0 (new_AST kA 1) .null
          (.node .ASSIGN 0 (new_AST kB 2) .null (new_AST kC 3)))) := by
  rcases hA with rfl | rfl <;> rcases hB with rfl | rfl <;> rcases hC with rfl | rfl <;>
    decide

/-- C4: assignment is right-associative.  For operand tokens `A`, `B`, `C`,
`parser` on the tokens of `A = B = C ;` returns
`Assign(lhs = A, rhs = Assign(lhs = B, rhs = C))`. -/
theorem parser_assign_right_assoc (A B C : Token)
    (hA : isOperandTok A) (hB : isOperandTok B) (hC : isOperandTok C) :
    parser [A, ⟨.ASSIGN, 0⟩, B, ⟨.ASSIGN, 0⟩, C, ⟨.END, 0⟩]
      = some (.ok (.node .ASSIGN 0 (leafOf A) .null
          (.node .ASSIGN 0 (leafOf B) .null (leafOf C)))) := by
  obtain ⟨kA, vA⟩ := A
  obtain ⟨kB, vB⟩ := B
  obtain ⟨kC, vC⟩ := C
  have h := parser_mapVal (rename3 vA vB vC) rfl
    [⟨kA, 1⟩, ⟨.ASSIGN, 0⟩, ⟨kB, 2⟩, ⟨.ASSIGN, 0⟩, ⟨kC, 3⟩, ⟨.END, 0⟩]
  rw [parser_assign_base kA kB kC hA hB hC] at h
  exact h

/-- C4, at `x=y=1;`: the lexer-level tokens, and the AST
`Assign(x, Assign(y, 1))`. -/
theorem parser_assign_right_assoc_witness :
    lexer "x=y=1;".toList
      = .ok [⟨.IDENTIFIER, 120⟩, ⟨.ASSIGN, 0⟩, ⟨.IDENTIFIER, 121⟩, ⟨.ASSIGN, 0⟩,
          ⟨.CONSTANT, 1⟩, ⟨.END, 0⟩]
    ∧ parser [⟨.IDENTIFIER, 120⟩, ⟨.ASSIGN, 0⟩, ⟨.IDENTIFIER, 121⟩, ⟨.ASSIGN, 0⟩,
          ⟨.CONSTANT, 1⟩, ⟨.END, 0⟩]
      = some (.ok (.node .ASSIGN 0 (new_AST .IDENTIFIER 120) .null
          (.node .ASSIGN 0 (new_AST .IDENTIFIER 121) .null (new_AST .CONSTANT 1)))) :=
  ⟨by decide,
   parser_assign_right_assoc ⟨.IDENTIFIER, 120⟩ ⟨.IDENTIFIER, 121⟩ ⟨.CONSTANT, 1⟩
    (by decide) (by decide) (by decide)⟩

/-! ## C5: `semantic_check` -/

theorem rootAllowed_ne_null {S : GrammarState} {t : AST} (h : rootAllowed S t) :
    t ≠ .null := by
  rintro rfl
  obtain ⟨k, hk, _⟩ := h
  simp [AST.rootKind] at hk

/-- Every node of a tree `parse` returns has the children its kind requires. -/
theorem Parses.childrenPresent {arr : List Token} {l r : Int} {S : GrammarState} {t : AST}
    (h : Parses arr l r S t) : childrenPresent t := by
  unfold Mini1.childrenPresent
  induction h with
  | stmtEmpty => exact forall_subtrees_null
  | stmt _ _ _ _ ih => exact ih
  | expr _ _ ih => exact ih
  | assign hle hn hl hr ihl ihr =>
    rw [forall_subtrees_node]
    exact ⟨⟨fun _ => ⟨rootAllowed_ne_null (hl.rootAllowed (by decide)),
      rootAllowed_ne_null (hr.rootAllowed (by decide))⟩, fun h => by
        have := (findNextSection_fwd hle rfl hn).1
        revert this h
        cases (tokAt _ _).kind <;> decide⟩, ihl, forall_subtrees_null, ihr⟩
  | assignNone _ _ _ ih => exact ih
  | add hle hn hl hr ihl ihr =>
    rw [forall_subtrees_node]
    exact ⟨⟨fun _ => ⟨rootAllowed_ne_null (hl.rootAllowed (by decide)),
      rootAllowed_ne_null (hr.rootAllowed (by decide))⟩, fun h => by
        have := (findNextSection_bwd hle rfl hn).1
        revert this h
        cases (tokAt _ _).kind <;> decide⟩, ihl, forall_subtrees_null, ihr⟩
  | addNone _ _ _ ih => exact ih
  | mul hle hn hl hr ihl ihr =>
    rw [forall_subtrees_node]
    exact ⟨⟨fun _ => ⟨rootAllowed_ne_null (hl.rootAllowed (by decide)),
      rootAllowed_ne_null (hr.rootAllowed (by decide))⟩, fun h => by
        have := (findNextSection_bwd hle rfl hn).1
        revert this h
        cases (tokAt _ _).kind <;> decide⟩, ihl, forall_subtrees_null, ihr⟩
  | mulNone _ _ _ ih => exact ih
  | unary _ hk hm ih =>
    rw [forall_subtrees_node]
    exact ⟨⟨fun h => by
        have := (isPre_iff _).2 hk
        revert this h
        cases (tokAt _ _).kind <;> decide,
      fun _ => rootAllowed_ne_null (hm.rootAllowed (by decide))⟩,
      forall_subtrees_null, ih, forall_subtrees_null⟩
  | unaryNone _ _ _ ih => exact ih
  | post _ hk hm ih =>
    rw [forall_subtrees_node]
    exact ⟨⟨fun h => by
        have := (postKind_of _ hk).1
        revert this h
        cases (Kind.ofInt _) <;> decide,
      fun _ => rootAllowed_ne_null (hm.rootAllowed (by decide))⟩,
      forall_subtrees_null, ih, forall_subtrees_null⟩
  | postNone _ _ _ ih => exact ih
  | paren _ _ hm ih =>
    rw [forall_subtrees_node]
    exact ⟨⟨fun h => absurd h (by decide),
      fun _ => rootAllowed_ne_null (hm.rootAllowed (by decide))⟩,
      forall_subtrees_null, ih, forall_subtrees_null⟩
  | leaf _ _ _ hk =>
    unfold new_AST
    rw [forall_subtrees_node]
    refine ⟨⟨fun h => ?_, fun h => ?_⟩, forall_subtrees_null, forall_subtrees_null,
      forall_subtrees_null⟩
    · exfalso; revert hk h; cases (tokAt _ _).kind <;> decide
    · exfalso; revert hk h; cases (tokAt _ _).kind <;> decide

/-- On a tree whose nodes have their required children, the loop of
`semantic_check` ends on the tree without its Parenthesized-group wrappers. -/
theorem unwrapKind_eq : ∀ t : AST, childrenPresent t → t ≠ .null →
    ∃ k, unwrapKind t = .ok k ∧ (stripParens t).rootKind = some k := by
  intro t
  induction t with
  | null => intro _ h; exact absurd rfl h
  | node k v l m r _ ihm _ =>
    intro hp _
    unfold childrenPresent at hp
    rw [forall_subtrees_node] at hp
    obtain ⟨h0, _, hm, _⟩ := hp
    unfold unwrapKind stripParens
    by_cases hk : k = .LPAR
    · rw [if_pos hk, if_pos hk]
      exact ihm hm (h0.2 (Or.inr (Or.inr hk)))
    · rw [if_neg hk, if_neg hk]
      exact ⟨k, rfl, rfl⟩

theorem checkOutcome_bind {x : Res Unit} {y : Res Unit} (hx : checkOutcome x)
    (hy : checkOutcome y) :
    checkOutcome (x.bind fun _ => y) ∧ ((x.bind fun _ => y) = .ok () ↔ x = .ok () ∧ y = .ok ()) := by
  rcases hx with rfl | rfl | rfl
  · exact ⟨hy, by simp [Res.bind]⟩
  · simp [Res.bind, checkOutcome]
  · simp [Res.bind, checkOutcome]

/-- What `semantic_check` does on a tree whose nodes have their required
children: it returns or reports one of its two errors, and it returns exactly
when the lvalue requirement holds at every node. -/
theorem semantic_check_spec : ∀ t : AST, childrenPresent t →
    checkOutcome (semantic_check t) ∧
      (semantic_check t = .ok () ↔ ∀ n ∈ t.subtrees, lvalueAt n) := by
  intro t
  induction t with
  | null =>
    intro _
    exact ⟨Or.inl rfl, by simp [semantic_check, AST.subtrees]⟩
  | node k v l m r ihl ihm ihr =>
    intro hp
    have hp2 := hp
    unfold childrenPresent at hp2
    rw [forall_subtrees_node] at hp2
    obtain ⟨h0, hl, hm, hr⟩ := hp2
    obtain ⟨pl, il⟩ := ihl hl
    obtain ⟨pm, im⟩ := ihm hm
    obtain ⟨pr, ir⟩ := ihr hr
    -- the check of an Assign node
    have c1 : ∀ x : Res Unit,
        x = (if k = .ASSIGN then
              (unwrapKind l).bind fun k2 =>
                if k2 ≠ .IDENTIFIER then
                  .err "Lvalue is required as left operand of assignment."
                else .ok ()
             else .ok ()) →
        checkOutcome x ∧
          (x = .ok () ↔ (k = .ASSIGN → (stripParens l).rootKind = some .IDENTIFIER)) := by
      intro x hx
      subst hx
      by_cases hk : k = .ASSIGN
      · rw [if_pos hk]
        obtain ⟨k2, hu, hs⟩ := unwrapKind_eq l hl (h0.1 (Or.inl (by rw [hk]; rfl))).1
        rw [hu, hs]
        by_cases hk2 : k2 = .IDENTIFIER
        · simp [Res.bind, hk2, hk, checkOutcome]
        · simp [Res.bind, hk2, hk, checkOutcome]
      · rw [if_neg hk]
        exact ⟨Or.inl rfl, by simp [hk]⟩
    -- the check of an increment or decrement node
    have c2 : ∀ x : Res Unit,
        x = (if k = .PREDEC ∨ k = .PREINC ∨ k = .POSTINC ∨ k = .POSTDEC then
              (unwrapKind m).bind fun k2 =>
                if k2 ≠ .IDENTIFIER then
                  .err "Identifier is required as mid operand of INC/DEC."
                else .ok ()
             else .ok ()) →
        checkOutcome x ∧
          (x = .ok () ↔ (isIncDec k = true → (stripParens m).rootKind = some .IDENTIFIER)) := by
      intro x hx
      subst hx
      by_cases hk : k = .PREDEC ∨ k = .PREINC ∨ k = .POSTINC ∨ k = .POSTDEC
      · rw [if_pos hk]
        have hid : isIncDec k = true := by
          rcases hk with h | h | h | h <;> subst h <;> decide
        have hmid : m ≠ .null := by
          apply h0.2
          rcases hk with h | h | h | h <;> subst h <;> decide
        obtain ⟨k2, hu, hs⟩ := unwrapKind_eq m hm hmid
        rw [hu, hs]
        by_cases hk2 : k2 = .IDENTIFIER
        · simp [Res.bind, hk2, hid, checkOutcome]
        · simp [Res.bind, hk2, hid, checkOutcome]
      · rw [if_neg hk]
        have hid : ¬ isIncDec k = true := by
          intro h
          apply hk
          revert h
          cases k <;> decide
        exact ⟨Or.inl rfl, by simp [hid]⟩
    obtain ⟨p1, i1⟩ := c1 _ rfl
    obtain ⟨p2, i2⟩ := c2 _ rfl
    have b4 := checkOutcome_bind pr pm
    have b3 := checkOutcome_bind pl b4.1
    have b2 := checkOutcome_bind p2 b3.1
    have b1 := checkOutcome_bind p1 b2.1
    refine ⟨b1.1, ?_⟩
    rw [forall_subtrees_node]
    have hlv : lvalueAt (.node k v l m r) ↔
        ((k = .ASSIGN → (stripParens l).rootKind = some .IDENTIFIER) ∧
          (isIncDec k = true → (stripParens m).rootKind = some .IDENTIFIER)) := Iff.rfl
    rw [hlv, ← il, ← im, ← ir, ← i1, ← i2]
    rw [semantic_check, b1.2, b2.2, b3.2, b4.2]
    constructor
    · rintro ⟨h1, h2, h3, h4, h5⟩
      exact ⟨⟨h1, h2⟩, h3, h5, h4⟩
    · rintro ⟨⟨h1, h2⟩, h3, h5, h4⟩
      exact ⟨h1, h2, h3, h4, h5⟩

/-- C5: `semantic_check` accepts an AST produced by `parse` (so by `parser`)
if and only if, at every Assign node, `lhs` without its Parenthesized-group
wrappers is an Identifier node and, at every PreInc/PreDec/PostInc/PostDec
node, `mid` without its wrappers is an Identifier node; otherwise it fails
with one of its two lvalue errors.  No other node kind causes a failure. -/
theorem semantic_check_accepts_iff (fuel : Nat) (arr : List Token) (l r : Int)
    (S : GrammarState) (t : AST) (h : parse fuel arr l r S = some (.ok t)) :
    (semantic_check t = .ok () ↔ ∀ n ∈ t.subtrees, lvalueAt n) ∧
    (¬ (∀ n ∈ t.subtrees, lvalueAt n) → ∃ m ∈ lvalueErrors, semantic_check t = .err m) := by
  have hp := (parse_sound arr fuel l r S t h).childrenPresent
  obtain ⟨ho, hiff⟩ := semantic_check_spec t hp
  refine ⟨hiff, fun hn => ?_⟩
  rcases ho with h1 | h1 | h1
  · exact absurd (hiff.1 h1) hn
  · exact ⟨_, by simp [lvalueErrors], h1⟩
  · exact ⟨_, by simp [lvalueErrors], h1⟩

/-- C5, at the four lines of the claim: `1++;` and `(1+2)=3;` fail with an
lvalue error, `(x)=5;` and `++(x);` pass; and the theorem at the AST of
`(x)=5;`. -/
theorem semantic_check_accepts_iff_witness :
    checkLine "1++;" = some (.err "Identifier is required as mid operand of INC/DEC.")
    ∧ checkLine "(1+2)=3;" = some (.err "Lvalue is required as left operand of assignment.")
    ∧ checkLine "(x)=5;" = some (.ok ())
    ∧ checkLine "++(x);" = some (.ok ())
    ∧ (semantic_check (.node .ASSIGN 0
          (.node .LPAR 0 .null (new_AST .IDENTIFIER 120) .null) .null (new_AST .CONSTANT 5))
        = .ok () ↔
        ∀ n ∈ (AST.node .ASSIGN 0
          (.node .LPAR 0 .null (new_AST .IDENTIFIER 120) .null) .null
          (new_AST .CONSTANT 5)).subtrees, lvalueAt n) :=
  ⟨by decide, by decide, by decide, by decide,
   (semantic_check_accepts_iff (parseFuel 6)
      [⟨.LPAR, 0⟩, ⟨.IDENTIFIER, 120⟩, ⟨.RPAR, 0⟩, ⟨.ASSIGN, 0⟩, ⟨.CONSTANT, 5⟩, ⟨.END, 0⟩]
      0 5 .STMT _ (by decide)).1⟩

/-! ## `parse` returns: enough fuel gives an outcome -/

theorem andThen_outcome {x : Option (Res AST)} {f : AST → Option (Res AST)}
    (hx : ∃ res, x = some res ∧ parseOutcome res)
    (hf : ∀ a, ∃ res, f a = some res ∧ parseOutcome res) :
    ∃ res, andThen x f = some res ∧ parseOutcome res := by
  obtain ⟨res, rfl, ho⟩ := hx
  rcases ho with ⟨t, rfl⟩ | ⟨m, hm, rfl⟩
  · exact hf t
  · exact ⟨.err m, rfl, Or.inr ⟨m, hm, rfl⟩⟩

/-- With `parseNeed l r S` fuel or more, `parse` returns an AST or one of its
four errors. -/
theorem parse_total (arr : List Token) :
    ∀ (fuel : Nat) (l r : Int) (S : GrammarState), parseNeed l r S ≤ fuel →
      ∃ res, parse fuel arr l r S = some res ∧ parseOutcome res := by
  intro fuel
  induction fuel with
  | zero => intro l r S h; simp [parseNeed] at h
  | succ n ih =>
    intro l r S h
    unfold parse
    by_cases hlr : l > r
    · rw [if_pos hlr]
      exact ⟨_, rfl, Or.inr ⟨_, by simp [parseErrors], rfl⟩⟩
    · rw [if_neg hlr]
      have hle : l ≤ r := by omega
      cases S with
      | STMT =>
        simp only
        split_ifs with h1 h2
        · exact ⟨_, rfl, Or.inl ⟨_, rfl⟩⟩
        · exact ih _ _ _ (by simp only [parseNeed, GrammarState.rank] at h ⊢; omega)
        · exact ⟨_, rfl, Or.inr ⟨_, by simp [parseErrors], rfl⟩⟩
      | EXPR => exact ih _ _ _ (by simp only [parseNeed, GrammarState.rank] at h ⊢; omega)
      | ASSIGN_EXPR =>
        simp only
        split_ifs with h1
        · obtain ⟨_, h2, h3⟩ := findNextSection_fwd hle rfl h1
          refine andThen_outcome (ih _ _ _ ?_) fun a => andThen_outcome (ih _ _ _ ?_)
            fun b => ⟨_, rfl, Or.inl ⟨_, rfl⟩⟩
          · simp only [parseNeed, GrammarState.rank] at h ⊢; omega
          · simp only [parseNeed, GrammarState.rank] at h ⊢; omega
        · exact ih _ _ _ (by simp only [parseNeed, GrammarState.rank] at h ⊢; omega)
      | ADD_EXPR =>
        simp only
        split_ifs with h1
        · obtain ⟨_, h2, h3⟩ := findNextSection_bwd hle rfl h1
          refine andThen_outcome (ih _ _ _ ?_) fun a => andThen_outcome (ih _ _ _ ?_)
            fun b => ⟨_, rfl, Or.inl ⟨_, rfl⟩⟩
          · simp only [parseNeed, GrammarState.rank] at h ⊢; omega
          · simp only [parseNeed, GrammarState.rank] at h ⊢; omega
        · exact ih _ _ _ (by simp only [parseNeed, GrammarState.rank] at h ⊢; omega)
      | MUL_EXPR =>
        simp only
        split_ifs with h1
        · obtain ⟨_, h2, h3⟩ := findNextSection_bwd hle rfl h1
          refine andThen_outcome (ih _ _ _ ?_) fun a => andThen_outcome (ih _ _ _ ?_)
            fun b => ⟨_, rfl, Or.inl ⟨_, rfl⟩⟩
          · simp only [parseNeed, GrammarState.rank] at h ⊢; omega
          · simp only [parseNeed, GrammarState.rank] at h ⊢; omega
        · exact ih _ _ _ (by simp only [parseNeed, GrammarState.rank] at h ⊢; omega)
      | UNARY_EXPR =>
        simp only
        split_ifs with h1
        · refine andThen_outcome (ih _ _ _ ?_) fun a => ⟨_, rfl, Or.inl ⟨_, rfl⟩⟩
          simp only [parseNeed, GrammarState.rank] at h ⊢; omega
        · exact ih _ _ _ (by simp only [parseNeed, GrammarState.rank] at h ⊢; omega)
      | POSTFIX_EXPR =>
        simp only
        split_ifs with h1
        · refine andThen_outcome (ih _ _ _ ?_) fun a => ⟨_, rfl, Or.inl ⟨_, rfl⟩⟩
          simp only [parseNeed, GrammarState.rank] at h ⊢; omega
        · exact ih _ _ _ (by simp only [parseNeed, GrammarState.rank] at h ⊢; omega)
      | PRI_EXPR =>
        simp only
        split_ifs with h1 h2 h3
        · refine andThen_outcome (ih _ _ _ ?_) fun a => ⟨_, rfl, Or.inl ⟨_, rfl⟩⟩
          simp only [parseNeed, GrammarState.rank] at h ⊢; omega
        · exact ⟨_, rfl, Or.inl ⟨_, rfl⟩⟩
        · exact ⟨_, rfl, Or.inr ⟨_, by simp [parseErrors], rfl⟩⟩
        · exact ⟨_, rfl, Or.inr ⟨_, by simp [parseErrors], rfl⟩⟩

/-- `parser` returns an AST or one of the four errors of `parse`. -/
theorem parser_total (arr : List Token) :
    ∃ res, parser arr = some res ∧ parseOutcome res := by
  unfold parser
  apply parse_total
  simp only [parseNeed, parseFuel, GrammarState.rank]
  omega

/-! ## The tokens of a range `parse` accepts -/

/-- The net depth of a range, split at one of its indices. -/
theorem parCount_split (arr : List Token) (l r k : Int) (h1 : l ≤ k) (h2 : k ≤ r) :
    parCount arr l (r - l + 1).toNat
      = parCount arr l (k - l).toNat + parDelta (tokAt arr k).kind
          + parCount arr (k + 1) (r - k).toNat := by
  have e1 : (r - l + 1).toNat = (k - l).toNat + (1 + (r - k).toNat) := by omega
  rw [e1, parCount_add, Nat.add_comm 1, parCount]
  have e2 : l + ((k - l).toNat : Int) = k := by omega
  rw [e2]
  ring

theorem parDelta_eq_one {k : Kind} (h : parDelta k = 1) : k = .LPAR := by
  revert h; cases k <;> decide

/-- A range that `parse` accepts in an expression state holds no `End` token
and its parentheses are balanced. -/
theorem Parses.range_ok {arr : List Token} {l r : Int} {S : GrammarState} {t : AST}
    (h : Parses arr l r S t) : S ≠ .STMT → 0 ≤ l →
      (∀ i, l ≤ i → i ≤ r → (tokAt arr i).kind ≠ .END) ∧
        parCount arr l (r - l + 1).toNat = 0 := by
  induction h with
  | stmtEmpty => intro h; exact absurd rfl h
  | stmt => intro h; exact absurd rfl h
  | expr _ _ ih => intro _ hl; exact ih (by decide) hl
  | @assign l r lhs rhs hle hn _ _ ihl ihr =>
    intro _ hl
    obtain ⟨hc, h1, h2⟩ := findNextSection_fwd hle rfl hn
    obtain ⟨a1, a2⟩ := ihl (by decide) hl
    obtain ⟨b1, b2⟩ := ihr (by decide) (by omega)
    have hk : (tokAt arr (findNextSection arr l r condASSIGN)).kind = .ASSIGN := by
      simpa [condASSIGN] using hc
    constructor
    · intro i hi1 hi2
      rcases lt_trichotomy i (findNextSection arr l r condASSIGN) with h | h | h
      · exact a1 i hi1 (by omega)
      · rw [h, hk]; decide
      · exact b1 i (by omega) hi2
    · rw [parCount_split arr l r _ h1 h2, hk]
      have e : (findNextSection arr l r condASSIGN - 1 - l + 1).toNat
          = (findNextSection arr l r condASSIGN - l).toNat := by omega
      have e2 : (r - (findNextSection arr l r condASSIGN + 1) + 1).toNat
          = (r - findNextSection arr l r condASSIGN).toNat := by omega
      rw [e] at a2
      rw [e2] at b2
      rw [a2, b2]
      decide
  | assignNone _ _ _ ih => intro _ hl; exact ih (by decide) hl
  | @add l r lhs rhs hle hn _ _ ihl ihr =>
    intro _ hl
    obtain ⟨hc, h1, h2⟩ := findNextSection_bwd hle rfl hn
    obtain ⟨a1, a2⟩ := ihl (by decide) hl
    obtain ⟨b1, b2⟩ := ihr (by decide) (by omega)
    have hk : (tokAt arr (findNextSection arr r l condADD)).kind ≠ .END ∧
        parDelta (tokAt arr (findNextSection arr r l condADD)).kind = 0 := by
      revert hc; cases (tokAt arr (findNextSection arr r l condADD)).kind <;> decide
    constructor
    · intro i hi1 hi2
      rcases lt_trichotomy i (findNextSection arr r l condADD) with h | h | h
      · exact a1 i hi1 (by omega)
      · rw [h]; exact hk.1
      · exact b1 i (by omega) hi2
    · rw [parCount_split arr l r _ h1 h2, hk.2]
      have e : (findNextSection arr r l condADD - 1 - l + 1).toNat
          = (findNextSection arr r l condADD - l).toNat := by omega
      have e2 : (r - (findNextSection arr r l condADD + 1) + 1).toNat
          = (r - findNextSection arr r l condADD).toNat := by omega
      rw [e] at a2
      rw [e2] at b2
      rw [a2, b2]
      decide
  | addNone _ _ _ ih => intro _ hl; exact ih (by decide) hl
  | @mul l r lhs rhs hle hn _ _ ihl ihr =>
    intro _ hl
    obtain ⟨hc, h1, h2⟩ := findNextSection_bwd hle rfl hn
    obtain ⟨a1, a2⟩ := ihl (by decide) hl
    obtain ⟨b1, b2⟩ := ihr (by decide) (by omega)
    have hk : (tokAt arr (findNextSection arr r l condMUL)).kind ≠ .END ∧
        parDelta (tokAt arr (findNextSection arr r l condMUL)).kind = 0 := by
      revert hc; cases (tokAt arr (findNextSection arr r l condMUL)).kind <;> decide
    constructor
    · intro i hi1 hi2
      rcases lt_trichotomy i (findNextSection arr r l condMUL) with h | h | h
      · exact a1 i hi1 (by omega)
      · rw [h]; exact hk.1
      · exact b1 i (by omega) hi2
    · rw [parCount_split arr l r _ h1 h2, hk.2]
      have e : (findNextSection arr r l condMUL - 1 - l + 1).toNat
          = (findNextSection arr r l condMUL - l).toNat := by omega
      have e2 : (r - (findNextSection arr r l condMUL + 1) + 1).toNat
          = (r - findNextSection arr r l condMUL).toNat := by omega
      rw [e] at a2
      rw [e2] at b2
      rw [a2, b2]
      decide
  | mulNone _ _ _ ih => intro _ hl; exact ih (by decide) hl
  | @unary l r mid hle hk _ ih =>
    intro _ hl
    obtain ⟨a1, a2⟩ := ih (by decide) (by omega)
    have hk2 : (tokAt arr l).kind ≠ .END ∧ parDelta (tokAt arr l).kind = 0 := by
      revert hk; cases (tokAt arr l).kind <;> decide
    constructor
    · intro i hi1 hi2
      rcases eq_or_lt_of_le hi1 with h | h
      · rw [← h]; exact hk2.1
      · exact a1 i (by omega) hi2
    · rw [parCount_split arr l r l le_rfl hle, hk2.2]
      have e : (r - (l + 1) + 1).toNat = (r - l).toNat := by omega
      rw [e] at a2
      rw [a2]
      simp [parCount]
  | unaryNone _ _ _ ih => intro _ hl; exact ih (by decide) hl
  | @post l r mid hle hk _ ih =>
    intro _ hl
    obtain ⟨a1, a2⟩ := ih (by decide) hl
    have hk2 : (tokAt arr r).kind ≠ .END ∧ parDelta (tokAt arr r).kind = 0 := by
      revert hk; cases (tokAt arr r).kind <;> decide
    constructor
    · intro i hi1 hi2
      rcases eq_or_lt_of_le hi2 with h | h
      · rw [h]; exact hk2.1
      · exact a1 i hi1 (by omega)
    · rw [parCount_split arr l r r hle le_rfl, hk2.2]
      have e : (r - 1 - l + 1).toNat = (r - l).toNat := by omega
      rw [e] at a2
      rw [a2]
      simp [parCount]
  | postNone _ _ _ ih => intro _ hl; exact ih (by decide) hl
  | @paren l r mid hle hf _ ih =>
    intro _ hl
    obtain ⟨hR, hlt, hbal⟩ := findNextSection_RPAR hl hle hf
    obtain ⟨a1, a2⟩ := ih (by decide) (by omega)
    have hL : (tokAt arr l).kind = .LPAR := by
      apply parDelta_eq_one
      have h3 := parCount_split arr l r l le_rfl hle
      have h4 := parCount_split arr (l + 1) r r (by omega) le_rfl
      have e : (r - 1 - (l + 1) + 1).toNat = (r - (l + 1)).toNat := by omega
      have e3 : (r - (l + 1) + 1).toNat = (r - l).toNat := by omega
      rw [e] at a2
      rw [e3] at h4
      rw [hbal, h4, a2, hR] at h3
      have hz1 : (l - l).toNat = 0 := by simp
      have hz2 : (r - r).toNat = 0 := by simp
      have hd : parDelta Kind.RPAR = -1 := by decide
      rw [hz1, hz2, hd] at h3
      simp only [parCount] at h3
      omega
    refine ⟨?_, hbal⟩
    intro i hi1 hi2
    rcases eq_or_lt_of_le hi1 with h | h
    · rw [← h, hL]; decide
    · rcases eq_or_lt_of_le hi2 with h2 | h2
      · rw [h2, hR]; decide
      · exact a1 i (by omega) (by omega)
  | @leaf l r hle _ heq hk =>
    intro _ hl
    subst heq
    have hk2 : (tokAt arr l).kind ≠ .END ∧ parDelta (tokAt arr l).kind = 0 := by
      revert hk; cases (tokAt arr l).kind <;> decide
    constructor
    · intro i hi1 hi2
      have : i = l := by omega
      rw [this]; exact hk2.1
    · simp [parCount, hk2.2]

/-! ## C6: the terminator -/

theorem reclass_kind_END (t : Token) (p : Kind) :
    (reclass t p).kind = .END ↔ t.kind = .END := by
  unfold reclass
  split
  · rename_i h
    rcases h.1 with h1 | h1 <;> simp [h1]
  · rfl

theorem kind_disambiguate_END (arr : List Token) (i : Int) :
    (tokAt (disambiguate arr) i).kind = .END ↔ (tokAt arr i).kind = .END := by
  rw [tokAt_disambiguate]
  split
  · exact reclass_kind_END _ _
  · rfl

theorem tokAt_of_getElem? {arr : List Token} {n : Nat} {t : Token} (h : arr[n]? = some t) :
    tokAt arr (n : Int) = t := by
  unfold tokAt
  rw [if_neg (by omega), List.getD_eq_getElem?_getD, Int.toNat_ofNat, h]
  rfl

theorem getLast?_eq_tokAt {arr : List Token} (h : arr ≠ []) :
    arr.getLast? = some (tokAt arr ((arr.length : Int) - 1)) := by
  have hlen : 0 < arr.length := List.length_pos.mpr h
  rw [List.getLast?_eq_getElem?, List.getElem?_eq_getElem (by omega)]
  have e : ((arr.length : Int) - 1) = ((arr.length - 1 : Nat) : Int) := by omega
  rw [e, tokAt_of_getElem? (List.getElem?_eq_getElem (by omega))]

theorem mem_dropLast_tokAt {arr : List Token} {t : Token} (h : t ∈ arr.dropLast) :
    ∃ i : Int, 0 ≤ i ∧ i < (arr.length : Int) - 1 ∧ tokAt arr i = t := by
  obtain ⟨n, hn⟩ := List.mem_iff_getElem?.1 h
  rw [List.getElem?_dropLast] at hn
  split at hn
  · rename_i hlt
    exact ⟨n, by omega, by omega, tokAt_of_getElem? hn⟩
  · cases hn

/-- What a successful run of `parser` says about the token array. -/
theorem parser_ok_inv {arr : List Token} {t : AST} (h : parser arr = some (.ok t)) :
    lastIsEnd arr ∧ noEarlierEnd arr ∧ (t = .null → ∃ v, arr = [⟨.END, v⟩]) := by
  have hP := parse_sound _ _ _ _ _ _ h
  have hne : arr ≠ [] := by
    rintro rfl
    have hx : parser [] = some (.err "Unexpected parsing range.") := by decide
    rw [hx] at h
    cases h
  have hlast := getLast?_eq_tokAt hne
  cases hP with
  | stmtEmpty h1 h2 =>
    have hlen : arr.length = 1 := by omega
    rw [kind_disambiguate_END] at h2
    refine ⟨⟨_, hlast, ?_⟩, ?_, fun _ => ?_⟩
    · rw [← h1]; exact h2
    · intro t ht
      obtain ⟨i, hi1, hi2, _⟩ := mem_dropLast_tokAt ht
      omega
    · obtain ⟨a, rfl⟩ := List.length_eq_one.mp hlen
      obtain ⟨k, v⟩ := a
      have hk : k = .END := h2
      subst hk
      exact ⟨v, rfl⟩
  | stmt hle h1 h2 hE =>
    rw [kind_disambiguate_END] at h2
    have hr := (hE.range_ok (by decide) le_rfl).1
    refine ⟨⟨_, hlast, h2⟩, ?_, fun hn => ?_⟩
    · intro t ht
      obtain ⟨i, hi1, hi2, hi3⟩ := mem_dropLast_tokAt ht
      have := hr i hi1 (by omega)
      rw [Ne, kind_disambiguate_END, hi3] at this
      exact this
    · exact absurd hn (rootAllowed_ne_null (hE.rootAllowed (by decide)))

/-- C6: for every token array, `parser` succeeds only if the last token is
`End` and no earlier token is `End`; when the last token is not `End` (or
there is none), or a token before the last is `End`, it fails with one of the
four parse errors.  The only successful parse that returns no AST is that of
an array made of one `End` token. -/
theorem parser_terminator (arr : List Token) :
    (∀ t, parser arr = some (.ok t) → lastIsEnd arr ∧ noEarlierEnd arr)
    ∧ (¬ (lastIsEnd arr ∧ noEarlierEnd arr) → ∃ m ∈ parseErrors, parser arr = some (.err m))
    ∧ (parser arr = some (.ok .null) ↔ ∃ v, arr = [⟨.END, v⟩]) := by
  refine ⟨fun t h => ⟨(parser_ok_inv h).1, (parser_ok_inv h).2.1⟩, fun hn => ?_, ?_⟩
  · obtain ⟨res, hres, ho⟩ := parser_total arr
    rcases ho with ⟨t, rfl⟩ | ⟨m, hm, rfl⟩
    · exact absurd ⟨(parser_ok_inv hres).1, (parser_ok_inv hres).2.1⟩ hn
    · exact ⟨m, hm, hres⟩
  · constructor
    · intro h
      exact (parser_ok_inv h).2.2 rfl
    · rintro ⟨v, rfl⟩
      have h := parser_mapVal (fun x => if x = 1 then v else 0) rfl [⟨.END, 1⟩]
      exact h

/-- C6, on concrete lines: a line without `;` and a line with a `;` before
the last token fail with a parse error; `;` alone parses to no AST. -/
theorem parser_terminator_witness :
    parseLine "x" = some (.err "Expected ';' at the end of line.")
    ∧ parseLine "x;y;" = some (.err "No token left for parsing.")
    ∧ parseLine ";" = some (.ok .null)
    ∧ ∃ m ∈ parseErrors,
        parser [⟨.IDENTIFIER, 120⟩, ⟨.END, 0⟩, ⟨.IDENTIFIER, 121⟩, ⟨.END, 0⟩]
          = some (.err m) :=
  ⟨by decide, by decide, by decide,
   (parser_terminator [⟨.IDENTIFIER, 120⟩, ⟨.END, 0⟩, ⟨.IDENTIFIER, 121⟩, ⟨.END, 0⟩]).2.1
    (fun h => h.2 ⟨.END, 0⟩ (by decide) rfl)⟩

/-! ## `codegen`: basic facts -/

theorem Res.bind_eq_ok {α β : Type} {x : Res α} {f : α → Res β} {b : β} :
    x.bind f = .ok b ↔ ∃ a, x = .ok a ∧ f a = .ok b := by
  cases x <;> simp [Res.bind]

theorem readTable_eq_ok {α : Type} {o : Option α} {a : α} :
    readTable o = .ok a ↔ o = some a := by
  cases o <;> simp [readTable]

/-- `codegen` returns with `regIdx` and `memJudge` as they were on entry. -/
theorem codegen_preserves : ∀ (t : AST) (s s2 : CG) (out : List Instr),
    codegen t s = .ok (s2, out) → s2.regIdx = s.regIdx ∧ s2.memJudge = s.memJudge := by
  intro t
  induction t with
  | null =>
    intro s s2 out h
    simp only [codegen, Res.ok.injEq, Prod.mk.injEq] at h
    rw [← h.1]; exact ⟨rfl, rfl⟩
  | node k v l m r ihl ihm ihr =>
    intro s s2 out h
    cases k
    case ASSIGN =>
      simp only [codegen, Res.bind_eq_ok] at h
      obtain ⟨p1, h1, p2, h2, h3⟩ := h
      simp only [Res.ok.injEq, Prod.mk.injEq] at h3
      have a := ihr _ _ _ h1
      have b := ihl _ _ _ h2
      rw [← h3.1]
      simp only at a b ⊢
      omega
    case ADD | SUB | MUL | DIV | REM =>
      simp only [codegen, Res.bind_eq_ok] at h
      obtain ⟨p1, h1, p2, h2, op, _, h3⟩ := h
      simp only [Res.ok.injEq, Prod.mk.injEq] at h3
      have a := ihl _ _ _ h1
      have b := ihr _ _ _ h2
      rw [← h3.1]
      simp only at a b ⊢
      omega
    case POSTINC | POSTDEC | PREINC | PREDEC =>
      simp only [codegen, Res.bind_eq_ok] at h
      obtain ⟨p1, h1, op, _, st, _, ad, _, h3⟩ := h
      simp only [Res.ok.injEq, Prod.mk.injEq] at h3
      have a := ihm _ _ _ h1
      rw [← h3.1]
      exact a
    case PLUS | MINUS =>
      simp only [codegen, Res.bind_eq_ok] at h
      obtain ⟨p1, h1, op, _, h3⟩ := h
      simp only [Res.ok.injEq, Prod.mk.injEq] at h3
      have a := ihm _ _ _ h1
      rw [← h3.1]
      exact a
    case LPAR =>
      simp only [codegen] at h
      exact ihm _ _ _ h
    case IDENTIFIER =>
      simp only [codegen, Res.bind_eq_ok] at h
      obtain ⟨mop, _, ad, _, h3⟩ := h
      split at h3 <;>
        (simp only [Res.ok.injEq, Prod.mk.injEq] at h3; rw [← h3.1]; exact ⟨rfl, rfl⟩)
    case CONSTANT | RPAR | END =>
      simp only [codegen, Res.ok.injEq, Prod.mk.injEq] at h
      rw [← h.1]; exact ⟨rfl, rfl⟩

/-! ## C7: the instructions of `x=1+2*3;` -/

/-- C7, as stated, fails: the instructions emitted for `x=1+2*3;` do not come
in the order load 3, load 2, multiply, load 1, add, move, store. -/
theorem codegen_order_not_claimed :
    ¬ ∃ s out, compileLine "x=1+2*3;" CG.init = some (.ok (s, out)) ∧ claimedOrder out = true := by
  rintro ⟨s, out, h, hc⟩
  have h2 : compileLine "x=1+2*3;" CG.init = some (.ok (⟨0, 0, 120⟩,
      [⟨.add, [.reg 1, .imm 0, .imm 1]⟩, ⟨.add, [.reg 2, .imm 0, .imm 2]⟩,
       ⟨.add, [.reg 3, .imm 0, .imm 3]⟩, ⟨.mul, [.reg 2, .reg 2, .reg 3]⟩,
       ⟨.add, [.reg 1, .reg 1, .reg 2]⟩, ⟨.add, [.reg 0, .imm 0, .reg 1]⟩,
       ⟨.store, [.mem 0, .reg 0]⟩])) := by decide
  rw [h2] at h
  cases h
  revert hc
  decide

/-- C7 (amended): for `x=1+2*3;` the code generator emits, in this order,
load-immediate of 1 (`add r1 0 1`), load-immediate of 2 (`add r2 0 2`),
load-immediate of 3 (`add r3 0 3`), the multiply (`mul r2 r2 r3`), the add
(`add r1 r1 r2`), the move into the assignment's register (`add r0 0 r1`) and
the store to the slot of `x` (`store [0] r0`): the left operand of a binary
node is generated before the right one. -/
theorem codegen_order_emitted :
    compileLine "x=1+2*3;" CG.init = some (.ok (⟨0, 0, 120⟩,
      [⟨.add, [.reg 1, .imm 0, .imm 1]⟩, ⟨.add, [.reg 2, .imm 0, .imm 2]⟩,
       ⟨.add, [.reg 3, .imm 0, .imm 3]⟩, ⟨.mul, [.reg 2, .reg 2, .reg 3]⟩,
       ⟨.add, [.reg 1, .reg 1, .reg 2]⟩, ⟨.add, [.reg 0, .imm 0, .reg 1]⟩,
       ⟨.store, [.mem 0, .reg 0]⟩]))
    ∧ emittedOrder
      [⟨.add, [.reg 1, .imm 0, .imm 1]⟩, ⟨.add, [.reg 2, .imm 0, .imm 2]⟩,
       ⟨.add, [.reg 3, .imm 0, .imm 3]⟩, ⟨.mul, [.reg 2, .reg 2, .reg 3]⟩,
       ⟨.add, [.reg 1, .reg 1, .reg 2]⟩, ⟨.add, [.reg 0, .imm 0, .reg 1]⟩,
       ⟨.store, [.mem 0, .reg 0]⟩] = true := by
  constructor <;> decide

/-! ## C10: unary plus and minus -/

/-- C10, as stated, fails for unary plus: `+1;` compiles to the instruction
of its operand `1` followed by `add r0 0 r0`, an instruction of its own. -/
theorem codegen_plus_emits :
    compileLine "1;" CG.init = some (.ok (⟨0, 0, 0⟩, [⟨.add, [.reg 0, .imm 0, .imm 1]⟩]))
    ∧ compileLine "+1;" CG.init = some (.ok (⟨0, 0, 0⟩,
        [⟨.add, [.reg 0, .imm 0, .imm 1]⟩, ⟨.add, [.reg 0, .imm 0, .reg 0]⟩]))
    ∧ ¬ ∀ (v : Int) (lhs mid rhs : AST) (s : CG),
        codegen (.node .PLUS v lhs mid rhs) s = codegen mid s := by
  refine ⟨by decide, by decide, fun h => ?_⟩
  have := h 0 .null (new_AST .CONSTANT 1) .null CG.init
  revert this
  decide

/-- C10 (amended): for a unary Minus node generated at register index `n`,
`codegen` emits the instructions of the operand (generated at `n`) followed
by exactly one instruction, `sub r{n} 0 r{n}`; for a unary Plus node it emits
the instructions of the operand followed by exactly one instruction,
`add r{n} 0 r{n}`, which leaves `r{n}` as it is. -/
theorem codegen_unary_sign (v : Int) (lhs mid rhs : AST) (s s1 : CG) (o1 : List Instr)
    (h : codegen mid s = .ok (s1, o1)) :
    codegen (.node .MINUS v lhs mid rhs) s
      = .ok (s1, o1 ++ [⟨.sub, [.reg s.regIdx, .imm 0, .reg s.regIdx]⟩])
    ∧ codegen (.node .PLUS v lhs mid rhs) s
      = .ok (s1, o1 ++ [⟨.add, [.reg s.regIdx, .imm 0, .reg s.regIdx]⟩]) := by
  have hp := (codegen_preserves mid s s1 o1 h).1
  constructor
  · simp only [codegen, h, Res.bind, ← hp]
    rfl
  · simp only [codegen, h, Res.bind, ← hp]
    rfl

/-- C10 (amended), at the operand `x` and register index 2. -/
theorem codegen_unary_sign_witness :
    codegen (.node .MINUS 0 .null (new_AST .IDENTIFIER 120) .null) ⟨2, 0, 0⟩
      = .ok (⟨2, 0, 120⟩, [⟨.load, [.reg 2, .mem 0]⟩]
          ++ [⟨.sub, [.reg 2, .imm 0, .reg 2]⟩])
    ∧ codegen (.node .PLUS 0 .null (new_AST .IDENTIFIER 120) .null) ⟨2, 0, 0⟩
      = .ok (⟨2, 0, 120⟩, [⟨.load, [.reg 2, .mem 0]⟩]
          ++ [⟨.add, [.reg 2, .imm 0, .reg 2]⟩]) :=
  codegen_unary_sign 0 .null (new_AST .IDENTIFIER 120) .null ⟨2, 0, 0⟩ ⟨2, 0, 120⟩
    [⟨.load, [.reg 2, .mem 0]⟩] (by decide)

/-! ## C8: the register bound -/

theorem height_pos {t : AST} (h : t ≠ .null) : 1 ≤ t.height := by
  cases t with
  | null => exact absurd rfl h
  | node k v l m r => simp [AST.height]

/-- The registers of the instructions `codegen` emits for `t` from register
index `n` lie in `n .. n + height t - 1`. -/
theorem codegen_regs : ∀ (t : AST), childrenPresent t → ∀ (s s2 : CG) (out : List Instr),
    codegen t s = .ok (s2, out) →
      ∀ i ∈ out, ∀ k ∈ i.regs, s.regIdx ≤ k ∧ k < s.regIdx + t.height := by
  intro t
  induction t with
  | null =>
    intro _ s s2 out h
    simp only [codegen, Res.ok.injEq, Prod.mk.injEq] at h
    rw [← h.2]
    simp
  | node k v l m r ihl ihm ihr =>
    intro hp s s2 out h
    unfold childrenPresent at hp
    rw [forall_subtrees_node] at hp
    obtain ⟨h0, hl, hm, hr⟩ := hp
    have hH : (AST.node k v l m r).height = 1 + max l.height (max m.height r.height) := rfl
    cases k
    case ASSIGN =>
      simp only [codegen, Res.bind_eq_ok] at h
      obtain ⟨p1, h1, p2, h2, h3⟩ := h
      simp only [Res.ok.injEq, Prod.mk.injEq] at h3
      have a := ihr hr _ _ _ h1
      have b := ihl hl _ _ _ h2
      have c := codegen_preserves _ _ _ _ h1
      have hrn := height_pos (h0.1 (Or.inl rfl)).2
      simp only at a b c
      rw [← h3.2]
      intro i hi k hk
      simp only [List.mem_append, List.mem_singleton] at hi
      rcases hi with (hi | hi) | hi
      · have := a i hi k hk
        omega
      · subst hi
        simp only [Instr.regs, regsOf, List.mem_cons, List.mem_singleton, List.not_mem_nil,
          or_false] at hk
        omega
      · have := b i hi k hk
        omega
    case ADD | SUB | MUL | DIV | REM =>
      simp only [codegen, Res.bind_eq_ok] at h
      obtain ⟨p1, h1, p2, h2, op, _, h3⟩ := h
      simp only [Res.ok.injEq, Prod.mk.injEq] at h3
      have a := ihl hl _ _ _ h1
      have b := ihr hr _ _ _ h2
      have c := codegen_preserves _ _ _ _ h1
      have d := codegen_preserves _ _ _ _ h2
      have hrn := height_pos (h0.1 (by decide)).2
      simp only at a b c d
      rw [← h3.2]
      intro i hi k hk
      simp only [List.mem_append, List.mem_singleton] at hi
      rcases hi with (hi | hi) | hi
      · have := a i hi k hk
        omega
      · have := b i hi k hk
        omega
      · subst hi
        simp only [Instr.regs, regsOf, List.mem_cons, List.mem_singleton, List.not_mem_nil,
          or_false] at hk
        omega
    case POSTINC | POSTDEC | PREINC | PREDEC =>
      simp only [codegen, Res.bind_eq_ok] at h
      obtain ⟨p1, h1, op, _, st, _, ad, _, h3⟩ := h
      simp only [Res.ok.injEq, Prod.mk.injEq] at h3
      have a := ihm hm _ _ _ h1
      have c := codegen_preserves _ _ _ _ h1
      have hrn := height_pos (h0.2 (by decide))
      rw [← h3.2]
      intro i hi k hk
      simp only [List.mem_append, List.mem_cons, List.mem_singleton, List.not_mem_nil,
        or_false] at hi
      rcases hi with hi | hi | hi
      · have := a i hi k hk
        omega
      · subst hi
        simp only [Instr.regs, regsOf, List.mem_cons, List.mem_singleton, List.not_mem_nil,
          or_false] at hk
        omega
      · subst hi
        simp only [Instr.regs, regsOf, List.mem_cons, List.mem_singleton, List.not_mem_nil,
          or_false] at hk
        omega
    case PLUS | MINUS =>
      simp only [codegen, Res.bind_eq_ok] at h
      obtain ⟨p1, h1, op, _, h3⟩ := h
      simp only [Res.ok.injEq, Prod.mk.injEq] at h3
      have a := ihm hm _ _ _ h1
      have c := codegen_preserves _ _ _ _ h1
      rw [← h3.2]
      intro i hi k hk
      simp only [List.mem_append, List.mem_singleton] at hi
      rcases hi with hi | hi
      · have := a i hi k hk
        omega
      · subst hi
        simp only [Instr.regs, regsOf, List.mem_cons, List.mem_singleton, List.not_mem_nil,
          or_false] at hk
        omega
    case LPAR =>
      simp only [codegen] at h
      intro i hi k hk
      have := ihm hm _ _ _ h i hi k hk
      omega
    case IDENTIFIER =>
      simp only [codegen, Res.bind_eq_ok] at h
      obtain ⟨mop, _, ad, _, h3⟩ := h
      intro i hi k hk
      split at h3 <;>
        (simp only [Res.ok.injEq, Prod.mk.injEq] at h3
         rw [← h3.2] at hi
         simp only [List.mem_singleton] at hi
         subst hi
         simp only [Instr.regs, regsOf, List.mem_cons, List.mem_singleton, List.not_mem_nil,
           or_false] at hk
         omega)
    case CONSTANT =>
      simp only [codegen, Res.ok.injEq, Prod.mk.injEq] at h
      rw [← h.2]
      intro i hi k hk
      simp only [List.mem_singleton] at hi
      subst hi
      simp only [Instr.regs, regsOf, List.mem_cons, List.mem_singleton, List.not_mem_nil,
        or_false] at hk
      omega
    case RPAR | END =>
      simp only [codegen, Res.ok.injEq, Prod.mk.injEq] at h
      rw [← h.2]
      simp

/-- C8: for every AST `t` whose nodes have the children their kinds require
and every starting register index `n`, every register index in the
instructions `codegen` emits for `t` lies in `n .. n + d`, with `d` the
nesting depth of `t`; so the code uses at most `d + 1` distinct registers
and none below the index it was started at. -/
theorem codegen_register_bound (t : AST) (hp : childrenPresent t) (s s2 : CG)
    (out : List Instr) (h : codegen t s = .ok (s2, out)) :
    (∀ i ∈ out, ∀ k ∈ i.regs, s.regIdx ≤ k ∧ k ≤ s.regIdx + t.depth)
    ∧ (usedRegs out).length ≤ t.depth + 1 := by
  have key : ∀ i ∈ out, ∀ k ∈ i.regs, s.regIdx ≤ k ∧ k ≤ s.regIdx + t.depth := by
    intro i hi k hk
    have := codegen_regs t hp s s2 out h i hi k hk
    unfold AST.depth
    omega
  refine ⟨key, ?_⟩
  unfold usedRegs
  rw [← List.card_toFinset]
  have hsub : (out.flatMap Instr.regs).toFinset ⊆ Finset.Icc s.regIdx (s.regIdx + t.depth) := by
    intro k hk
    rw [List.mem_toFinset, List.mem_flatMap] at hk
    obtain ⟨i, hi, hk⟩ := hk
    rw [Finset.mem_Icc]
    exact key i hi k hk
  have := Finset.card_le_card hsub
  rw [Int.card_Icc] at this
  omega

/-- C8, at the AST of `x=1+2*3;` (depth 3) from register index 0: the
registers used are `r0 .. r3`. -/
theorem codegen_register_bound_witness :
    (AST.node .ASSIGN 0 (new_AST .IDENTIFIER 120) .null
        (.node .ADD 0 (new_AST .CONSTANT 1) .null
          (.node .MUL 0 (new_AST .CONSTANT 2) .null (new_AST .CONSTANT 3)))).depth = 3
    ∧ ((∀ i ∈ [(⟨.add, [.reg 1, .imm 0, .imm 1]⟩ : Instr), ⟨.add, [.reg 2, .imm 0, .imm 2]⟩,
          ⟨.add, [.reg 3, .imm 0, .imm 3]⟩, ⟨.mul, [.reg 2, .reg 2, .reg 3]⟩,
          ⟨.add, [.reg 1, .reg 1, .reg 2]⟩, ⟨.add, [.reg 0, .imm 0, .reg 1]⟩,
          ⟨.store, [.mem 0, .reg 0]⟩], ∀ k ∈ i.regs,
          CG.init.regIdx ≤ k ∧ k ≤ CG.init.regIdx +
            (AST.node .ASSIGN 0 (new_AST .IDENTIFIER 120) .null
              (.node .ADD 0 (new_AST .CONSTANT 1) .null
                (.node .MUL 0 (new_AST .CONSTANT 2) .null (new_AST .CONSTANT 3)))).depth)
      ∧ (usedRegs [(⟨.add, [.reg 1, .imm 0, .imm 1]⟩ : Instr), ⟨.add, [.reg 2, .imm 0, .imm 2]⟩,
          ⟨.add, [.reg 3, .imm 0, .imm 3]⟩, ⟨.mul, [.reg 2, .reg 2, .reg 3]⟩,
          ⟨.add, [.reg 1, .reg 1, .reg 2]⟩, ⟨.add, [.reg 0, .imm 0, .reg 1]⟩,
          ⟨.store, [.mem 0, .reg 0]⟩]).length ≤
            (AST.node .ASSIGN 0 (new_AST .IDENTIFIER 120) .null
              (.node .ADD 0 (new_AST .CONSTANT 1) .null
                (.node .MUL 0 (new_AST .CONSTANT 2) .null (new_AST .CONSTANT 3)))).depth + 1) :=
  ⟨by decide,
   codegen_register_bound _ (by decide) CG.init ⟨0, 0, 120⟩ _ (by decide)⟩

/-! ## C9: the slot an increment or decrement writes back to -/

/-- When `semantic_check` accepts a tree, the operand of each of its
increment and decrement nodes unwraps to an identifier. -/
theorem semantic_check_incdec : ∀ t : AST, semantic_check t = .ok () →
    ∀ (k : Kind) (v : Int) (l m r : AST), AST.node k v l m r ∈ t.subtrees →
      isIncDec k = true → unwrapKind m = .ok .IDENTIFIER := by
  intro t
  induction t with
  | null => intro _ k v l m r hn; simp [AST.subtrees] at hn
  | node k0 v0 l0 m0 r0 ihl ihm ihr =>
    intro hc k v l m r hn hk
    rw [semantic_check] at hc
    simp only [Res.bind_eq_ok] at hc
    obtain ⟨_, _, _, h2, _, hl, _, hr, hm⟩ := hc
    simp only [AST.subtrees, List.mem_cons, List.mem_append] at hn
    rcases hn with hn | (hn | hn) | hn
    · injection hn with e1 e2 e3 e4 e5
      subst e1 e2 e3 e4 e5
      have hcond : k = .PREDEC ∨ k = .PREINC ∨ k = .POSTINC ∨ k = .POSTDEC := by
        revert hk; cases k <;> decide
      rw [if_pos hcond] at h2
      simp only [Res.bind_eq_ok] at h2
      obtain ⟨k2, hu, h3⟩ := h2
      by_cases hk2 : k2 = .IDENTIFIER
      · rw [hu, hk2]
      · rw [if_pos hk2] at h3
        cases h3
    · exact ihl hl k v l m r hn hk
    · exact ihm hm k v l m r hn hk
    · exact ihr hr k v l m r hn hk

/-- An operand that unwraps to an identifier is compiled as that identifier. -/
theorem codegen_unwrapped : ∀ t : AST, unwrapKind t = .ok .IDENTIFIER →
    ∃ x, identVal t = some x ∧ ∀ s, codegen t s = codegen (new_AST .IDENTIFIER x) s := by
  intro t
  induction t with
  | null => intro h; simp [unwrapKind] at h
  | node k v l m r _ ihm _ =>
    intro h
    unfold unwrapKind at h
    by_cases hk : k = .LPAR
    · rw [if_pos hk] at h
      obtain ⟨x, hx, hc⟩ := ihm h
      refine ⟨x, ?_, fun s => ?_⟩
      · unfold identVal stripParens
        rw [if_pos hk]
        exact hx
      · subst hk
        rw [codegen]
        exact hc s
    · rw [if_neg hk] at h
      simp only [Res.ok.injEq] at h
      subst h
      refine ⟨v, ?_, fun s => ?_⟩
      · simp [identVal, stripParens]
      · simp only [codegen, new_AST]

/-- The code of an identifier leaf. -/
theorem codegen_ident (x : Int) (s s2 : CG) (out : List Instr)
    (h : codegen (new_AST .IDENTIFIER x) s = .ok (s2, out)) :
    ∃ a, memAd (x - 120) = some a ∧ (s.memJudge = 0 ∨ s.memJudge = 1) ∧
      s2 = ⟨s.regIdx, s.memJudge, x⟩ ∧ out = [memAccess s.memJudge s.regIdx a] := by
  simp only [codegen, new_AST, Res.bind_eq_ok, readTable_eq_ok] at h
  obtain ⟨mop, hmop, a, ha, h3⟩ := h
  refine ⟨a, ha, ?_⟩
  unfold MemOP at hmop
  unfold memAccess
  by_cases h0 : s.memJudge = 0
  · rw [if_pos h0] at hmop
    have h1 : ¬ s.memJudge = 1 := by omega
    rw [if_neg h1] at h3 ⊢
    simp only [Res.ok.injEq, Prod.mk.injEq, Option.some.injEq] at h3 hmop
    exact ⟨Or.inl h0, h3.1.symm, by rw [← h3.2, hmop]⟩
  · rw [if_neg h0] at hmop
    by_cases h1 : s.memJudge = 1
    · rw [if_pos h1] at hmop h3 ⊢
      simp only [Res.ok.injEq, Prod.mk.injEq, Option.some.injEq] at h3 hmop
      exact ⟨Or.inr h1, h3.1.symm, by rw [← h3.2, hmop]⟩
    · rw [if_neg h1] at hmop
      cases hmop

/-- The code of an identifier leaf in load mode, when its slot exists. -/
theorem codegen_ident_load (x n v0 a : Int) (ha : memAd (x - 120) = some a) :
    codegen (new_AST .IDENTIFIER x) ⟨n, 0, v0⟩
      = .ok (⟨n, 0, x⟩, [⟨.load, [.reg n, .mem a]⟩]) := by
  simp [codegen, new_AST, MemOP, readTable, Res.bind, ha]

/-- C9: in an AST that passes `semantic_check`, every PreInc/PreDec/PostInc/
PostDec node has an operand that unwraps to an identifier `x`, and whenever
`codegen` runs on that node (in any state of its statics, so whatever was
loaded before) the store it emits writes to the slot of `x`, the address of
the memory access emitted for the operand itself.  In load mode, with `x`
one of the variables, it returns with `load r{n} [a]`, the arithmetic
instruction and `store [a] r`. -/
theorem incdec_store_slot (t : AST) (hc : semantic_check t = .ok ())
    (k : Kind) (v : Int) (l mid r : AST) (hn : AST.node k v l mid r ∈ t.subtrees)
    (hk : isIncDec k = true) :
    ∃ x, identVal mid = some x ∧
      (∀ s s2 out, codegen (.node k v l mid r) s = .ok (s2, out) →
        ∃ a i1 rs, memAd (x - 120) = some a ∧
          codegen mid s = .ok (s2, [memAccess s.memJudge s.regIdx a]) ∧
          out = [memAccess s.memJudge s.regIdx a, i1, ⟨.store, [.mem a, .reg rs]⟩]) ∧
      (∀ n v0 a, memAd (x - 120) = some a →
        ∃ i1 rs, codegen (.node k v l mid r) ⟨n, 0, v0⟩
          = .ok (⟨n, 0, x⟩, [⟨.load, [.reg n, .mem a]⟩, i1, ⟨.store, [.mem a, .reg rs]⟩])) := by
  obtain ⟨x, hx, hcg⟩ := codegen_unwrapped mid (semantic_check_incdec t hc k v l mid r hn hk)
  refine ⟨x, hx, ?_, ?_⟩
  · intro s s2 out h
    have key : ∀ (op : Op) (rd ra rs : Int → Int),
        ((codegen mid s).bind fun p1 =>
          (readTable (some op)).bind fun op =>
          (readTable (MemOP 1)).bind fun st =>
          (readTable (memAd (p1.1.Val - 120))).bind fun ad =>
          .ok (p1.1, p1.2 ++ [⟨op, [.reg (rd p1.1.regIdx), .reg (ra p1.1.regIdx), .imm 1]⟩,
                            ⟨st, [.mem ad, .reg (rs p1.1.regIdx)]⟩])) = .ok (s2, out) →
        ∃ a i1 rs, memAd (x - 120) = some a ∧
          codegen mid s = .ok (s2, [memAccess s.memJudge s.regIdx a]) ∧
          out = [memAccess s.memJudge s.regIdx a, i1, ⟨.store, [.mem a, .reg rs]⟩] := by
      intro op rd ra rs h
      simp only [Res.bind_eq_ok, readTable_eq_ok] at h
      obtain ⟨p1, h1, op2, _, st, hst, ad, had, h3⟩ := h
      have h1b := h1
      rw [hcg s] at h1b
      obtain ⟨a, ha, _, hs1, ho1⟩ := codegen_ident x s p1.1 p1.2 h1b
      have hst2 : st = .store := by
        have : MemOP 1 = some Op.store := by decide
        rw [this] at hst
        exact (Option.some.inj hst).symm
      rw [hs1] at had
      simp only at had
      rw [ha] at had
      have had2 : ad = a := (Option.some.inj had).symm
      simp only [Res.ok.injEq, Prod.mk.injEq] at h3
      refine ⟨a, ⟨op2, [.reg (rd p1.1.regIdx), .reg (ra p1.1.regIdx), .imm 1]⟩,
        rs p1.1.regIdx, ha, ?_, ?_⟩
      · rw [h1, ← h3.1, ← ho1]
      · rw [← h3.2, ho1, hst2, had2]
        rfl
    cases k
    case POSTINC => exact key .add (· + 1) id (· + 1) (by simpa [codegen, ArithOP] using h)
    case POSTDEC => exact key .sub (· + 1) id (· + 1) (by simpa [codegen, ArithOP] using h)
    case PREINC => exact key .add id id id (by simpa [codegen, ArithOP] using h)
    case PREDEC => exact key .sub id id id (by simpa [codegen, ArithOP] using h)
    all_goals exact absurd hk (by decide)
  · intro n v0 a ha
    have h1 := codegen_ident_load x n v0 a ha
    rw [← hcg] at h1
    have hst : MemOP 1 = some Op.store := by decide
    cases k
    case POSTINC =>
      exact ⟨⟨.add, [.reg (n + 1), .reg n, .imm 1]⟩, n + 1,
        by simp [codegen, h1, Res.bind, readTable, ArithOP, Kind.toInt, hst, ha]⟩
    case POSTDEC =>
      exact ⟨⟨.sub, [.reg (n + 1), .reg n, .imm 1]⟩, n + 1,
        by simp [codegen, h1, Res.bind, readTable, ArithOP, Kind.toInt, hst, ha]⟩
    case PREINC =>
      exact ⟨⟨.add, [.reg n, .reg n, .imm 1]⟩, n,
        by simp [codegen, h1, Res.bind, readTable, ArithOP, Kind.toInt, hst, ha]⟩
    case PREDEC =>
      exact ⟨⟨.sub, [.reg n, .reg n, .imm 1]⟩, n,
        by simp [codegen, h1, Res.bind, readTable, ArithOP, Kind.toInt, hst, ha]⟩
    all_goals exact absurd hk (by decide)

/-- C9, at `y=x++;`: the line passes `semantic_check`, its AST is
`Assign(y, PostInc(x))`, and the theorem at the `PostInc` node; run after a
statement that left `z` as the last-loaded identifier, the node still stores
to the slot of `x`. -/
theorem incdec_store_slot_witness :
    checkLine "y=x++;" = some (.ok ())
    ∧ parseLine "y=x++;" = some (.ok (.node .ASSIGN 0 (new_AST .IDENTIFIER 121) .null
        (.node .POSTINC 0 .null (new_AST .IDENTIFIER 120) .null)))
    ∧ codegen (.node .POSTINC 0 .null (new_AST .IDENTIFIER 120) .null) ⟨1, 0, 122⟩
        = .ok (⟨1, 0, 120⟩, [⟨.load, [.reg 1, .mem 0]⟩, ⟨.add, [.reg 2, .reg 1, .imm 1]⟩,
            ⟨.store, [.mem 0, .reg 2]⟩])
    ∧ ∃ x, identVal (new_AST .IDENTIFIER 120) = some x ∧
      (∀ s s2 out,
        codegen (.node .POSTINC 0 .null (new_AST .IDENTIFIER 120) .null) s = .ok (s2, out) →
        ∃ a i1 rs, memAd (x - 120) = some a ∧
          codegen (new_AST .IDENTIFIER 120) s
            = .ok (s2, [memAccess s.memJudge s.regIdx a]) ∧
          out = [memAccess s.memJudge s.regIdx a, i1, ⟨.store, [.mem a, .reg rs]⟩]) ∧
      (∀ n v0 a, memAd (x - 120) = some a →
        ∃ i1 rs, codegen (.node .POSTINC 0 .null (new_AST .IDENTIFIER 120) .null) ⟨n, 0, v0⟩
          = .ok (⟨n, 0, x⟩, [⟨.load, [.reg n, .mem a]⟩, i1, ⟨.store, [.mem a, .reg rs]⟩])) :=
  ⟨by decide, by decide, by decide,
   incdec_store_slot
    (.node .ASSIGN 0 (new_AST .IDENTIFIER 121) .null
      (.node .POSTINC 0 .null (new_AST .IDENTIFIER 120) .null))
    (by decide) .POSTINC 0 .null (new_AST .IDENTIFIER 120) .null (by decide) (by decide)⟩

/-! ## C11: a failing line ends the run -/

/-- C11, as stated, fails: after the failing line `1++;` the line `x=1;` is
not compiled, so the run prints nothing, while without the failing line it
prints the three instructions of `x=1;`. -/
theorem failing_line_stops_run :
    printedBy ["1++;\n", "x=1;\n"] = some []
    ∧ printedBy ["x=1;\n"] = some [⟨.add, [.reg 1, .imm 0, .imm 1]⟩,
        ⟨.add, [.reg 0, .imm 0, .reg 1]⟩, ⟨.store, [.mem 0, .reg 0]⟩]
    ∧ ¬ (printedBy ["1++;\n", "x=1;\n"] = printedBy ["x=1;\n"]) := by
  refine ⟨by decide, by decide, by decide⟩

/-- C11 (amended): failure ends the whole run.  When the lines before a line
compile and that line fails with `err`, the run of `main` ends there with
that error: it has printed the instructions of the lines before the failing
one, and the lines after it are not compiled, whatever they are. -/
theorem mainLoop_stops_at_failure (before : List String) (bad : String) (rest : List String)
    (s s1 : CG) (o1 : List Instr) (m : String)
    (h1 : mainLoop before s = some ⟨s1, o1, .ok ()⟩)
    (h2 : compileLine bad s1 = some (.err m)) :
    mainLoop (before ++ bad :: rest) s = some ⟨s1, o1, .err m⟩ := by
  induction before generalizing s o1 with
  | nil =>
    simp only [mainLoop, Option.some.injEq, Run.mk.injEq] at h1
    obtain ⟨rfl, rfl, _⟩ := h1
    simp only [List.nil_append, mainLoop, h2]
  | cons line tl ih =>
    simp only [List.cons_append, mainLoop] at h1 ⊢
    cases hc : compileLine line s with
    | none => rw [hc] at h1; cases h1
    | some res =>
      rw [hc] at h1
      cases res with
      | ok p =>
        simp only [Option.map_eq_some'] at h1 ⊢
        obtain ⟨run, hrun, hr⟩ := h1
        simp only [Run.mk.injEq] at hr
        obtain ⟨hr1, hr2, hr3⟩ := hr
        have hrun2 : mainLoop tl p.1 = some ⟨s1, run.printed, .ok ()⟩ := by
          rw [hrun, ← hr1, ← hr3]
        exact ⟨_, ih _ _ hrun2, by simp [hr2]⟩
      | err m2 => simp at h1
      | ub => simp at h1

/-- C11 (amended), at the lines `y=2;`, `1++;`, `x=1;`: the run prints the
instructions of `y=2;` and ends with the error of `1++;`. -/
theorem mainLoop_stops_at_failure_witness :
    mainLoop (["y=2;\n"] ++ "1++;\n" :: ["x=1;\n"]) CG.init
      = some ⟨⟨0, 0, 121⟩, [⟨.add, [.reg 1, .imm 0, .imm 2]⟩,
          ⟨.add, [.reg 0, .imm 0, .reg 1]⟩, ⟨.store, [.mem 4, .reg 0]⟩],
          .err "Identifier is required as mid operand of INC/DEC."⟩ :=
  mainLoop_stops_at_failure ["y=2;\n"] "1++;\n" ["x=1;\n"] CG.init ⟨0, 0, 121⟩ _ _
    (by decide) (by decide)

/-! ## C13: the empty statement -/

/-- C13: `;` alone is an empty statement.  Its token array is the single
token `End`; `parser` returns no AST without an error; `semantic_check` on
the absent AST succeeds; `codegen` on the absent AST emits nothing; so the
line compiles to no instruction and leaves the statics as they are. -/
theorem empty_statement :
    lexer ";".toList = .ok [⟨.END, 0⟩]
    ∧ parser [⟨.END, 0⟩] = some (.ok .null)
    ∧ semantic_check .null = .ok ()
    ∧ (∀ s, codegen .null s = .ok (s, []))
    ∧ (∀ s, compileLine ";" s = some (.ok (s, []))) := by
  refine ⟨by decide, by decide, rfl, fun s => rfl, fun s => ?_⟩
  have h1 : lexer ";".toList = .ok [⟨.END, 0⟩] := by decide
  have h2 : parser [⟨.END, 0⟩] = some (.ok .null) := by decide
  simp only [compileLine, h1, h2]
  rfl

/-! ## C14: the error of `x+;` -/

/-- C14, as stated, fails: `x+;` does not fail with `IncompleteExpression`
(`No token left for parsing.`). -/
theorem incomplete_not_reported :
    ¬ (parseLine "x+;" = some (.err IncompleteExpression)) := by
  decide

/-- C14 (amended): compiling `x+;` fails with ParseError
`EmptyOrInvertedRange` (`Unexpected parsing range.`): the right operand of
the Add is the empty range `[2, 1]`, which `parse` rejects at its first test.
The four ParseError kinds are the four error sites of `parse`. -/
theorem empty_operand_range :
    parseLine "x+;" = some (.err EmptyOrInvertedRange)
    ∧ (∀ s, compileLine "x+;" s = some (.err EmptyOrInvertedRange))
    ∧ parseErrors
        = [MissingTerminator, EmptyOrInvertedRange, UnexpectedToken, IncompleteExpression]
    ∧ MissingTerminator = "Expected ';' at the end of line."
    ∧ EmptyOrInvertedRange = "Unexpected parsing range."
    ∧ UnexpectedToken = "Unexpected token during parsing."
    ∧ IncompleteExpression = "No token left for parsing." := by
  refine ⟨by decide, fun s => ?_, rfl, rfl, rfl, rfl, rfl⟩
  have h1 : lexer "x+;".toList = .ok [⟨.IDENTIFIER, 120⟩, ⟨.PLUS, 0⟩, ⟨.END, 0⟩] := by decide
  have h2 : parser [⟨.IDENTIFIER, 120⟩, ⟨.PLUS, 0⟩, ⟨.END, 0⟩]
      = some (.err EmptyOrInvertedRange) := by decide
  simp only [compileLine, h1, h2]

/-! ## C20: `parse` terminates -/

theorem andThen_mono {x x2 : Option (Res AST)} {f f2 : AST → Option (Res AST)}
    {res : Res AST} (hx : ∀ rx, x = some rx → x2 = some rx)
    (hf : ∀ a rf, f a = some rf → f2 a = some rf) (h : andThen x f = some res) :
    andThen x2 f2 = some res := by
  rcases x with _ | (a | m | _)
  · cases h
  · rw [hx _ rfl]; exact hf a res h
  · rw [hx _ rfl]; exact h
  · rw [hx _ rfl]; exact h

/-- More fuel does not change what `parse` returns. -/
theorem parse_succ_fuel (arr : List Token) :
    ∀ (n : Nat) (l r : Int) (S : GrammarState) (res : Res AST),
      parse n arr l r S = some res → parse (n + 1) arr l r S = some res := by
  intro n
  induction n with
  | zero => intro l r S res h; simp [parse] at h
  | succ n ih =>
    intro l r S res h
    unfold parse at h
    conv_lhs => unfold parse
    by_cases hlr : l > r
    · rw [if_pos hlr] at h ⊢; exact h
    · rw [if_neg hlr] at h ⊢
      cases S with
      | STMT =>
        simp only at h ⊢
        split_ifs at h ⊢ with h1 h2
        · exact h
        · exact ih _ _ _ _ h
        · exact h
      | EXPR => exact ih _ _ _ _ h
      | ASSIGN_EXPR =>
        simp only at h ⊢
        split_ifs at h ⊢ with h1
        · exact andThen_mono (fun _ hx => ih _ _ _ _ hx)
            (fun a rf hf => andThen_mono (fun _ hx => ih _ _ _ _ hx) (fun _ _ hb => hb) hf) h
        · exact ih _ _ _ _ h
      | ADD_EXPR =>
        simp only at h ⊢
        split_ifs at h ⊢ with h1
        · exact andThen_mono (fun _ hx => ih _ _ _ _ hx)
            (fun a rf hf => andThen_mono (fun _ hx => ih _ _ _ _ hx) (fun _ _ hb => hb) hf) h
        · exact ih _ _ _ _ h
      | MUL_EXPR =>
        simp only at h ⊢
        split_ifs at h ⊢ with h1
        · exact andThen_mono (fun _ hx => ih _ _ _ _ hx)
            (fun a rf hf => andThen_mono (fun _ hx => ih _ _ _ _ hx) (fun _ _ hb => hb) hf) h
        · exact ih _ _ _ _ h
      | UNARY_EXPR =>
        simp only at h ⊢
        split_ifs at h ⊢ with h1
        · exact andThen_mono (fun _ hx => ih _ _ _ _ hx) (fun _ _ hb => hb) h
        · exact ih _ _ _ _ h
      | POSTFIX_EXPR =>
        simp only at h ⊢
        split_ifs at h ⊢ with h1
        · exact andThen_mono (fun _ hx => ih _ _ _ _ hx) (fun _ _ hb => hb) h
        · exact ih _ _ _ _ h
      | PRI_EXPR =>
        simp only at h ⊢
        split_ifs at h ⊢ with h1 h2 h3
        · exact andThen_mono (fun _ hx => ih _ _ _ _ hx) (fun _ _ hb => hb) h
        · exact h
        · exact h
        · exact h

theorem parse_mono (arr : List Token) {n m : Nat} (hnm : n ≤ m) {l r : Int}
    {S : GrammarState} {res : Res AST} (h : parse n arr l r S = some res) :
    parse m arr l r S = some res := by
  induction hnm with
  | refl => exact h
  | step _ ih => exact parse_succ_fuel arr _ _ _ _ _ ih

/-- Every recursive call of `parse` shrinks the range, or keeps the range and
moves to a strictly later grammar state. -/
theorem Calls.decreases {arr : List Token} {l r l2 r2 : Int} {S S2 : GrammarState}
    (h : Calls arr l r S l2 r2 S2) :
    (r2 - l2 < r - l) ∨ (l2 = l ∧ r2 = r ∧ S2.rank < S.rank) := by
  cases h with
  | stmt => left; omega
  | expr => right; exact ⟨rfl, rfl, by decide⟩
  | assignL hle hn => left; have := findNextSection_fwd hle rfl hn; omega
  | assignR hle hn => left; have := findNextSection_fwd hle rfl hn; omega
  | assignNone => right; exact ⟨rfl, rfl, by decide⟩
  | addL hle hn => left; have := findNextSection_bwd hle rfl hn; omega
  | addR hle hn => left; have := findNextSection_bwd hle rfl hn; omega
  | addNone => right; exact ⟨rfl, rfl, by decide⟩
  | mulL hle hn => left; have := findNextSection_bwd hle rfl hn; omega
  | mulR hle hn => left; have := findNextSection_bwd hle rfl hn; omega
  | mulNone => right; exact ⟨rfl, rfl, by decide⟩
  | unary => left; omega
  | unaryNone => right; exact ⟨rfl, rfl, by decide⟩
  | post => left; omega
  | postNone => right; exact ⟨rfl, rfl, by decide⟩
  | paren => left; omega

/-- C20: `parse` terminates on every input.  For every token array, range and
grammar state, `parse` returns an AST or one of its errors: with
`parseNeed l r S` units of fuel (one per nested call) it returns, and with
more fuel it returns the same; the bound exists because every recursive call
shrinks the range or keeps the range and moves to a strictly later state. -/
theorem parse_terminates (arr : List Token) (l r : Int) (S : GrammarState) :
    (∃ res, parseOutcome res ∧
      ∀ fuel, parseNeed l r S ≤ fuel → parse fuel arr l r S = some res)
    ∧ (∀ l2 r2 S2, Calls arr l r S l2 r2 S2 →
        ((r2 - l2 < r - l) ∨ (l2 = l ∧ r2 = r ∧ S2.rank < S.rank))
        ∧ parseNeed l2 r2 S2 < parseNeed l r S) := by
  constructor
  · obtain ⟨res, h, ho⟩ := parse_total arr (parseNeed l r S) l r S le_rfl
    exact ⟨res, ho, fun fuel hf => parse_mono arr hf h⟩
  · intro l2 r2 S2 hc
    refine ⟨hc.decreases, ?_⟩
    have hle : l ≤ r := by cases hc <;> assumption
    rcases hc.decreases with h | ⟨h1, h2, h3⟩
    · have : S2.rank ≤ 7 := by cases S2 <;> decide
      simp only [parseNeed]
      omega
    · subst h1 h2
      simp only [parseNeed]
      omega

/-! ## C17: the children of the nodes `parse` builds -/

theorem shapeAt_binary {k : Kind} {v : Int} {l r : AST}
    (hk : condASSIGN k = true ∨ condADD k = true ∨ condMUL k = true)
    (hl : l ≠ .null) (hr : r ≠ .null) : shapeAt (.node k v l .null r) := by
  show shapeNode k l .null r
  unfold shapeNode
  rw [if_pos hk]
  exact ⟨hl, hr, rfl⟩

theorem shapeAt_unary {k : Kind} {v : Int} {m : AST}
    (hk : isPre k = true ∨ isPost k = true ∨ k = .LPAR) (hm : m ≠ .null) :
    shapeAt (.node k v .null m .null) := by
  have hnb : ¬ (condASSIGN k = true ∨ condADD k = true ∨ condMUL k = true) := by
    revert hk; cases k <;> decide
  show shapeNode k .null m .null
  unfold shapeNode
  rw [if_neg hnb, if_pos hk]
  exact ⟨hm, rfl, rfl⟩

theorem shapeAt_leaf {k : Kind} {v : Int} (hk : k = .IDENTIFIER ∨ k = .CONSTANT) :
    shapeAt (.node k v .null .null .null) := by
  have hnb : ¬ (condASSIGN k = true ∨ condADD k = true ∨ condMUL k = true) := by
    revert hk; cases k <;> decide
  have hnu : ¬ (isPre k = true ∨ isPost k = true ∨ k = .LPAR) := by
    revert hk; cases k <;> decide
  show shapeNode k .null .null .null
  unfold shapeNode
  rw [if_neg hnb, if_neg hnu, if_pos hk]
  exact ⟨rfl, rfl, rfl⟩

/-- Every node of a tree `parse` returns has exactly the children its kind
uses. -/
theorem Parses.shape {arr : List Token} {l r : Int} {S : GrammarState} {t : AST}
    (h : Parses arr l r S t) : ∀ n ∈ t.subtrees, shapeAt n := by
  induction h with
  | stmtEmpty => exact forall_subtrees_null
  | stmt _ _ _ _ ih => exact ih
  | expr _ _ ih => exact ih
  | assign hle hn hl hr ihl ihr =>
    rw [forall_subtrees_node]
    exact ⟨shapeAt_binary (Or.inl (findNextSection_fwd hle rfl hn).1)
      (rootAllowed_ne_null (hl.rootAllowed (by decide)))
      (rootAllowed_ne_null (hr.rootAllowed (by decide))), ihl, forall_subtrees_null, ihr⟩
  | assignNone _ _ _ ih => exact ih
  | add hle hn hl hr ihl ihr =>
    rw [forall_subtrees_node]
    exact ⟨shapeAt_binary (Or.inr (Or.inl (findNextSection_bwd hle rfl hn).1))
      (rootAllowed_ne_null (hl.rootAllowed (by decide)))
      (rootAllowed_ne_null (hr.rootAllowed (by decide))), ihl, forall_subtrees_null, ihr⟩
  | addNone _ _ _ ih => exact ih
  | mul hle hn hl hr ihl ihr =>
    rw [forall_subtrees_node]
    exact ⟨shapeAt_binary (Or.inr (Or.inr (findNextSection_bwd hle rfl hn).1))
      (rootAllowed_ne_null (hl.rootAllowed (by decide)))
      (rootAllowed_ne_null (hr.rootAllowed (by decide))), ihl, forall_subtrees_null, ihr⟩
  | mulNone _ _ _ ih => exact ih
  | unary _ hk hm ih =>
    rw [forall_subtrees_node]
    exact ⟨shapeAt_unary (Or.inl ((isPre_iff _).2 hk))
      (rootAllowed_ne_null (hm.rootAllowed (by decide))),
      forall_subtrees_null, ih, forall_subtrees_null⟩
  | unaryNone _ _ _ ih => exact ih
  | post _ hk hm ih =>
    rw [forall_subtrees_node]
    exact ⟨shapeAt_unary (Or.inr (Or.inl (postKind_of _ hk).1))
      (rootAllowed_ne_null (hm.rootAllowed (by decide))),
      forall_subtrees_null, ih, forall_subtrees_null⟩
  | postNone _ _ _ ih => exact ih
  | paren _ _ hm ih =>
    rw [forall_subtrees_node]
    exact ⟨shapeAt_unary (Or.inr (Or.inr rfl))
      (rootAllowed_ne_null (hm.rootAllowed (by decide))),
      forall_subtrees_null, ih, forall_subtrees_null⟩
  | leaf _ _ _ hk =>
    unfold new_AST
    rw [forall_subtrees_node]
    exact ⟨shapeAt_leaf hk, forall_subtrees_null, forall_subtrees_null,
      forall_subtrees_null⟩

/-- C17: every node of an AST `parse` returns (so of an AST `parser` returns)
has exactly the children its kind uses and no others.  Consequently the
children `codegen` descends into are present, and `semantic_check` never
reads through an absent child: it returns or reports one of its two errors. -/
theorem parse_children_exact (fuel : Nat) (arr : List Token) (l r : Int) (S : GrammarState)
    (t : AST) (h : parse fuel arr l r S = some (.ok t)) :
    (∀ n ∈ t.subtrees, shapeAt n)
    ∧ childrenPresent t
    ∧ semantic_check t ≠ .ub
    ∧ checkOutcome (semantic_check t) := by
  have hP := parse_sound arr fuel l r S t h
  have hc := (semantic_check_spec t hP.childrenPresent).1
  refine ⟨hP.shape, hP.childrenPresent, ?_, hc⟩
  intro hub
  rcases hc with h1 | h1 | h1 <;> rw [h1] at hub <;> cases hub

/-- C17, at the AST of `x=-(y)++;`. -/
theorem parse_children_exact_witness :
    parseLine "x=-(y)++;"
      = some (.ok (.node .ASSIGN 0 (new_AST .IDENTIFIER 120) .null
          (.node .MINUS 0 .null
            (.node .POSTINC 0 .null
              (.node .LPAR 0 .null (new_AST .IDENTIFIER 121) .null) .null) .null)))
    ∧ ∀ n ∈ (AST.node .ASSIGN 0 (new_AST .IDENTIFIER 120) .null
          (.node .MINUS 0 .null
            (.node .POSTINC 0 .null
              (.node .LPAR 0 .null (new_AST .IDENTIFIER 121) .null) .null) .null)).subtrees,
        shapeAt n :=
  ⟨by decide,
   (parse_children_exact (parseFuel 8)
    (disambiguate [⟨.IDENTIFIER, 120⟩, ⟨.ASSIGN, 0⟩, ⟨.MINUS, 0⟩, ⟨.LPAR, 0⟩,
      ⟨.IDENTIFIER, 121⟩, ⟨.RPAR, 0⟩, ⟨.PREINC, 0⟩, ⟨.END, 0⟩]) 0 7 .STMT _ (by decide)).1⟩

/-! ## C12: `codegen` does not depend on earlier statements -/

theorem Res.bind_ne_err {α β : Type} {x : Res α} {f : α → Res β}
    (hx : ∀ m, x ≠ .err m) (hf : ∀ a m, f a ≠ .err m) : ∀ m, x.bind f ≠ .err m := by
  intro m
  cases x with
  | ok a => exact hf a m
  | err m2 => exact absurd rfl (hx m2)
  | ub => simp [Res.bind]

theorem readTable_ne_err {α : Type} (o : Option α) : ∀ m, readTable o ≠ .err m := by
  intro m; cases o <;> simp [readTable]

/-- `codegen` never calls `err`. -/
theorem codegen_ne_err : ∀ (t : AST) (s : CG) (m : String), codegen t s ≠ .err m := by
  intro t
  induction t with
  | null => intro s m; simp [codegen]
  | node k v l mid r ihl ihm ihr =>
    intro s m
    cases k
    case ASSIGN =>
      simp only [codegen]
      exact Res.bind_ne_err (ihr _) (fun _ => Res.bind_ne_err (ihl _) (by simp)) m
    case ADD | SUB | MUL | DIV | REM =>
      simp only [codegen]
      exact Res.bind_ne_err (ihl _) (fun _ => Res.bind_ne_err (ihr _)
        (fun _ => Res.bind_ne_err (readTable_ne_err _) (by simp))) m
    case POSTINC | POSTDEC | PREINC | PREDEC =>
      simp only [codegen]
      exact Res.bind_ne_err (ihm _) (fun _ => Res.bind_ne_err (readTable_ne_err _)
        (fun _ => Res.bind_ne_err (readTable_ne_err _)
          (fun _ => Res.bind_ne_err (readTable_ne_err _) (by simp)))) m
    case PLUS | MINUS =>
      simp only [codegen]
      exact Res.bind_ne_err (ihm _) (fun _ => Res.bind_ne_err (readTable_ne_err _)
        (by simp)) m
    case LPAR => simp only [codegen]; exact ihm _ m
    case IDENTIFIER =>
      simp only [codegen]
      exact Res.bind_ne_err (readTable_ne_err _) (fun _ => Res.bind_ne_err
        (readTable_ne_err _) (fun _ _ => by split <;> simp)) m
    case CONSTANT | RPAR | END => simp [codegen]

/-- What `semantic_check` has verified when it accepts a node. -/
theorem semantic_check_node {k : Kind} {v : Int} {l m r : AST}
    (h : semantic_check (.node k v l m r) = .ok ()) :
    semantic_check l = .ok () ∧ semantic_check m = .ok () ∧ semantic_check r = .ok ()
    ∧ (k = .ASSIGN → unwrapKind l = .ok .IDENTIFIER)
    ∧ (isIncDec k = true → unwrapKind m = .ok .IDENTIFIER) := by
  have hinc := semantic_check_incdec _ h k v l m r (by simp [AST.subtrees])
  rw [semantic_check] at h
  simp only [Res.bind_eq_ok] at h
  obtain ⟨_, h1, _, _, _, hl, _, hr, hm⟩ := h
  refine ⟨hl, hm, hr, fun hk => ?_, hinc⟩
  rw [if_pos hk] at h1
  simp only [Res.bind_eq_ok] at h1
  obtain ⟨k2, hu, h3⟩ := h1
  by_cases hk2 : k2 = .IDENTIFIER
  · rw [hu, hk2]
  · rw [if_pos hk2] at h3
    cases h3

/-- The code of an identifier leaf, when its slot exists and the mode is load
or store. -/
theorem codegen_ident_ok (x a : Int) (s : CG) (ha : memAd (x - 120) = some a)
    (hm : s.memJudge = 0 ∨ s.memJudge = 1) :
    codegen (new_AST .IDENTIFIER x) s
      = .ok (⟨s.regIdx, s.memJudge, x⟩, [memAccess s.memJudge s.regIdx a]) := by
  rcases hm with hm | hm
  · simp [codegen, new_AST, MemOP, readTable, Res.bind, ha, hm, memAccess]
  · simp [codegen, new_AST, MemOP, readTable, Res.bind, ha, hm, memAccess]

/-- On a checked tree, a run of `codegen` that returns from one state of the
statics returns, with the same instructions, from every state that has the
same register index and mode. -/
theorem codegen_val_indep : ∀ t : AST, semantic_check t = .ok () →
    ∀ (s s' s2 : CG) (out : List Instr), s'.regIdx = s.regIdx → s'.memJudge = s.memJudge →
      codegen t s = .ok (s2, out) → ∃ s2', codegen t s' = .ok (s2', out) := by
  intro t
  induction t with
  | null =>
    intro _ s s' s2 out _ _ h
    simp only [codegen, Res.ok.injEq, Prod.mk.injEq] at h
    exact ⟨s', by simp [codegen, h.2]⟩
  | node k v l m r ihl ihm ihr =>
    intro hc s s' s2 out hr hj h
    obtain ⟨hcl, hcm, hcr, hasg, hinc⟩ := semantic_check_node hc
    have incdec : isIncDec k = true →
        ∃ x a, memAd (x - 120) = some a ∧ (s.memJudge = 0 ∨ s.memJudge = 1) ∧
          (∀ p, codegen m s = .ok p → p = (⟨s.regIdx, s.memJudge, x⟩,
            [memAccess s.memJudge s.regIdx a])) ∧
          (codegen m s' = .ok (⟨s.regIdx, s.memJudge, x⟩,
            [memAccess s.memJudge s.regIdx a])) ∧
          ∃ p, codegen m s = .ok p := by
      intro hk
      obtain ⟨x, _, hcg⟩ := codegen_unwrapped m (hinc hk)
      have hex : ∃ p, codegen m s = .ok p := by
        cases hk2 : codegen m s with
        | ok p => exact ⟨p, rfl⟩
        | err e => exact absurd hk2 (codegen_ne_err _ _ _)
        | ub =>
          exfalso
          revert h hk
          cases k <;> simp [codegen, hk2, Res.bind, isIncDec]
      obtain ⟨p, hp⟩ := hex
      have hp2 := hp
      rw [hcg s] at hp2
      obtain ⟨a, ha, hmj, h1, h2⟩ := codegen_ident x s p.1 p.2 hp2
      refine ⟨x, a, ha, hmj, ?_, ?_, p, hp⟩
      · intro q hq
        rw [hp] at hq
        cases hq
        exact Prod.ext h1 h2
      · rw [hcg s', codegen_ident_ok x a s' ha (by rw [hj]; exact hmj), hr, hj]
    cases k
    case ASSIGN =>
      simp only [codegen, Res.bind_eq_ok] at h ⊢
      obtain ⟨⟨s1, o1⟩, h1, ⟨s3, o2⟩, h2, h3⟩ := h
      obtain ⟨q1, g1⟩ := ihr hcr _ { s' with regIdx := s'.regIdx + 1 } _ _
        (by simp [hr]) (by simp [hj]) h1
      have e1 := codegen_preserves _ _ _ _ h1
      have f1 := codegen_preserves _ _ _ _ g1
      simp only at e1 f1 h2 h3
      obtain ⟨q2, g2⟩ := ihl hcl _
        { regIdx := q1.regIdx - 1, memJudge := q1.memJudge + 1, Val := q1.Val } _ _
        (by simp; omega) (by simp; omega) h2
      simp only [Res.ok.injEq, Prod.mk.injEq] at h3
      refine ⟨⟨q2.regIdx, q2.memJudge - 1, q2.Val⟩, (q1, o1), g1, (q2, o2), g2, ?_⟩
      simp only [Res.ok.injEq, Prod.mk.injEq, true_and]
      rw [← h3.2]
      have : q1.regIdx = s1.regIdx := by omega
      rw [this]
    case ADD | SUB | MUL | DIV | REM =>
      simp only [codegen, Res.bind_eq_ok] at h ⊢
      obtain ⟨⟨s1, o1⟩, h1, ⟨s3, o2⟩, h2, op, hop, h3⟩ := h
      obtain ⟨q1, g1⟩ := ihl hcl _ s' _ _ hr hj h1
      have e1 := codegen_preserves _ _ _ _ h1
      have f1 := codegen_preserves _ _ _ _ g1
      simp only at e1 f1 h2 h3
      obtain ⟨q2, g2⟩ := ihr hcr _ { q1 with regIdx := q1.regIdx + 1 } _ _
        (by simp; omega) (by simp; omega) h2
      have e2 := codegen_preserves _ _ _ _ h2
      have f2 := codegen_preserves _ _ _ _ g2
      simp only at e2 f2
      simp only [Res.ok.injEq, Prod.mk.injEq] at h3
      refine ⟨⟨q2.regIdx - 1, q2.memJudge, q2.Val⟩, (q1, o1), g1, (q2, o2), g2, op, hop, ?_⟩
      simp only [Res.ok.injEq, Prod.mk.injEq, true_and]
      rw [← h3.2]
      have : q2.regIdx = s3.regIdx := by omega
      rw [this]
    case POSTINC | POSTDEC | PREINC | PREDEC =>
      obtain ⟨x, a, ha, hmj, huniq, hs', p, hp⟩ := incdec (by decide)
      have hp2 := huniq p hp
      subst hp2
      simp only [codegen, hp, hs', Res.bind] at h ⊢
      exact ⟨_, h⟩
    case PLUS | MINUS =>
      simp only [codegen, Res.bind_eq_ok] at h ⊢
      obtain ⟨⟨s1, o1⟩, h1, op, hop, h3⟩ := h
      obtain ⟨q1, g1⟩ := ihm hcm _ s' _ _ hr hj h1
      have e1 := codegen_preserves _ _ _ _ h1
      have f1 := codegen_preserves _ _ _ _ g1
      simp only at e1 f1 h3
      simp only [Res.ok.injEq, Prod.mk.injEq] at h3
      refine ⟨q1, (q1, o1), g1, op, hop, ?_⟩
      simp only [Res.ok.injEq, Prod.mk.injEq, true_and]
      rw [← h3.2]
      have : q1.regIdx = s1.regIdx := by omega
      rw [this]
    case LPAR =>
      simp only [codegen] at h ⊢
      exact ihm hcm _ _ _ _ hr hj h
    case IDENTIFIER =>
      simp only [codegen, Res.bind_eq_ok, hr, hj] at h ⊢
      obtain ⟨mop, hmop, ad, had, h3⟩ := h
      refine ⟨⟨s.regIdx, s.memJudge, v⟩, mop, hmop, ad, had, ?_⟩
      by_cases h1 : s.memJudge = 1
      · rw [if_pos h1] at h3 ⊢
        simp only [Res.ok.injEq, Prod.mk.injEq] at h3
        rw [← h3.2]
      · rw [if_neg h1] at h3 ⊢
        simp only [Res.ok.injEq, Prod.mk.injEq] at h3
        rw [← h3.2]
    case CONSTANT =>
      simp only [codegen, Res.ok.injEq, Prod.mk.injEq, hr] at h ⊢
      exact ⟨_, rfl, h.2⟩
    case RPAR | END =>
      simp only [codegen, Res.ok.injEq, Prod.mk.injEq] at h ⊢
      exact ⟨_, rfl, h.2⟩

theorem identsOK_node {k : Kind} {v : Int} {l m r : AST}
    (h : identsOK (.node k v l m r)) :
    (k = .IDENTIFIER → (v = 120 ∨ v = 121 ∨ v = 122)) ∧ identsOK l ∧ identsOK m ∧ identsOK r := by
  unfold identsOK at h
  rw [forall_subtrees_node] at h
  exact h

/-- The identifier an operand unwraps to is one of the variables when all
identifiers of the operand are. -/
theorem identVal_valid : ∀ t : AST, identsOK t → ∀ x, identVal t = some x →
    x = 120 ∨ x = 121 ∨ x = 122 := by
  intro t
  induction t with
  | null => intro _ x h; simp [identVal, stripParens] at h
  | node k v l m r _ ihm _ =>
    intro hok x h
    obtain ⟨h0, _, hm, _⟩ := identsOK_node hok
    by_cases hk : k = .LPAR
    · apply ihm hm x
      unfold identVal stripParens at h
      rw [if_pos hk] at h
      exact h
    · unfold identVal stripParens at h
      rw [if_neg hk] at h
      by_cases hi : k = .IDENTIFIER
      · subst hi
        simp only [Option.some.injEq] at h
        rw [← h]
        exact h0 rfl
      · exfalso
        revert h hi hk
        cases k <;> simp

theorem memAd_valid {x : Int} (h : x = 120 ∨ x = 121 ∨ x = 122) :
    ∃ a, memAd (x - 120) = some a := by
  rcases h with rfl | rfl | rfl
  · exact ⟨0, by decide⟩
  · exact ⟨4, by decide⟩
  · exact ⟨8, by decide⟩

/-- On a checked tree whose identifiers are `x`, `y`, `z`, `codegen` started
in load mode returns: no table is read outside its bounds. -/
theorem codegen_returns : ∀ t : AST, semantic_check t = .ok () → identsOK t →
    ∀ s : CG, s.memJudge = 0 → ∃ p, codegen t s = .ok p := by
  intro t
  induction t with
  | null => intro _ _ s _; exact ⟨_, rfl⟩
  | node k v l m r ihl ihm ihr =>
    intro hc hok s hs
    obtain ⟨hcl, hcm, hcr, hasg, hinc⟩ := semantic_check_node hc
    obtain ⟨h0, hokl, hokm, hokr⟩ := identsOK_node hok
    have incdec : isIncDec k = true → ∃ x a, memAd (x - 120) = some a ∧
        codegen m s = .ok (⟨s.regIdx, s.memJudge, x⟩, [memAccess s.memJudge s.regIdx a]) := by
      intro hk
      obtain ⟨x, hx, hcg⟩ := codegen_unwrapped m (hinc hk)
      obtain ⟨a, ha⟩ := memAd_valid (identVal_valid m hokm x hx)
      exact ⟨x, a, ha, by rw [hcg, codegen_ident_ok x a s ha (Or.inl hs)]⟩
    have hst : MemOP 1 = some Op.store := by decide
    cases k
    case ASSIGN =>
      obtain ⟨⟨s1, o1⟩, h1⟩ := ihr hcr hokr { s with regIdx := s.regIdx + 1 } hs
      have e1 := codegen_preserves _ _ _ _ h1
      simp only at e1
      obtain ⟨x, hx, hcg⟩ := codegen_unwrapped l (hasg rfl)
      obtain ⟨a, ha⟩ := memAd_valid (identVal_valid l hokl x hx)
      simp only [codegen, h1, Res.bind]
      rw [hcg, codegen_ident_ok x a _ ha (Or.inr (by simp; omega))]
      exact ⟨_, rfl⟩
    case ADD | SUB | MUL | DIV | REM =>
      obtain ⟨⟨s1, o1⟩, h1⟩ := ihl hcl hokl s hs
      have e1 := codegen_preserves _ _ _ _ h1
      simp only at e1
      obtain ⟨⟨s3, o2⟩, h2⟩ := ihr hcr hokr { s1 with regIdx := s1.regIdx + 1 }
        (by simp; omega)
      simp only [codegen, h1, h2, Res.bind, ArithOP, Kind.toInt, readTable]
      exact ⟨_, rfl⟩
    case POSTINC | POSTDEC | PREINC | PREDEC =>
      obtain ⟨x, a, ha, h1⟩ := incdec (by decide)
      simp only [codegen, h1, Res.bind, ArithOP, Kind.toInt, readTable, hst, ha]
      exact ⟨_, rfl⟩
    case PLUS | MINUS =>
      obtain ⟨⟨s1, o1⟩, h1⟩ := ihm hcm hokm s hs
      simp only [codegen, h1, Res.bind, ArithOP, Kind.toInt, readTable]
      exact ⟨_, rfl⟩
    case LPAR =>
      simp only [codegen]
      exact ihm hcm hokm s hs
    case IDENTIFIER =>
      obtain ⟨a, ha⟩ := memAd_valid (h0 rfl)
      have e : codegen (.node .IDENTIFIER v l m r) s = codegen (new_AST .IDENTIFIER v) s := by
        simp only [codegen, new_AST]
      rw [e, codegen_ident_ok v a s ha (Or.inl hs)]
      exact ⟨_, rfl⟩
    case CONSTANT | RPAR | END => exact ⟨_, rfl⟩

/-- On a checked tree the instructions `codegen` prints do not depend on the
last-loaded identifier it starts with. -/
theorem printedOf_val_indep (t : AST) (hc : semantic_check t = .ok ()) (n mj v v2 : Int) :
    printedOf (codegen t ⟨n, mj, v⟩) = printedOf (codegen t ⟨n, mj, v2⟩) := by
  have key : ∀ a b : Int, ∀ s2 out, codegen t ⟨n, mj, a⟩ = .ok (s2, out) →
      printedOf (codegen t ⟨n, mj, a⟩) = printedOf (codegen t ⟨n, mj, b⟩) := by
    intro a b s2 out h
    obtain ⟨q, hq⟩ := codegen_val_indep t hc ⟨n, mj, a⟩ ⟨n, mj, b⟩ s2 out rfl rfl h
    rw [h, hq]
    rfl
  cases h1 : codegen t ⟨n, mj, v⟩ with
  | ok p => rw [← h1]; exact key v v2 p.1 p.2 h1
  | err e => exact absurd h1 (codegen_ne_err _ _ _)
  | ub =>
    cases h2 : codegen t ⟨n, mj, v2⟩ with
    | ok p =>
      have := key v2 v p.1 p.2 h2
      rw [h1, h2] at this
      exact this.symm
    | err e => exact absurd h2 (codegen_ne_err _ _ _)
    | ub => rfl

/-- C12: code generation for a statement does not depend on the statements
compiled before it.  For every AST that passes `semantic_check`: `codegen`
returns with `regIdx` and `memJudge` as on entry; the instructions it emits
(and whether it returns) are the same for every initial value of `Val`; and
when the identifiers are `x`, `y`, `z` it does return in load mode.  In
particular `x=1;` stores to slot `[0]` whatever identifier was loaded last. -/
theorem codegen_independent (t : AST) (hc : semantic_check t = .ok ()) :
    (∀ s s2 out, codegen t s = .ok (s2, out) →
      s2.regIdx = s.regIdx ∧ s2.memJudge = s.memJudge)
    ∧ (∀ n mj v v2, printedOf (codegen t ⟨n, mj, v⟩) = printedOf (codegen t ⟨n, mj, v2⟩))
    ∧ (identsOK t → ∀ n v, ∃ s2 out, codegen t ⟨n, 0, v⟩ = .ok (s2, out))
    ∧ (∀ v, compileLine "x=1;" ⟨0, 0, v⟩ = some (.ok (⟨0, 0, 120⟩,
        [⟨.add, [.reg 1, .imm 0, .imm 1]⟩, ⟨.add, [.reg 0, .imm 0, .reg 1]⟩,
         ⟨.store, [.mem 0, .reg 0]⟩]))) := by
  refine ⟨fun s s2 out h => codegen_preserves t s s2 out h,
    fun n mj v v2 => printedOf_val_indep t hc n mj v v2, fun hok n v => ?_, fun v => ?_⟩
  · obtain ⟨p, hp⟩ := codegen_returns t hc hok ⟨n, 0, v⟩ rfl
    exact ⟨p.1, p.2, hp⟩
  · have h1 : lexer "x=1;".toList
        = .ok [⟨.IDENTIFIER, 120⟩, ⟨.ASSIGN, 0⟩, ⟨.CONSTANT, 1⟩, ⟨.END, 0⟩] := by decide
    have h2 : parser [⟨.IDENTIFIER, 120⟩, ⟨.ASSIGN, 0⟩, ⟨.CONSTANT, 1⟩, ⟨.END, 0⟩]
        = some (.ok (.node .ASSIGN 0 (new_AST .IDENTIFIER 120) .null
            (new_AST .CONSTANT 1))) := by decide
    have h3 : semantic_check (.node .ASSIGN 0 (new_AST .IDENTIFIER 120) .null
        (new_AST .CONSTANT 1)) = .ok () := by decide
    simp only [compileLine, h1, h2, h3]
    simp [Res.bind, codegen, new_AST, MemOP, memAd, readTable]

/-- C12, at the AST of `y=x++;`, started with `z` and with `y` as the
last-loaded identifier. -/
theorem codegen_independent_witness :
    printedOf (codegen (.node .ASSIGN 0 (new_AST .IDENTIFIER 121) .null
        (.node .POSTINC 0 .null (new_AST .IDENTIFIER 120) .null)) ⟨0, 0, 122⟩)
      = printedOf (codegen (.node .ASSIGN 0 (new_AST .IDENTIFIER 121) .null
        (.node .POSTINC 0 .null (new_AST .IDENTIFIER 120) .null)) ⟨0, 0, 121⟩) :=
  (codegen_independent (.node .ASSIGN 0 (new_AST .IDENTIFIER 121) .null
        (.node .POSTINC 0 .null (new_AST .IDENTIFIER 120) .null)) (by decide)).2.1 0 0 122 121

/-! ## C19: only `x`, `y`, `z` are identifiers -/

theorem cString_nul {c : Char} (rest : List Char) (h : c.toNat = 0) :
    cString (c :: rest) = [] := by
  simp [cString, h]

theorem cString_cons {c : Char} (rest : List Char) (h : c.toNat ≠ 0) :
    cString (c :: rest) = c :: cString rest := by
  simp [cString, h]

theorem isdigit_ne_nul {c : Char} (h : isdigit c = true) : c.toNat ≠ 0 := by
  simp only [isdigit, Bool.and_eq_true, decide_eq_true_eq] at h
  omega

/-- The C string of a buffer, split after its leading digits. -/
theorem cString_digits : ∀ rest : List Char,
    cString rest = rest.takeWhile isdigit ++ cString (rest.dropWhile isdigit) := by
  intro rest
  induction rest with
  | nil => rfl
  | cons r rs ih =>
    by_cases hd : isdigit r = true
    · rw [cString_cons rs (isdigit_ne_nul hd), List.takeWhile_cons_of_pos hd,
        List.dropWhile_cons_of_pos hd, ih]
      rfl
    · rw [List.takeWhile_cons_of_neg hd, List.dropWhile_cons_of_neg hd]
      rfl

theorem lexSymbol_ok {c : Char} {nxt : Option Char} {tn : Token × Nat}
    (h : lexSymbol c nxt = .ok tn) :
    lexable c ∧ tn.1.kind ≠ .IDENTIFIER ∧ tn.1.kind ≠ .ADD ∧ tn.1.kind ≠ .SUB ∧
      (tn.2 = 0 ∨ (tn.2 = 1 ∧ ∃ d, nxt = some d ∧ d.toNat ≠ 0 ∧ lexable d)) := by
  unfold lexSymbol at h
  unfold lexable
  split_ifs at h with h1 h2 h3 h4 h5 h6 h7 h8 h9 h10 h11 <;>
    simp only [Res.ok.injEq] at h <;> subst h <;>
    simp_all

theorem not_lexable_of_otherLetter {c : Char} (h : isOtherLetter c) : ¬ lexable c := by
  obtain ⟨ha, hx, hy, hz⟩ := h
  have hn : (65 ≤ c.toNat ∧ c.toNat ≤ 90) ∨ (97 ≤ c.toNat ∧ c.toNat ≤ 122) := by
    simp only [Char.isAlpha, Char.isUpper, Char.isLower, Bool.or_eq_true, Bool.and_eq_true,
      decide_eq_true_eq] at ha
    rcases ha with ⟨a, b⟩ | ⟨a, b⟩
    · left; exact ⟨a, b⟩
    · right; exact ⟨a, b⟩
  intro hl
  rcases hl with h | h | ⟨h1, h2⟩ | h | h | h | h | h | h | h | h | h
  · simp only [isspace, Bool.or_eq_true, Bool.and_eq_true, decide_eq_true_eq] at h
    omega
  · simp only [isdigit, Bool.and_eq_true, decide_eq_true_eq] at h
    omega
  · have a : (120 : Nat) ≤ c.toNat := h1
    have b : c.toNat ≤ 122 := h2
    have hc : c.toNat = 120 ∨ c.toNat = 121 ∨ c.toNat = 122 := by omega
    rcases hc with e | e | e
    · exact hx (Char.ext (UInt32.ext e))
    · exact hy (Char.ext (UInt32.ext e))
    · exact hz (Char.ext (UInt32.ext e))
  all_goals (subst h; revert hn; decide)

/-- What an accepted buffer looks like: `lexer` has a branch for each
character of its C string, every Identifier token carries the code of `x`,
`y` or `z`, and no token has kind `ADD` or `SUB`. -/
theorem lexLoop_ok : ∀ (fuel : Nat) (chars : List Char) (toks : List Token),
    chars.length ≤ fuel → lexLoop fuel chars = .ok toks →
      (∀ c ∈ cString chars, lexable c)
      ∧ (∀ t ∈ toks, t.kind = .IDENTIFIER → isVarCode t.val)
      ∧ (∀ t ∈ toks, t.kind ≠ .ADD ∧ t.kind ≠ .SUB) := by
  intro fuel
  induction fuel with
  | zero =>
    intro chars toks hlen h
    cases chars with
    | nil =>
      simp only [lexLoop, Res.ok.injEq] at h
      subst h
      exact ⟨by simp [cString], by simp, by simp⟩
    | cons c rest => simp at hlen
  | succ n ih =>
    intro chars toks hlen h
    cases chars with
    | nil =>
      simp only [lexLoop, Res.ok.injEq] at h
      subst h
      exact ⟨by simp [cString], by simp, by simp⟩
    | cons c rest =>
      simp only [List.length_cons, Nat.add_le_add_iff_right] at hlen
      rw [lexLoop] at h
      by_cases h0 : c.toNat = 0
      · rw [if_pos h0] at h
        simp only [Res.ok.injEq] at h
        subst h
        rw [cString_nul rest h0]
        exact ⟨by simp, by simp, by simp⟩
      rw [if_neg h0] at h
      rw [cString_cons rest h0]
      by_cases hs : isspace c = true
      · rw [if_pos hs] at h
        obtain ⟨a, b, e⟩ := ih rest toks hlen h
        refine ⟨fun d hd => ?_, b, e⟩
        rcases List.mem_cons.1 hd with rfl | hd
        · exact Or.inl hs
        · exact a d hd
      · rw [if_neg hs] at h
        by_cases hd : isdigit c = true
        · rw [if_pos hd] at h
          simp only at h
          split at h
          · cases h
          · simp only [Res.bind_eq_ok] at h
            obtain ⟨ts, h1, h2⟩ := h
            simp only [Res.ok.injEq] at h2
            subst h2
            have hl2 : (rest.dropWhile isdigit).length ≤ n :=
              le_trans (List.dropWhile_sublist _).length_le hlen
            obtain ⟨a, b, e⟩ := ih _ ts hl2 h1
            refine ⟨?_, ?_, ?_⟩
            · intro d hd2
              rcases List.mem_cons.1 hd2 with rfl | hd2
              · exact Or.inr (Or.inl hd)
              · rw [cString_digits rest] at hd2
                rcases List.mem_append.1 hd2 with h3 | h3
                · exact Or.inr (Or.inl (List.mem_takeWhile_imp h3))
                · exact a d h3
            · intro t ht hk
              rcases List.mem_cons.1 ht with rfl | ht
              · cases hk
              · exact b t ht hk
            · intro t ht
              rcases List.mem_cons.1 ht with rfl | ht
              · exact ⟨by simp, by simp⟩
              · exact e t ht
        · rw [if_neg hd] at h
          by_cases hv : 'x' ≤ c ∧ c ≤ 'z'
          · rw [if_pos hv] at h
            simp only [Res.bind_eq_ok] at h
            obtain ⟨ts, h1, h2⟩ := h
            simp only [Res.ok.injEq] at h2
            subst h2
            obtain ⟨a, b, e⟩ := ih rest ts hlen h1
            refine ⟨?_, ?_, ?_⟩
            · intro d hd2
              rcases List.mem_cons.1 hd2 with rfl | hd2
              · exact Or.inr (Or.inr (Or.inl hv))
              · exact a d hd2
            · intro t ht hk
              rcases List.mem_cons.1 ht with rfl | ht
              · have a1 : (120 : Nat) ≤ c.toNat := hv.1
                have a2 : c.toNat ≤ 122 := hv.2
                show (c.toNat : Int) = 120 ∨ (c.toNat : Int) = 121 ∨ (c.toNat : Int) = 122
                omega
              · exact b t ht hk
            · intro t ht
              rcases List.mem_cons.1 ht with rfl | ht
              · exact ⟨by simp, by simp⟩
              · exact e t ht
          · rw [if_neg hv] at h
            simp only [Res.bind_eq_ok] at h
            obtain ⟨tn, h0', ts, h1, h2⟩ := h
            simp only [Res.ok.injEq] at h2
            subst h2
            obtain ⟨hc, hk0, hkA, hkS, hdrop⟩ := lexSymbol_ok h0'
            have hl2 : (rest.drop tn.2).length ≤ n := by
              rw [List.length_drop]; omega
            obtain ⟨a, b, e⟩ := ih _ ts hl2 h1
            refine ⟨?_, ?_, ?_⟩
            · intro d hd2
              rcases List.mem_cons.1 hd2 with rfl | hd2
              · exact hc
              · rcases hdrop with hz | ⟨h1', e2, he, hne, hle⟩
                · rw [hz] at a
                  exact a d hd2
                · cases rest with
                  | nil => simp [cString] at hd2
                  | cons r0 rest' =>
                    simp only [List.head?_cons, Option.some.injEq] at he
                    subst he
                    rw [h1'] at a
                    rw [cString_cons rest' hne] at hd2
                    rcases List.mem_cons.1 hd2 with rfl | hd3
                    · exact hle
                    · exact a d hd3
            · intro t ht hk
              rcases List.mem_cons.1 ht with rfl | ht
              · exact absurd hk hk0
              · exact b t ht hk
            · intro t ht
              rcases List.mem_cons.1 ht with rfl | ht
              · exact ⟨hkA, hkS⟩
              · exact e t ht

theorem lexSymbol_err (c : Char) (nxt : Option Char) (m : String)
    (h : lexSymbol c nxt = .err m) : m = "Unexpected character." := by
  unfold lexSymbol at h
  split_ifs at h
  exact (Res.err.inj h).symm

theorem lexSymbol_ne_ub (c : Char) (nxt : Option Char) : lexSymbol c nxt ≠ .ub := by
  intro h
  unfold lexSymbol at h
  split_ifs at h

/-- The outcomes of `lexer`: a token array, its error, or undefined behaviour
(`atoi` on a number that does not fit an `int`). -/
theorem lexLoop_outcome : ∀ (fuel : Nat) (chars : List Char),
    (∃ toks, lexLoop fuel chars = .ok toks) ∨ lexLoop fuel chars = .err "Unexpected character."
      ∨ lexLoop fuel chars = .ub := by
  intro fuel
  induction fuel with
  | zero => intro chars; cases chars <;> exact Or.inl ⟨_, rfl⟩
  | succ n ih =>
    intro chars
    cases chars with
    | nil => exact Or.inl ⟨_, rfl⟩
    | cons c rest =>
      have bindCase : ∀ (x : Res (List Token)) (f : List Token → List Token),
          ((∃ toks, x = .ok toks) ∨ x = .err "Unexpected character." ∨ x = .ub) →
          ((∃ toks, (x.bind fun ts => .ok (f ts)) = .ok toks)
            ∨ (x.bind fun ts => .ok (f ts)) = .err "Unexpected character."
            ∨ (x.bind fun ts => .ok (f ts)) = .ub) := by
        intro x f hx
        rcases hx with ⟨toks, rfl⟩ | rfl | rfl
        · exact Or.inl ⟨_, rfl⟩
        · exact Or.inr (Or.inl rfl)
        · exact Or.inr (Or.inr rfl)
      rw [lexLoop]
      by_cases h0 : c.toNat = 0
      · rw [if_pos h0]; exact Or.inl ⟨_, rfl⟩
      rw [if_neg h0]
      by_cases hs : isspace c = true
      · rw [if_pos hs]; exact ih _
      · rw [if_neg hs]
        by_cases hd : isdigit c = true
        · rw [if_pos hd]
          simp only
          split
          · exact Or.inr (Or.inr rfl)
          · exact bindCase _ _ (ih _)
        · rw [if_neg hd]
          by_cases hv : 'x' ≤ c ∧ c ≤ 'z'
          · rw [if_pos hv]; exact bindCase _ _ (ih _)
          · rw [if_neg hv]
            cases e : lexSymbol c rest.head? with
            | ok tn =>
              exact bindCase (lexLoop n (List.drop tn.2 rest)) (fun ts => tn.1 :: ts) (ih _)
            | err m =>
              rw [lexSymbol_err c _ m e]
              exact Or.inr (Or.inl rfl)
            | ub => exact absurd e (lexSymbol_ne_ub c _)

theorem digitsVal_nil (acc : Nat) : digitsVal acc [] = acc := rfl

theorem digitsVal_cons (acc : Nat) (c : Char) (cs : List Char) :
    digitsVal acc (c :: cs) = digitsVal (10 * acc + (c.toNat - 48)) cs := rfl

theorem digitsVal_lt : ∀ (ds : List Char) (acc : Nat), (∀ c ∈ ds, isdigit c = true) →
    digitsVal acc ds < (acc + 1) * 10 ^ ds.length := by
  intro ds
  induction ds with
  | nil =>
    intro acc _
    rw [digitsVal_nil, List.length_nil, pow_zero, mul_one]
    omega
  | cons c cs ih =>
    intro acc h
    have hc := h c (List.mem_cons_self _ _)
    simp only [isdigit, Bool.and_eq_true, decide_eq_true_eq] at hc
    have h2 := ih (10 * acc + (c.toNat - 48)) (fun d hd => h d (List.mem_cons_of_mem _ hd))
    rw [digitsVal_cons]
    calc digitsVal (10 * acc + (c.toNat - 48)) cs
        < (10 * acc + (c.toNat - 48) + 1) * 10 ^ cs.length := h2
      _ ≤ ((acc + 1) * 10) * 10 ^ cs.length := Nat.mul_le_mul_right _ (by omega)
      _ = (acc + 1) * 10 ^ (c :: cs).length := by
        rw [List.length_cons, pow_succ]; ring

theorem filter_cString_digits (rest : List Char) :
    (cString rest).filter isdigit
      = rest.takeWhile isdigit ++ (cString (rest.dropWhile isdigit)).filter isdigit := by
  have h1 : (rest.takeWhile isdigit).filter isdigit = rest.takeWhile isdigit :=
    List.filter_eq_self.2 (fun a ha => List.mem_takeWhile_imp ha)
  conv_lhs => rw [cString_digits rest]
  rw [List.filter_append, h1]

/-- A buffer whose C string has at most nine digits has no constant beyond
`int`: `lexer` returns or reports its error. -/
theorem lexLoop_ne_ub : ∀ (fuel : Nat) (chars : List Char),
    ((cString chars).filter isdigit).length ≤ 9 → lexLoop fuel chars ≠ .ub := by
  intro fuel
  induction fuel with
  | zero => intro chars _; cases chars <;> simp [lexLoop]
  | succ n ih =>
    intro chars hlen
    cases chars with
    | nil => simp [lexLoop]
    | cons c rest =>
      have bindCase : ∀ (x : Res (List Token)) (f : List Token → List Token),
          x ≠ .ub → (x.bind fun ts => .ok (f ts)) ≠ .ub := by
        intro x f hx
        cases x with
        | ok a => simp [Res.bind]
        | err m => simp [Res.bind]
        | ub => exact absurd rfl hx
      rw [lexLoop]
      by_cases h0 : c.toNat = 0
      · rw [if_pos h0]; simp
      rw [if_neg h0]
      rw [cString_cons rest h0] at hlen
      have hrest : ((cString rest).filter isdigit).length ≤ 9 :=
        le_trans ((List.sublist_cons_self c _).filter _).length_le hlen
      by_cases hs : isspace c = true
      · rw [if_pos hs]; exact ih _ hrest
      · rw [if_neg hs]
        by_cases hd : isdigit c = true
        · rw [if_pos hd]
          simp only
          rw [List.filter_cons_of_pos hd, List.length_cons, filter_cString_digits,
            List.length_append] at hlen
          have hv : ¬ digitsVal 0 (c :: rest.takeWhile isdigit) > 2147483647 := by
            have h1 := digitsVal_lt (c :: rest.takeWhile isdigit) 0 (by
              intro d hd2
              rcases List.mem_cons.1 hd2 with rfl | hd2
              · exact hd
              · exact List.mem_takeWhile_imp hd2)
            have h2 : (c :: rest.takeWhile isdigit).length ≤ 9 := by
              rw [List.length_cons]; omega
            have h3 : 10 ^ (c :: rest.takeWhile isdigit).length ≤ 10 ^ 9 :=
              Nat.pow_le_pow_right (by decide) h2
            omega
          rw [if_neg hv]
          exact bindCase _ _ (ih _ (by omega))
        · rw [if_neg hd]
          by_cases hv : 'x' ≤ c ∧ c ≤ 'z'
          · rw [if_pos hv]; exact bindCase _ _ (ih _ hrest)
          · rw [if_neg hv]
            cases e : lexSymbol c rest.head? with
            | ok tn =>
              obtain ⟨_, _, _, _, hdrop⟩ := lexSymbol_ok e
              refine bindCase (lexLoop n (List.drop tn.2 rest)) (fun ts => tn.1 :: ts)
                (ih _ ?_)
              rcases hdrop with hz | ⟨h1', d, he, hne, _⟩
              · rw [hz]; exact hrest
              · cases rest with
                | nil => simp [cString]
                | cons r0 rest' =>
                  simp only [List.head?_cons, Option.some.injEq] at he
                  subst he
                  rw [cString_cons rest' hne] at hrest
                  rw [h1']
                  exact le_trans ((List.sublist_cons_self _ _).filter _).length_le hrest
            | err m => simp [Res.bind]
            | ub => exact absurd e (lexSymbol_ne_ub c _)

/-- Identifier nodes of a tree `parse` returns carry the value of an
Identifier token of the array. -/
theorem Parses.identsOK {arr : List Token} {l r : Int} {S : GrammarState} {t : AST}
    (h : Parses arr l r S t)
    (harr : ∀ i, (tokAt arr i).kind = .IDENTIFIER → isVarCode (tokAt arr i).val) :
    identsOK t := by
  unfold Mini1.identsOK
  induction h with
  | stmtEmpty => exact forall_subtrees_null
  | stmt _ _ _ _ ih => exact ih
  | expr _ _ ih => exact ih
  | assign hle hn _ _ ihl ihr =>
    rw [forall_subtrees_node]
    refine ⟨fun hk => ?_, ihl, forall_subtrees_null, ihr⟩
    have := (findNextSection_fwd hle rfl hn).1
    rw [hk] at this
    exact absurd this (by decide)
  | assignNone _ _ _ ih => exact ih
  | add hle hn _ _ ihl ihr =>
    rw [forall_subtrees_node]
    refine ⟨fun hk => ?_, ihl, forall_subtrees_null, ihr⟩
    have := (findNextSection_bwd hle rfl hn).1
    rw [hk] at this
    exact absurd this (by decide)
  | addNone _ _ _ ih => exact ih
  | mul hle hn _ _ ihl ihr =>
    rw [forall_subtrees_node]
    refine ⟨fun hk => ?_, ihl, forall_subtrees_null, ihr⟩
    have := (findNextSection_bwd hle rfl hn).1
    rw [hk] at this
    exact absurd this (by decide)
  | mulNone _ _ _ ih => exact ih
  | unary _ hk _ ih =>
    rw [forall_subtrees_node]
    refine ⟨fun hk2 => ?_, forall_subtrees_null, ih, forall_subtrees_null⟩
    rw [hk2] at hk
    exact absurd hk (by decide)
  | unaryNone _ _ _ ih => exact ih
  | post _ hk _ ih =>
    rw [forall_subtrees_node]
    refine ⟨fun hk2 => ?_, forall_subtrees_null, ih, forall_subtrees_null⟩
    have := (postKind_of _ hk).1
    rw [hk2] at this
    exact absurd this (by decide)
  | postNone _ _ _ ih => exact ih
  | paren _ _ _ ih =>
    rw [forall_subtrees_node]
    exact ⟨fun hk => absurd hk (by decide), forall_subtrees_null, ih, forall_subtrees_null⟩
  | leaf _ _ _ _ =>
    unfold new_AST
    rw [forall_subtrees_node]
    exact ⟨fun hk => harr _ hk, forall_subtrees_null, forall_subtrees_null,
      forall_subtrees_null⟩

theorem tokAt_mem_or_outside (arr : List Token) (i : Int) :
    tokAt arr i = Token.outside ∨ tokAt arr i ∈ arr := by
  by_cases h : i < 0 ∨ (arr.length : Int) ≤ i
  · exact Or.inl (tokAt_outside arr i h)
  · right
    have h1 : i.toNat < arr.length := by omega
    have h2 : arr[i.toNat]? = some arr[i.toNat] := List.getElem?_eq_getElem h1
    have h3 := tokAt_of_getElem? h2
    rw [Int.toNat_of_nonneg (by omega)] at h3
    rw [h3]
    exact List.getElem_mem h1

theorem reclass_ident (t : Token) (p : Kind) (h : (reclass t p).kind = .IDENTIFIER) :
    reclass t p = t := by
  unfold reclass at h ⊢
  split
  · rename_i hc
    rw [if_pos hc] at h
    simp only at h
    split at h <;> cases h
  · rfl

/-- C1: the disambiguation pass of `parser` is a pure function of the token
and of the ORIGINAL kind of its left neighbour.  For every token array the
lexer delivers (the arrays `parser` is called with) and every index `i ≥ 1`
inside it: the token at `i` becomes the token `reclass` makes of it and of the
original kind at `i - 1`; it ends up `ADD` (resp. `SUB`) if and only if it was
`PLUS` (resp. `MINUS`) and the original kind of the token at `i - 1` is one of
`PREINC`, `PREDEC`, `IDENTIFIER`, `CONSTANT`, `RPAR`; every other token is
left unchanged, and so are the token at index 0, every token value and the
length of the array. -/
theorem disambiguate_lexed (line : List Char) (arr : List Token) (hlex : lexer line = .ok arr)
    (i : Int) (h1 : 1 ≤ i) (h2 : i < arr.length) :
    tokAt (disambiguate arr) i = reclass (tokAt arr i) (tokAt arr (i - 1)).kind
    ∧ ((tokAt (disambiguate arr) i).kind = .ADD ↔
        ((tokAt arr i).kind = .PLUS ∧ operandEnd (tokAt arr (i - 1)).kind))
    ∧ ((tokAt (disambiguate arr) i).kind = .SUB ↔
        ((tokAt arr i).kind = .MINUS ∧ operandEnd (tokAt arr (i - 1)).kind))
    ∧ (¬ (((tokAt arr i).kind = .PLUS ∨ (tokAt arr i).kind = .MINUS)
            ∧ operandEnd (tokAt arr (i - 1)).kind) →
        tokAt (disambiguate arr) i = tokAt arr i)
    ∧ tokAt (disambiguate arr) 0 = tokAt arr 0
    ∧ (∀ j, (tokAt (disambiguate arr) j).val = (tokAt arr j).val)
    ∧ (disambiguate arr).length = arr.length := by
  obtain ⟨hi, hadd, hsub, hrest, h0, hval, hlen⟩ := disambiguate_pure arr i h1 h2
  have hno : (tokAt arr i).kind ≠ .ADD ∧ (tokAt arr i).kind ≠ .SUB := by
    rcases tokAt_mem_or_outside arr i with ho | hm
    · rw [ho]; exact ⟨by decide, by decide⟩
    · exact (lexLoop_ok _ _ _ le_rfl hlex).2.2 _ hm
  refine ⟨hi, ?_, ?_, hrest, h0, hval, hlen⟩
  · rw [hadd]
    exact ⟨fun h => h.resolve_left hno.1, Or.inr⟩
  · rw [hsub]
    exact ⟨fun h => h.resolve_left hno.2, Or.inr⟩

/-- C1, at the line `x+-y;`: the `+` at index 1 follows an identifier and ends
up `ADD`; the `-` at index 2 follows what was a `PLUS` and stays `MINUS`,
although the `+` before it has been rewritten to `ADD` by then. -/
theorem disambiguate_lexed_witness :
    lexer "x+-y;".toList
      = .ok [⟨.IDENTIFIER, 120⟩, ⟨.PLUS, 0⟩, ⟨.MINUS, 0⟩, ⟨.IDENTIFIER, 121⟩, ⟨.END, 0⟩]
    ∧ disambiguate [⟨.IDENTIFIER, 120⟩, ⟨.PLUS, 0⟩, ⟨.MINUS, 0⟩, ⟨.IDENTIFIER, 121⟩, ⟨.END, 0⟩]
      = [⟨.IDENTIFIER, 120⟩, ⟨.ADD, 0⟩, ⟨.MINUS, 0⟩, ⟨.IDENTIFIER, 121⟩, ⟨.END, 0⟩]
    ∧ ((tokAt (disambiguate
          [⟨.IDENTIFIER, 120⟩, ⟨.PLUS, 0⟩, ⟨.MINUS, 0⟩, ⟨.IDENTIFIER, 121⟩, ⟨.END, 0⟩]) 2).kind
        = .SUB ↔
        ((tokAt [⟨.IDENTIFIER, 120⟩, ⟨.PLUS, 0⟩, ⟨.MINUS, 0⟩, ⟨.IDENTIFIER, 121⟩, ⟨.END, 0⟩]
            2).kind = .MINUS ∧
          operandEnd (tokAt
            [⟨.IDENTIFIER, 120⟩, ⟨.PLUS, 0⟩, ⟨.MINUS, 0⟩, ⟨.IDENTIFIER, 121⟩, ⟨.END, 0⟩]
            (2 - 1)).kind)) :=
  ⟨by decide, by decide,
   (disambiguate_lexed "x+-y;".toList
      [⟨.IDENTIFIER, 120⟩, ⟨.PLUS, 0⟩, ⟨.MINUS, 0⟩, ⟨.IDENTIFIER, 121⟩, ⟨.END, 0⟩]
      (by decide) 2 (by decide) (by decide)).2.2.1⟩

/-! ## C18: scanning at depth 0 in both directions -/

theorem parCount_one (arr : List Token) (i : Int) :
    parCount arr i 1 = parDelta (tokAt arr i).kind := by
  simp [parCount]

theorem parCount_succ_last (arr : List Token) (i : Int) (n : Nat) :
    parCount arr i (n + 1) = parCount arr i n + parDelta (tokAt arr (i + n)).kind := by
  rw [parCount_add, parCount_one]

/-- The forward scan returns the first index at which its depth counter is
zero and the condition holds, or `-1` when there is none. -/
theorem findLoop_fwd_first (arr : List Token) (s e : Int) (cond : Kind → Bool) (hse : s < e) :
    ∀ (fuel : Nat) (i par : Int), (e - i + 1).toNat ≤ fuel →
      (findLoop arr s e cond fuel i par = -1 ∧
        ∀ j, i ≤ j → j ≤ e →
          ¬ (par + parCount arr i (j - i + 1).toNat = 0 ∧ cond (tokAt arr j).kind = true))
      ∨ (i ≤ findLoop arr s e cond fuel i par ∧ findLoop arr s e cond fuel i par ≤ e ∧
        (par + parCount arr i (findLoop arr s e cond fuel i par - i + 1).toNat = 0 ∧
          cond (tokAt arr (findLoop arr s e cond fuel i par)).kind = true) ∧
        ∀ j, i ≤ j → j < findLoop arr s e cond fuel i par →
          ¬ (par + parCount arr i (j - i + 1).toNat = 0 ∧ cond (tokAt arr j).kind = true)) := by
  intro fuel
  induction fuel with
  | zero =>
    intro i par hf
    left
    exact ⟨by simp [findLoop], fun j h1 h2 => by omega⟩
  | succ n ih =>
    intro i par hf
    rw [findLoop_succ]
    simp only [hse, if_true]
    by_cases h1 : i ≤ e
    · rw [if_pos h1]
      by_cases h2 : par + parDelta (tokAt arr i).kind = 0 ∧ cond (tokAt arr i).kind = true
      · rw [if_pos h2]
        right
        refine ⟨le_rfl, h1, ?_, fun j a b => by omega⟩
        have : (i - i + 1).toNat = 1 := by simp
        rw [this, parCount_one]
        exact h2
      · rw [if_neg h2]
        have conv : ∀ j, i + 1 ≤ j →
            par + parCount arr i (j - i + 1).toNat
              = par + parDelta (tokAt arr i).kind + parCount arr (i + 1) (j - (i + 1) + 1).toNat := by
          intro j hj
          have : (j - i + 1).toNat = (j - (i + 1) + 1).toNat + 1 := by omega
          rw [this, parCount]
          ring
        have first : ∀ j, i ≤ j → j < i + 1 →
            ¬ (par + parCount arr i (j - i + 1).toNat = 0 ∧ cond (tokAt arr j).kind = true) := by
          intro j a b
          have : j = i := by omega
          subst this
          have : (j - j + 1).toNat = 1 := by simp
          rw [this, parCount_one]
          exact h2
        rcases ih (i + 1) (par + parDelta (tokAt arr i).kind) (by omega) with
          ⟨a, b⟩ | ⟨a, b, c, d⟩
        · left
          refine ⟨a, fun j h3 h4 => ?_⟩
          by_cases hj : j < i + 1
          · exact first j h3 hj
          · rw [conv j (by omega)]
            exact b j (by omega) h4
        · right
          refine ⟨by omega, b, ?_, fun j h3 h4 => ?_⟩
          · rw [conv _ a]
            exact c
          · by_cases hj : j < i + 1
            · exact first j h3 hj
            · rw [conv j (by omega)]
              exact d j (by omega) h4
    · rw [if_neg h1]
      left
      exact ⟨rfl, fun j a b => by omega⟩

/-- The backward scan returns the last index at which its depth counter is
zero and the condition holds, or `-1` when there is none. -/
theorem findLoop_bwd_last (arr : List Token) (s e : Int) (cond : Kind → Bool) (hse : ¬ s < e) :
    ∀ (fuel : Nat) (i par : Int), (i - e + 1).toNat ≤ fuel →
      (findLoop arr s e cond fuel i par = -1 ∧
        ∀ j, e ≤ j → j ≤ i →
          ¬ (par + parCount arr j (i - j + 1).toNat = 0 ∧ cond (tokAt arr j).kind = true))
      ∨ (e ≤ findLoop arr s e cond fuel i par ∧ findLoop arr s e cond fuel i par ≤ i ∧
        (par + parCount arr (findLoop arr s e cond fuel i par)
            (i - findLoop arr s e cond fuel i par + 1).toNat = 0 ∧
          cond (tokAt arr (findLoop arr s e cond fuel i par)).kind = true) ∧
        ∀ j, findLoop arr s e cond fuel i par < j → j ≤ i →
          ¬ (par + parCount arr j (i - j + 1).toNat = 0 ∧ cond (tokAt arr j).kind = true)) := by
  intro fuel
  induction fuel with
  | zero =>
    intro i par hf
    left
    exact ⟨by simp [findLoop], fun j h1 h2 => by omega⟩
  | succ n ih =>
    intro i par hf
    rw [findLoop_succ]
    simp only [hse, if_false]
    by_cases h1 : i ≥ e
    · rw [if_pos h1]
      by_cases h2 : par + parDelta (tokAt arr i).kind = 0 ∧ cond (tokAt arr i).kind = true
      · rw [if_pos h2]
        right
        refine ⟨h1, le_rfl, ?_, fun j a b => by omega⟩
        have : (i - i + 1).toNat = 1 := by simp
        rw [this, parCount_one]
        exact h2
      · rw [if_neg h2]
        have conv : ∀ j, j ≤ i + -1 →
            par + parCount arr j (i - j + 1).toNat
              = par + parDelta (tokAt arr i).kind + parCount arr j (i + -1 - j + 1).toNat := by
          intro j hj
          have e1 : (i - j + 1).toNat = (i + -1 - j + 1).toNat + 1 := by omega
          have e2 : j + ((i + -1 - j + 1).toNat : Int) = i := by omega
          rw [e1, parCount_succ_last, e2]
          ring
        have last : ∀ j, i + -1 < j → j ≤ i →
            ¬ (par + parCount arr j (i - j + 1).toNat = 0 ∧ cond (tokAt arr j).kind = true) := by
          intro j a b
          have : j = i := by omega
          subst this
          have : (j - j + 1).toNat = 1 := by simp
          rw [this, parCount_one]
          exact h2
        rcases ih (i + -1) (par + parDelta (tokAt arr i).kind) (by omega) with
          ⟨a, b⟩ | ⟨a, b, c, d⟩
        · left
          refine ⟨a, fun j h3 h4 => ?_⟩
          by_cases hj : i + -1 < j
          · exact last j hj h4
          · rw [conv j (by omega)]
            exact b j h3 (by omega)
        · right
          refine ⟨a, by omega, ?_, fun j h3 h4 => ?_⟩
          · rw [conv _ b]
            exact c
          · by_cases hj : i + -1 < j
            · exact last j hj h4
            · rw [conv j (by omega)]
              exact d j h3 (by omega)
    · rw [if_neg h1]
      left
      exact ⟨rfl, fun j a b => by omega⟩

theorem parDelta_of_cond {cond : Kind → Bool}
    (hcond : cond = condASSIGN ∨ cond = condADD ∨ cond = condMUL) {k : Kind}
    (h : cond k = true) : parDelta k = 0 := by
  rcases hcond with rfl | rfl | rfl <;> revert h <;> cases k <;> decide

/-- In a forward scan from `l`, the depth counter at a token that satisfies
the condition is the depth before it. -/
theorem fwd_match_iff {arr : List Token} {l : Int} {cond : Kind → Bool}
    (hcond : cond = condASSIGN ∨ cond = condADD ∨ cond = condMUL) (j : Int) (hj : l ≤ j) :
    (0 + parCount arr l (j - l + 1).toNat = 0 ∧ cond (tokAt arr j).kind = true)
      ↔ depth0Match arr l cond j := by
  unfold depth0Match
  have e1 : (j - l + 1).toNat = (j - l).toNat + 1 := by omega
  have e2 : l + ((j - l).toNat : Int) = j := by omega
  rw [e1, parCount_succ_last, e2]
  constructor
  · rintro ⟨a, b⟩
    rw [parDelta_of_cond hcond b] at a
    exact ⟨b, by omega⟩
  · rintro ⟨b, a⟩
    rw [parDelta_of_cond hcond b]
    exact ⟨by omega, b⟩

/-- In a backward scan from `r` over a balanced range, the depth counter at a
token is zero exactly when the depth before the token is. -/
theorem bwd_match_iff {arr : List Token} {l r : Int} {cond : Kind → Bool}
    (hbal : parCount arr l (r - l + 1).toNat = 0) (j : Int) (hj : l ≤ j) (hjr : j ≤ r) :
    (0 + parCount arr j (r - j + 1).toNat = 0 ∧ cond (tokAt arr j).kind = true)
      ↔ depth0Match arr l cond j := by
  unfold depth0Match
  have e1 : (r - l + 1).toNat = (j - l).toNat + (r - j + 1).toNat := by omega
  have e2 : l + ((j - l).toNat : Int) = j := by omega
  rw [e1, parCount_add, e2] at hbal
  constructor
  · rintro ⟨a, b⟩
    exact ⟨b, by omega⟩
  · rintro ⟨b, a⟩
    exact ⟨by omega, b⟩

/-- The backward scan over a balanced range `[l, r]`. -/
theorem findNextSection_bwd_spec {arr : List Token} {l r : Int} {cond : Kind → Bool}
    (hlr : l ≤ r) (hbal : parCount arr l (r - l + 1).toNat = 0) :
    (findNextSection arr r l cond = -1 ∧ ∀ i, l ≤ i → i ≤ r → ¬ depth0Match arr l cond i)
    ∨ (l ≤ findNextSection arr r l cond ∧ findNextSection arr r l cond ≤ r ∧
        depth0Match arr l cond (findNextSection arr r l cond) ∧
        ∀ i, findNextSection arr r l cond < i → i ≤ r → ¬ depth0Match arr l cond i) := by
  have hse : ¬ r < l := by omega
  unfold findNextSection
  rcases findLoop_bwd_last arr r l cond hse ((l - r).natAbs + 1) r 0 (by omega) with
    ⟨a, b⟩ | ⟨a, b, c, d⟩
  · left
    refine ⟨a, fun i h1 h2 hm => ?_⟩
    exact b i h1 h2 ((bwd_match_iff hbal i h1 h2).2 hm)
  · right
    refine ⟨a, b, (bwd_match_iff hbal _ a b).1 c, fun i h1 h2 hm => ?_⟩
    exact d i h1 h2 ((bwd_match_iff hbal i (by omega) h2).2 hm)

/-- C18: scanning at depth 0 does not depend on the direction.  For a range
`[l, r]` of the array with properly nested parentheses and a condition among
`condASSIGN`, `condADD`, `condMUL`: the forward scan
`findNextSection(arr, l, r, cond)` returns the smallest index of the range
whose token satisfies the condition outside every parenthesis pair, the
backward scan `findNextSection(arr, r, l, cond)` returns the largest one, and
each returns `-1` exactly when there is no such token. -/
theorem findNextSection_depth0 (arr : List Token) (l r : Int) (cond : Kind → Bool)
    (hcond : cond = condASSIGN ∨ cond = condADD ∨ cond = condMUL)
    (hl : 0 ≤ l) (hlr : l ≤ r) (hn : properlyNested arr l r) :
    ((findNextSection arr l r cond = -1 ∧ ∀ i, l ≤ i → i ≤ r → ¬ depth0Match arr l cond i)
      ∨ (l ≤ findNextSection arr l r cond ∧ findNextSection arr l r cond ≤ r ∧
          depth0Match arr l cond (findNextSection arr l r cond) ∧
          ∀ i, l ≤ i → i < findNextSection arr l r cond → ¬ depth0Match arr l cond i))
    ∧ ((findNextSection arr r l cond = -1 ∧ ∀ i, l ≤ i → i ≤ r → ¬ depth0Match arr l cond i)
      ∨ (l ≤ findNextSection arr r l cond ∧ findNextSection arr r l cond ≤ r ∧
          depth0Match arr l cond (findNextSection arr r l cond) ∧
          ∀ i, findNextSection arr r l cond < i → i ≤ r → ¬ depth0Match arr l cond i))
    ∧ (findNextSection arr l r cond = -1 ↔ ¬ ∃ i, l ≤ i ∧ i ≤ r ∧ depth0Match arr l cond i)
    ∧ (findNextSection arr r l cond = -1 ↔ ¬ ∃ i, l ≤ i ∧ i ≤ r ∧ depth0Match arr l cond i) := by
  have hbal := hn.2
  have hB := @findNextSection_bwd_spec arr l r cond hlr hbal
  have hF : (findNextSection arr l r cond = -1 ∧
        ∀ i, l ≤ i → i ≤ r → ¬ depth0Match arr l cond i)
      ∨ (l ≤ findNextSection arr l r cond ∧ findNextSection arr l r cond ≤ r ∧
          depth0Match arr l cond (findNextSection arr l r cond) ∧
          ∀ i, l ≤ i → i < findNextSection arr l r cond → ¬ depth0Match arr l cond i) := by
    by_cases hlt : l < r
    · unfold findNextSection
      rcases findLoop_fwd_first arr l r cond hlt ((r - l).natAbs + 1) l 0 (by omega) with
        ⟨a, b⟩ | ⟨a, b, c, d⟩
      · left
        exact ⟨a, fun i h1 h2 hm => b i h1 h2 ((fwd_match_iff hcond i h1).2 hm)⟩
      · right
        exact ⟨a, b, (fwd_match_iff hcond _ a).1 c,
          fun i h1 h2 hm => d i h1 h2 ((fwd_match_iff hcond i h1).2 hm)⟩
    · have heq : l = r := by omega
      subst heq
      rcases hB with ⟨a, b⟩ | ⟨a, b, c, d⟩
      · exact Or.inl ⟨a, b⟩
      · exact Or.inr ⟨a, b, c, fun i h1 h2 => by omega⟩
  refine ⟨hF, hB, ?_, ?_⟩
  · constructor
    · rintro h ⟨i, h1, h2, hm⟩
      rcases hF with ⟨_, b⟩ | ⟨a, _, _, _⟩
      · exact b i h1 h2 hm
      · omega
    · intro h
      rcases hF with ⟨a, _⟩ | ⟨a, b, c, _⟩
      · exact a
      · exact absurd ⟨_, a, b, c⟩ h
  · constructor
    · rintro h ⟨i, h1, h2, hm⟩
      rcases hB with ⟨_, b⟩ | ⟨a, _, _, _⟩
      · exact b i h1 h2 hm
      · omega
    · intro h
      rcases hB with ⟨a, _⟩ | ⟨a, b, c, _⟩
      · exact a
      · exact absurd ⟨_, a, b, c⟩ h

/-- C18, at the tokens of `(x+y)+z` with `condADD`: both scans find the `+`
at index 5, the only one outside the parentheses. -/
theorem findNextSection_depth0_witness :
    properlyNested nestedSample 0 6
    ∧ findNextSection nestedSample 0 6 condADD = 5
    ∧ findNextSection nestedSample 6 0 condADD = 5
    ∧ (findNextSection nestedSample 0 6 condADD = -1
        ↔ ¬ ∃ i, (0 : Int) ≤ i ∧ i ≤ 6 ∧ depth0Match nestedSample 0 condADD i) :=
  ⟨by unfold properlyNested; decide, by decide, by decide,
   (findNextSection_depth0 nestedSample 0 6 condADD (Or.inr (Or.inl rfl)) (by decide)
      (by decide) (by unfold properlyNested; decide)).2.2.1⟩

/-! ## C16: the parser neither drops nor invents a token -/

theorem segment_add (arr : List Token) (i : Int) (n m : Nat) :
    segment arr i (n + m) = segment arr i n ++ segment arr (i + n) m := by
  induction n generalizing i with
  | zero => simp [segment]
  | succ n ih =>
    have e : n + 1 + m = (n + m) + 1 := by omega
    rw [e, segment, segment, ih]
    have e2 : i + 1 + (n : Int) = i + ((n + 1 : Nat) : Int) := by push_cast; ring
    rw [e2]
    rfl

/-- A range split at one of its tokens. -/
theorem segment_split (arr : List Token) (l r k : Int) (h1 : l ≤ k) (h2 : k ≤ r) :
    segment arr l (r - l + 1).toNat
      = segment arr l (k - l).toNat ++ tokAt arr k :: segment arr (k + 1) (r - k).toNat := by
  have e : (r - l + 1).toNat = (k - l).toNat + ((r - k).toNat + 1) := by omega
  have e2 : l + ((k - l).toNat : Int) = k := by omega
  rw [e, segment_add, e2]
  have e3 : (r - k).toNat + 1 = 1 + (r - k).toNat := by omega
  rw [e3, segment_add]
  simp [segment]

/-- Inside the array the tokens read are a sublist of it. -/
theorem segment_eq_take (arr : List Token) (n : Nat) :
    ∀ i : Nat, i + n ≤ arr.length → segment arr (i : Int) n = (arr.drop i).take n := by
  induction n with
  | zero => intro i _; simp [segment]
  | succ n ih =>
    intro i hi
    have h := ih (i + 1) (by omega)
    have hlt : i < arr.length := by omega
    rw [segment]
    push_cast at h
    rw [h]
    have ht : tokAt arr (i : Int) = arr[i] := by
      unfold tokAt
      rw [if_neg (by omega)]
      simp [List.getD_eq_getElem?_getD, hlt]
    rw [ht, List.drop_eq_getElem_cons hlt, List.take_succ_cons]

/-- When the parenthesis branch of `PRI_EXPR` is taken and the tokens between
the two ends parse, the first token of the range is `LPAR`. -/
theorem paren_ends {arr : List Token} {l r : Int} {mid : AST} (hl : 0 ≤ l) (hle : l ≤ r)
    (hf : findNextSection arr l r condRPAR = r) (hin : Parses arr (l + 1) (r - 1) .EXPR mid) :
    (tokAt arr l).kind = .LPAR ∧ (tokAt arr r).kind = .RPAR ∧ l < r := by
  obtain ⟨hR, hlt, hbal⟩ := findNextSection_RPAR hl hle hf
  obtain ⟨_, a2⟩ := hin.range_ok (by decide) (by omega)
  refine ⟨?_, hR, hlt⟩
  apply parDelta_eq_one
  have h3 := parCount_split arr l r l le_rfl hle
  have h4 := parCount_split arr (l + 1) r r (by omega) le_rfl
  have e : (r - 1 - (l + 1) + 1).toNat = (r - (l + 1)).toNat := by omega
  have e3 : (r - (l + 1) + 1).toNat = (r - l).toNat := by omega
  rw [e] at a2
  rw [e3] at h4
  rw [hbal, h4, a2, hR] at h3
  have hz1 : (l - l).toNat = 0 := by simp
  have hz2 : (r - r).toNat = 0 := by simp
  have hd : parDelta Kind.RPAR = -1 := by decide
  rw [hz1, hz2, hd] at h3
  simp only [parCount] at h3
  omega

theorem writeOut_binary {k : Kind} (hk : condASSIGN k = true ∨ condADD k = true ∨ condMUL k = true)
    (v : Int) (lhs mid rhs : AST) :
    writeOut (.node k v lhs mid rhs) = writeOut lhs ++ ⟨k, 0⟩ :: writeOut rhs := by
  rw [writeOut, if_pos hk]

theorem tokenView_operator {t : Token}
    (hk : ¬ (t.kind = .IDENTIFIER ∨ t.kind = .CONSTANT)) : tokenView t = ⟨t.kind, 0⟩ := by
  rw [tokenView, if_neg hk]

/-- The tree of a successful run in an expression state, written out, is the
range it was parsed from. -/
theorem Parses.roundtrip {arr : List Token} {l r : Int} {S : GrammarState} {t : AST}
    (h : Parses arr l r S t) : S ≠ .STMT → 0 ≤ l →
      writeOut t = (segment arr l (r - l + 1).toNat).map tokenView := by
  induction h with
  | stmtEmpty => intro h; exact absurd rfl h
  | stmt => intro h; exact absurd rfl h
  | expr _ _ ih => intro _ hl; exact ih (by decide) hl
  | @assign l r lhs rhs hle hn _ _ ihl ihr =>
    intro _ hl
    obtain ⟨hc, h1, h2⟩ := findNextSection_fwd hle rfl hn
    have a := ihl (by decide) hl
    have b := ihr (by decide) (by omega)
    have e : (findNextSection arr l r condASSIGN - 1 - l + 1).toNat
        = (findNextSection arr l r condASSIGN - l).toNat := by omega
    have e2 : (r - (findNextSection arr l r condASSIGN + 1) + 1).toNat
        = (r - findNextSection arr l r condASSIGN).toNat := by omega
    rw [e] at a
    rw [e2] at b
    have hv : tokenView (tokAt arr (findNextSection arr l r condASSIGN))
        = ⟨(tokAt arr (findNextSection arr l r condASSIGN)).kind, 0⟩ := by
      apply tokenView_operator
      revert hc; cases (tokAt arr (findNextSection arr l r condASSIGN)).kind <;> decide
    rw [writeOut_binary (Or.inl hc), segment_split arr l r _ h1 h2, List.map_append,
      List.map_cons, a, b, hv]
  | assignNone _ _ _ ih => intro _ hl; exact ih (by decide) hl
  | @add l r lhs rhs hle hn _ _ ihl ihr =>
    intro _ hl
    obtain ⟨hc, h1, h2⟩ := findNextSection_bwd hle rfl hn
    have a := ihl (by decide) hl
    have b := ihr (by decide) (by omega)
    have e : (findNextSection arr r l condADD - 1 - l + 1).toNat
        = (findNextSection arr r l condADD - l).toNat := by omega
    have e2 : (r - (findNextSection arr r l condADD + 1) + 1).toNat
        = (r - findNextSection arr r l condADD).toNat := by omega
    rw [e] at a
    rw [e2] at b
    have hv : tokenView (tokAt arr (findNextSection arr r l condADD))
        = ⟨(tokAt arr (findNextSection arr r l condADD)).kind, 0⟩ := by
      apply tokenView_operator
      revert hc; cases (tokAt arr (findNextSection arr r l condADD)).kind <;> decide
    rw [writeOut_binary (Or.inr (Or.inl hc)), segment_split arr l r _ h1 h2, List.map_append,
      List.map_cons, a, b, hv]
  | addNone _ _ _ ih => intro _ hl; exact ih (by decide) hl
  | @mul l r lhs rhs hle hn _ _ ihl ihr =>
    intro _ hl
    obtain ⟨hc, h1, h2⟩ := findNextSection_bwd hle rfl hn
    have a := ihl (by decide) hl
    have b := ihr (by decide) (by omega)
    have e : (findNextSection arr r l condMUL - 1 - l + 1).toNat
        = (findNextSection arr r l condMUL - l).toNat := by omega
    have e2 : (r - (findNextSection arr r l condMUL + 1) + 1).toNat
        = (r - findNextSection arr r l condMUL).toNat := by omega
    rw [e] at a
    rw [e2] at b
    have hv : tokenView (tokAt arr (findNextSection arr r l condMUL))
        = ⟨(tokAt arr (findNextSection arr r l condMUL)).kind, 0⟩ := by
      apply tokenView_operator
      revert hc; cases (tokAt arr (findNextSection arr r l condMUL)).kind <;> decide
    rw [writeOut_binary (Or.inr (Or.inr hc)), segment_split arr l r _ h1 h2, List.map_append,
      List.map_cons, a, b, hv]
  | mulNone _ _ _ ih => intro _ hl; exact ih (by decide) hl
  | @unary l r mid hle hk _ ih =>
    intro _ hl
    have a := ih (by decide) (by omega)
    have e : (r - (l + 1) + 1).toNat = (r - l).toNat := by omega
    rw [e] at a
    have hv : tokenView (tokAt arr l) = ⟨(tokAt arr l).kind, 0⟩ := by
      apply tokenView_operator
      revert hk; cases (tokAt arr l).kind <;> decide
    have hw : writeOut (.node (tokAt arr l).kind 0 .null mid .null)
        = ⟨(tokAt arr l).kind, 0⟩ :: writeOut mid := by
      rw [writeOut]
      revert hk; cases (tokAt arr l).kind <;> simp [condASSIGN, condADD, condMUL, isPre]
    have hz : (l - l).toNat = 0 := by simp
    rw [hw, segment_split arr l r l le_rfl hle, hz, List.map_append, List.map_cons, a, hv]
    simp [segment]
  | unaryNone _ _ _ ih => intro _ hl; exact ih (by decide) hl
  | @post l r mid hle hk _ ih =>
    intro _ hl
    have a := ih (by decide) hl
    have e : (r - 1 - l + 1).toNat = (r - l).toNat := by omega
    rw [e] at a
    have hv : tokenView (tokAt arr r) = ⟨(tokAt arr r).kind, 0⟩ := by
      apply tokenView_operator
      revert hk; cases (tokAt arr r).kind <;> decide
    have hw : writeOut (.node
          (Kind.ofInt ((tokAt arr r).kind.toInt - Kind.PREINC.toInt + Kind.POSTINC.toInt))
          0 .null mid .null)
        = writeOut mid ++ [⟨(tokAt arr r).kind, 0⟩] := by
      rcases hk with hk | hk <;> rw [hk] <;> rfl
    have hz : (r - r).toNat = 0 := by simp
    rw [hw, segment_split arr l r r hle le_rfl, hz, List.map_append, List.map_cons, a, hv]
    simp [segment]
  | postNone _ _ _ ih => intro _ hl; exact ih (by decide) hl
  | @paren l r mid hle hf hin ih =>
    intro _ hl
    obtain ⟨hL, hR, hlt⟩ := paren_ends hl hle hf hin
    have a := ih (by decide) (by omega)
    have e : (r - 1 - (l + 1) + 1).toNat = (r - 1 - l).toNat := by omega
    rw [e] at a
    have hvl : tokenView (tokAt arr l) = ⟨.LPAR, 0⟩ := by
      rw [tokenView_operator (by rw [hL]; decide), hL]
    have hvr : tokenView (tokAt arr r) = ⟨.RPAR, 0⟩ := by
      rw [tokenView_operator (by rw [hR]; decide), hR]
    have hw : writeOut (.node .LPAR 0 .null mid .null)
        = ⟨.LPAR, 0⟩ :: (writeOut mid ++ [⟨.RPAR, 0⟩]) := rfl
    have hz : (l - l).toNat = 0 := by simp
    have hz2 : (r - r).toNat = 0 := by simp
    have e4 : (r - l).toNat = (r - 1 - (l + 1) + 1).toNat + 1 := by omega
    have hs : segment arr (l + 1) (r - l).toNat
        = segment arr (l + 1) (r - 1 - l).toNat ++ [tokAt arr r] := by
      have h5 := segment_split arr (l + 1) r r (by omega) le_rfl
      have e5 : (r - (l + 1) + 1).toNat = (r - l).toNat := by omega
      have e6 : (r - (l + 1)).toNat = (r - 1 - l).toNat := by omega
      rw [e5, e6, hz2] at h5
      rw [h5]
      simp [segment]
    rw [hw, segment_split arr l r l le_rfl hle, hz, hs]
    simp [segment, a, hvl, hvr]
  | @leaf l r hle _ heq hk =>
    intro _ hl
    subst heq
    have hv : tokenView (tokAt arr l) = tokAt arr l := by
      rw [tokenView, if_pos hk]
    have hw : ∀ tk : Token, (tk.kind = .IDENTIFIER ∨ tk.kind = .CONSTANT) →
        writeOut (new_AST tk.kind tk.val) = [tk] := by
      rintro ⟨k, v⟩ hk2
      rcases hk2 with h2 | h2 <;> simp only at h2 <;> subst h2 <;> rfl
    have hz : (l - l + 1).toNat = 1 := by simp
    rw [hw _ hk, hz]
    simp [segment, hv]

theorem Parses.range_le {arr : List Token} {l r : Int} {S : GrammarState} {t : AST}
    (h : Parses arr l r S t) : l ≤ r := by
  cases h <;> omega

/-- C16: the parser never drops or invents a token.  When
`parse(arr, l, r, S)` succeeds on a range of the array in an expression state
(any state but `STMT`), the range lies inside the array and the returned tree,
written out in order, is exactly `arr[l..r]`: the kinds of all its tokens and
the values of its Identifier and Constant tokens.  In particular, when the
parenthesis branch of `PRI_EXPR` is taken in such a run, the first token of
the range is `LPAR` (and the last is `RPAR`), although the code only tests
where the scan for `RPAR` stops. -/
theorem parse_roundtrip (fuel : Nat) (arr : List Token) (l r : Int) (S : GrammarState)
    (t : AST) (hS : S ≠ .STMT) (hl : 0 ≤ l) (h : parse fuel arr l r S = some (.ok t)) :
    l ≤ r ∧ r < arr.length
    ∧ writeOut t = ((arr.drop l.toNat).take (r - l + 1).toNat).map tokenView
    ∧ (S = .PRI_EXPR → findNextSection arr l r condRPAR = r →
        (tokAt arr l).kind = .LPAR ∧ (tokAt arr r).kind = .RPAR
          ∧ ∃ mid, t = .node .LPAR 0 .null mid .null) := by
  have hP := parse_sound arr fuel l r S t h
  have hle := hP.range_le
  have hr : r < arr.length := by
    by_contra hge
    have ho := tokAt_outside arr r (Or.inr (by omega))
    exact (hP.range_ok hS hl).1 r hle le_rfl (by rw [ho]; rfl)
  refine ⟨hle, hr, ?_, ?_⟩
  · rw [hP.roundtrip hS hl]
    have e : l = ((l.toNat : Nat) : Int) := by omega
    have h2 := segment_eq_take arr (r - l + 1).toNat l.toNat (by omega)
    rw [← e] at h2
    rw [h2]
  · intro hS2 hf
    subst hS2
    cases hP with
    | paren hle2 hf2 hin =>
      obtain ⟨a, b, _⟩ := paren_ends hl hle hf hin
      exact ⟨a, b, _, rfl⟩
    | leaf _ hnf _ _ => exact absurd hf hnf

/-- C16, at the tokens of `(x+1)*-y++` (indices 0 to 8 of the array of
`(x+1)*-y++;`). -/
theorem parse_roundtrip_witness :
    parse 40 (disambiguate [⟨.LPAR, 0⟩, ⟨.IDENTIFIER, 120⟩, ⟨.PLUS, 0⟩, ⟨.CONSTANT, 1⟩,
        ⟨.RPAR, 0⟩, ⟨.MUL, 0⟩, ⟨.MINUS, 0⟩, ⟨.IDENTIFIER, 121⟩, ⟨.PREINC, 0⟩, ⟨.END, 0⟩])
      0 8 .EXPR
      = some (.ok (.node .MUL 0
          (.node .LPAR 0 .null
            (.node .ADD 0 (new_AST .IDENTIFIER 120) .null (new_AST .CONSTANT 1)) .null)
          .null
          (.node .MINUS 0 .null (.node .POSTINC 0 .null (new_AST .IDENTIFIER 121) .null) .null)))
    ∧ writeOut (.node .MUL 0
          (.node .LPAR 0 .null
            (.node .ADD 0 (new_AST .IDENTIFIER 120) .null (new_AST .CONSTANT 1)) .null)
          .null
          (.node .MINUS 0 .null (.node .POSTINC 0 .null (new_AST .IDENTIFIER 121) .null) .null))
      = [⟨.LPAR, 0⟩, ⟨.IDENTIFIER, 120⟩, ⟨.ADD, 0⟩, ⟨.CONSTANT, 1⟩,
        ⟨.RPAR, 0⟩, ⟨.MUL, 0⟩, ⟨.MINUS, 0⟩, ⟨.IDENTIFIER, 121⟩, ⟨.PREINC, 0⟩] :=
  ⟨by decide,
   ((parse_roundtrip 40 (disambiguate [⟨.LPAR, 0⟩, ⟨.IDENTIFIER, 120⟩, ⟨.PLUS, 0⟩,
        ⟨.CONSTANT, 1⟩, ⟨.RPAR, 0⟩, ⟨.MUL, 0⟩, ⟨.MINUS, 0⟩, ⟨.IDENTIFIER, 121⟩, ⟨.PREINC, 0⟩,
        ⟨.END, 0⟩]) 0 8 .EXPR _ (by decide) (by decide) (by decide)).2.2.1).trans (by decide)⟩

/-! ## C15: compilation preserves meaning -/

theorem exec_append (c1 c2 : List Instr) (st : Machine) :
    exec (c1 ++ c2) st = (exec c1 st).bind (exec c2) := by
  induction c1 generalizing st with
  | nil => rfl
  | cons i rest ih =>
    simp only [List.cons_append, exec]
    cases stepInstr st i with
    | none => rfl
    | some st1 => exact ih st1

theorem stepInstr_load (st : Machine) (d a : Int) :
    stepInstr st ⟨.load, [.reg d, .mem a]⟩
      = some { st with reg := setCell st.reg d (st.mem a) } := rfl

theorem stepInstr_store (st : Machine) (a s : Int) :
    stepInstr st ⟨.store, [.mem a, .reg s]⟩
      = some { st with mem := setCell st.mem a (st.reg s) } := rfl

theorem stepInstr_arith (st : Machine) (op : Op) (d : Int) (x y : Operand)
    (h1 : op ≠ .load) (h2 : op ≠ .store) :
    stepInstr st ⟨op, [.reg d, x, y]⟩
      = (x.value st).bind fun a => (y.value st).bind fun b =>
          (alu op a b).map fun c => { st with reg := setCell st.reg d c } := by
  cases op <;> first | rfl | contradiction

theorem cellOf_eq_memAd {x : Int} (h : x = 120 ∨ x = 121 ∨ x = 122) :
    cellOf x = memAd (x - 120) := by
  rcases h with rfl | rfl | rfl <;> decide

theorem setCell_same (f : Int → Int) (a v : Int) : setCell f a v a = v := by
  simp [setCell]

theorem setCell_other (f : Int → Int) {a k : Int} (v : Int) (h : k ≠ a) :
    setCell f a v k = f k := by
  simp [setCell, h]

theorem memAccess_load (n a : Int) : memAccess 0 n a = ⟨.load, [.reg n, .mem a]⟩ := by
  simp [memAccess]

theorem memAccess_store (n a : Int) : memAccess 1 n a = ⟨.store, [.mem a, .reg n]⟩ := by
  simp [memAccess]

/-- An operand that `semantic_check` accepted as an lvalue: its cell, and its
code in load or store mode. -/
theorem lvalue_operand (m : AST) (hu : unwrapKind m = .ok .IDENTIFIER) (hok : identsOK m) :
    ∃ x a, lvalueCell m = some a ∧ memAd (x - 120) = some a ∧
      ∀ s : CG, (s.memJudge = 0 ∨ s.memJudge = 1) →
        codegen m s = .ok (⟨s.regIdx, s.memJudge, x⟩, [memAccess s.memJudge s.regIdx a]) := by
  obtain ⟨x, hx, hcg⟩ := codegen_unwrapped m hu
  have hv := identVal_valid m hok x hx
  obtain ⟨a, ha⟩ := memAd_valid hv
  refine ⟨x, a, ?_, ha, fun s hs => ?_⟩
  · unfold lvalueCell
    rw [hx, Option.some_bind, cellOf_eq_memAd hv, ha]
  · rw [hcg, codegen_ident_ok x a s ha hs]

/-- The opcode of a binary operator, and its arithmetic. -/
theorem arith_of_binary {k : Kind} (hk : condADD k = true ∨ condMUL k = true) :
    ∃ op, ArithOP (k.toInt - Kind.ADD.toInt) = some op ∧ op ≠ .load ∧ op ≠ .store ∧
      ∀ a b, alu op a b = binop k a b := by
  cases k <;> first
    | (exfalso; revert hk; decide)
    | exact ⟨_, rfl, by decide, by decide, fun _ _ => rfl⟩

theorem codegen_binary {k : Kind} {op : Op} (hk : condADD k = true ∨ condMUL k = true)
    (hop : ArithOP (k.toInt - Kind.ADD.toInt) = some op) (v : Int) (l m r : AST) (s : CG) :
    codegen (.node k v l m r) s
      = (codegen l s).bind fun p1 =>
          (codegen r { p1.1 with regIdx := p1.1.regIdx + 1 }).bind fun p2 =>
            .ok ({ p2.1 with regIdx := p2.1.regIdx - 1 },
              p1.2 ++ p2.2 ++ [⟨op, [.reg (p2.1.regIdx - 1), .reg (p2.1.regIdx - 1),
                .reg (p2.1.regIdx - 1 + 1)]⟩]) := by
  cases k <;> first
    | (exfalso; revert hk; decide)
    | (simp only [codegen, hop, readTable, Res.bind])

theorem refEval_binary {k : Kind} (hk : condADD k = true ∨ condMUL k = true)
    (v : Int) (l m r : AST) (mem : Int → Int) :
    refEval (.node k v l m r) mem
      = (refEval l mem).bind fun p =>
          (refEval r p.2).bind fun q => (binop k p.1 q.1).map fun c => (c, q.2) := by
  cases k <;> first
    | (exfalso; revert hk; decide)
    | rfl

theorem shape_children {k : Kind} {v : Int} {l m r : AST}
    (h : ∀ x ∈ (AST.node k v l m r).subtrees, shapeAt x) :
    (k ≠ .RPAR ∧ k ≠ .END)
    ∧ ((condASSIGN k = true ∨ condADD k = true ∨ condMUL k = true) → l ≠ .null ∧ r ≠ .null)
    ∧ ((isPre k = true ∨ isPost k = true ∨ k = .LPAR) → m ≠ .null)
    ∧ (∀ x ∈ l.subtrees, shapeAt x) ∧ (∀ x ∈ m.subtrees, shapeAt x)
    ∧ (∀ x ∈ r.subtrees, shapeAt x) := by
  obtain ⟨h0, hl, hm, hr⟩ := (forall_subtrees_node k v l m r).1 h
  have h1 : shapeNode k l m r := h0
  unfold shapeNode at h1
  refine ⟨?_, fun hk => ?_, fun hk => ?_, hl, hm, hr⟩
  · constructor <;> (rintro rfl; revert h1; simp [condASSIGN, condADD, condMUL, isPre, isPost])
  · rw [if_pos hk] at h1
    exact ⟨h1.1, h1.2.1⟩
  · have hnb : ¬ (condASSIGN k = true ∨ condADD k = true ∨ condMUL k = true) := by
      revert hk; cases k <;> decide
    rw [if_neg hnb, if_pos hk] at h1
    exact h1.1

/-- The code `codegen` emits in load mode for a checked tree simulates the
reference evaluator.  When the expression has a value, the code computes it
into the current register, leaves the memory of the evaluator, and keeps the
registers below the current one.  When the tree has the shape of an
expression and no value (a division by zero), the code does not run to its
end either. -/
theorem codegen_sim : ∀ t : AST, semantic_check t = .ok () → identsOK t →
    ∀ s : CG, s.memJudge = 0 → ∃ p, codegen t s = .ok p ∧
      (∀ (st : Machine) (val : Int) (m' : Int → Int), refEval t st.mem = some (val, m') →
        ∃ st', exec p.2 st = some st' ∧ st'.reg s.regIdx = val ∧ st'.mem = m' ∧
          ∀ k, k < s.regIdx → st'.reg k = st.reg k)
      ∧ ((∀ x ∈ t.subtrees, shapeAt x) → t ≠ .null →
          ∀ st : Machine, refEval t st.mem = none → exec p.2 st = none) := by
  intro t
  induction t with
  | null =>
    intro _ _ s _
    exact ⟨_, rfl, fun st val m' h => by simp [refEval] at h, fun _ h => absurd rfl h⟩
  | node k v l m r ihl ihm ihr =>
    intro hc hok s hs
    obtain ⟨hcl, hcm, hcr, hasg, hinc⟩ := semantic_check_node hc
    obtain ⟨h0, hokl, hokm, hokr⟩ := identsOK_node hok
    have hst : MemOP 1 = some Op.store := by decide
    have hbinary : (condADD k = true ∨ condMUL k = true) →
        ∃ p, codegen (.node k v l m r) s = .ok p ∧
          (∀ (st : Machine) (val : Int) (m' : Int → Int),
            refEval (.node k v l m r) st.mem = some (val, m') →
            ∃ st', exec p.2 st = some st' ∧ st'.reg s.regIdx = val ∧ st'.mem = m' ∧
              ∀ k, k < s.regIdx → st'.reg k = st.reg k)
          ∧ ((∀ x ∈ (AST.node k v l m r).subtrees, shapeAt x) → AST.node k v l m r ≠ .null →
              ∀ st : Machine, refEval (.node k v l m r) st.mem = none → exec p.2 st = none) := by
      intro hk
      obtain ⟨op, hop, hnl, hns, halu⟩ := arith_of_binary hk
      obtain ⟨⟨s1, o1⟩, h1, hsim1, hflt1⟩ := ihl hcl hokl s hs
      have e1 := codegen_preserves _ _ _ _ h1
      simp only at e1
      obtain ⟨⟨s2, o2⟩, h2, hsim2, hflt2⟩ := ihr hcr hokr { s1 with regIdx := s1.regIdx + 1 }
        (by simp; omega)
      have e2 := (codegen_preserves _ _ _ _ h2).1
      simp only at e2 hsim2 hflt1 hflt2
      have e3 : s2.regIdx - 1 = s.regIdx := by omega
      have hcode : codegen (.node k v l m r) s
          = .ok ({ s2 with regIdx := s2.regIdx - 1 },
              o1 ++ o2 ++ [⟨op, [.reg s.regIdx, .reg s.regIdx, .reg (s.regIdx + 1)]⟩]) := by
        rw [codegen_binary hk hop]
        simp only [h1, h2, Res.bind, e3]
      rw [e1.1] at hsim2
      refine ⟨_, hcode, ?_, ?_⟩
      · intro st val m' hev
        rw [refEval_binary hk] at hev
        simp only [Option.bind_eq_some, Option.map_eq_some', Prod.mk.injEq] at hev
        obtain ⟨⟨a, m1⟩, hev1, ⟨b, m2⟩, hev2, c, hc3, rfl, rfl⟩ := hev
        obtain ⟨st1, hx1, hr1, hm1, hk1⟩ := hsim1 st a m1 hev1
        obtain ⟨st2, hx2, hr2, hm2, hk2⟩ := hsim2 st1 b m2 (by rw [hm1]; exact hev2)
        have hra : st2.reg s.regIdx = a := by rw [hk2 _ (lt_add_one _), hr1]
        refine ⟨{ st2 with reg := setCell st2.reg s.regIdx c }, ?_, setCell_same _ _ _, hm2,
          fun k hlt => ?_⟩
        · simp only at hc3
          simp [exec_append, hx1, hx2, exec, stepInstr_arith _ _ _ _ _ hnl hns, Operand.value,
            hra, hr2, halu, hc3]
        · simp only [setCell_other _ _ (ne_of_lt hlt)]
          rw [hk2 k (lt_trans hlt (lt_add_one _)), hk1 k hlt]
      · intro hsh _ st hev
        obtain ⟨_, hlr, _, hshl, _, hshr⟩ := shape_children hsh
        obtain ⟨hln, hrn⟩ := hlr (Or.inr hk)
        rw [refEval_binary hk] at hev
        cases hev1 : refEval l st.mem with
        | none => simp [exec_append, hflt1 hshl hln st hev1]
        | some p1 =>
          obtain ⟨st1, hx1, hr1, hm1, hk1⟩ := hsim1 st p1.1 p1.2 hev1
          cases hev2 : refEval r p1.2 with
          | none =>
            have hf := hflt2 hshr hrn st1 (by rw [hm1]; exact hev2)
            simp [exec_append, hx1, hf]
          | some p2 =>
            obtain ⟨st2, hx2, hr2, hm2, hk2⟩ := hsim2 st1 p2.1 p2.2 (by rw [hm1]; exact hev2)
            have hra : st2.reg s.regIdx = p1.1 := by rw [hk2 _ (lt_add_one _), hr1]
            simp only [hev1, hev2, Option.some_bind, Option.map_eq_none'] at hev
            simp [exec_append, hx1, hx2, exec, stepInstr_arith _ _ _ _ _ hnl hns,
              Operand.value, hra, hr2, halu, hev]
    cases k
    case ADD | SUB | MUL | DIV | REM => exact hbinary (by decide)
    case ASSIGN =>
      obtain ⟨⟨s1, o1⟩, h1, hsim1, hflt1⟩ := ihr hcr hokr { s with regIdx := s.regIdx + 1 } hs
      have e1 := codegen_preserves _ _ _ _ h1
      simp only at e1 hsim1 hflt1
      obtain ⟨x, a, hlv, ha, hcg⟩ := lvalue_operand l (hasg rfl) hokl
      have e3 : s1.regIdx - 1 = s.regIdx := by omega
      have hcode : ∃ s3, codegen (.node .ASSIGN v l m r) s
          = .ok (s3, o1 ++ [⟨.add, [.reg s.regIdx, .imm 0, .reg (s.regIdx + 1)]⟩]
              ++ [⟨.store, [.mem a, .reg s.regIdx]⟩]) := by
        simp only [codegen, h1, Res.bind]
        rw [hcg _ (Or.inr (by simp; omega))]
        simp only [e3, e1.2, hs, zero_add, memAccess_store]
        exact ⟨_, rfl⟩
      obtain ⟨s3, hcode⟩ := hcode
      refine ⟨_, hcode, ?_, ?_⟩
      · intro st val m' hev
        simp only [refEval, hlv, Option.bind_eq_some, Option.map_some', Option.some.injEq,
          Prod.mk.injEq] at hev
        obtain ⟨⟨b, m1⟩, hev1, rfl, rfl⟩ := hev
        obtain ⟨st1, hx1, hr1, hm1, hk1⟩ := hsim1 st b m1 hev1
        refine ⟨⟨setCell st1.reg s.regIdx (0 + st1.reg (s.regIdx + 1)),
          setCell st1.mem a (0 + st1.reg (s.regIdx + 1))⟩, ?_, ?_, ?_, fun k hlt => ?_⟩
        · simp [exec_append, hx1, exec, stepInstr_arith, stepInstr_store, Operand.value, alu,
            setCell]
        · simp only [setCell_same, zero_add]
          exact hr1
        · simp only [zero_add, hr1, hm1]
        · simp only [setCell_other _ _ (ne_of_lt hlt)]
          exact hk1 k (lt_trans hlt (lt_add_one _))
      · intro hsh _ st hev
        obtain ⟨_, hlr, _, _, _, hshr⟩ := shape_children hsh
        obtain ⟨_, hrn⟩ := hlr (Or.inl (by decide))
        cases hev1 : refEval r st.mem with
        | none => simp [exec_append, hflt1 hshr hrn st hev1]
        | some p1 => simp [refEval, hlv, hev1] at hev
    case IDENTIFIER =>
      obtain ⟨a, ha⟩ := memAd_valid (h0 rfl)
      have e : codegen (.node .IDENTIFIER v l m r) s = codegen (new_AST .IDENTIFIER v) s := by
        simp only [codegen, new_AST]
      refine ⟨_, by rw [e, codegen_ident_ok v a s ha (Or.inl hs)], ?_,
        fun _ _ st hev => by simp [refEval, cellOf_eq_memAd (h0 rfl), ha] at hev⟩
      intro st val m' hev
      simp only [refEval, cellOf_eq_memAd (h0 rfl), ha, Option.map_some', Option.some.injEq,
        Prod.mk.injEq] at hev
      obtain ⟨rfl, rfl⟩ := hev
      refine ⟨{ st with reg := setCell st.reg s.regIdx (st.mem a) }, ?_, setCell_same _ _ _,
        rfl, fun k hk => setCell_other _ _ (by omega)⟩
      simp only [hs, memAccess_load, exec, stepInstr_load, Option.some_bind]
    case CONSTANT =>
      refine ⟨_, rfl, ?_, fun _ _ st hev => by simp [refEval] at hev⟩
      intro st val m' hev
      simp only [refEval, Option.some.injEq, Prod.mk.injEq] at hev
      obtain ⟨rfl, rfl⟩ := hev
      refine ⟨{ st with reg := setCell st.reg s.regIdx v }, ?_, setCell_same _ _ _,
        rfl, fun k hk => setCell_other _ _ (by omega)⟩
      simp [exec, stepInstr_arith, Operand.value, alu]
    case RPAR =>
      exact ⟨_, rfl, fun st val m' h => by simp [refEval] at h,
        fun hsh => absurd rfl (shape_children hsh).1.1⟩
    case END =>
      exact ⟨_, rfl, fun st val m' h => by simp [refEval] at h,
        fun hsh => absurd rfl (shape_children hsh).1.2⟩
    case LPAR =>
      obtain ⟨p, hp, hsim, hflt⟩ := ihm hcm hokm s hs
      refine ⟨p, by simp only [codegen]; exact hp, ?_, ?_⟩
      · intro st val m' hev
        exact hsim st val m' (by simpa only [refEval] using hev)
      · intro hsh _ st hev
        obtain ⟨_, _, hmn, _, hshm, _⟩ := shape_children hsh
        exact hflt hshm (hmn (Or.inr (Or.inr rfl))) st (by simpa only [refEval] using hev)
    case PLUS =>
      obtain ⟨⟨s1, o1⟩, h1, hsim, hflt⟩ := ihm hcm hokm s hs
      have e1 := (codegen_preserves _ _ _ _ h1).1
      simp only at e1 hsim hflt
      have hcode : codegen (.node .PLUS v l m r) s
          = .ok (s1, o1 ++ [⟨.add, [.reg s.regIdx, .imm 0, .reg s.regIdx]⟩]) := by
        simp only [codegen, h1, Res.bind, ArithOP, Kind.toInt, readTable, e1]
        rfl
      refine ⟨_, hcode, ?_, ?_⟩
      · intro st val m' hev
        obtain ⟨st1, hx, hr, hm, hk⟩ := hsim st val m' (by simpa only [refEval] using hev)
        refine ⟨{ st1 with reg := setCell st1.reg s.regIdx (0 + st1.reg s.regIdx) }, ?_, ?_,
          hm, fun k hlt => ?_⟩
        · simp [exec_append, hx, exec, stepInstr_arith, Operand.value, alu]
        · simp only [setCell_same, zero_add]
          exact hr
        · simp only [setCell_other _ _ (ne_of_lt hlt)]
          exact hk k hlt
      · intro hsh _ st hev
        obtain ⟨_, _, hmn, _, hshm, _⟩ := shape_children hsh
        have hf := hflt hshm (hmn (Or.inl (by decide))) st (by simpa only [refEval] using hev)
        simp [exec_append, hf]
    case MINUS =>
      obtain ⟨⟨s1, o1⟩, h1, hsim, hflt⟩ := ihm hcm hokm s hs
      have e1 := (codegen_preserves _ _ _ _ h1).1
      simp only at e1 hsim hflt
      have hcode : codegen (.node .MINUS v l m r) s
          = .ok (s1, o1 ++ [⟨.sub, [.reg s.regIdx, .imm 0, .reg s.regIdx]⟩]) := by
        simp only [codegen, h1, Res.bind, ArithOP, Kind.toInt, readTable, e1]
        rfl
      refine ⟨_, hcode, ?_, ?_⟩
      · intro st val m' hev
        simp only [refEval, Option.map_eq_some', Prod.mk.injEq] at hev
        obtain ⟨⟨v1, m1⟩, hev1, rfl, rfl⟩ := hev
        obtain ⟨st1, hx, hr, hm, hk⟩ := hsim st v1 m1 hev1
        refine ⟨{ st1 with reg := setCell st1.reg s.regIdx (0 - st1.reg s.regIdx) }, ?_, ?_,
          hm, fun k hlt => ?_⟩
        · simp [exec_append, hx, exec, stepInstr_arith, Operand.value, alu]
        · simp only [setCell_same, hr]
        · simp only [setCell_other _ _ (ne_of_lt hlt)]
          exact hk k hlt
      · intro hsh _ st hev
        obtain ⟨_, _, hmn, _, hshm, _⟩ := shape_children hsh
        simp only [refEval, Option.map_eq_none'] at hev
        have hf := hflt hshm (hmn (Or.inl (by decide))) st hev
        simp [exec_append, hf]
    case POSTINC =>
      obtain ⟨x, a, hlv, ha, hcg⟩ := lvalue_operand m (hinc (by decide)) hokm
      have h1 := hcg s (Or.inl hs)
      have hcode : codegen (.node .POSTINC v l m r) s
          = .ok (⟨s.regIdx, s.memJudge, x⟩, [memAccess s.memJudge s.regIdx a] ++
              [⟨.add, [.reg (s.regIdx + 1), .reg s.regIdx, .imm 1]⟩,
               ⟨.store, [.mem a, .reg (s.regIdx + 1)]⟩]) := by
        simp only [codegen, h1, Res.bind, ArithOP, Kind.toInt, readTable, hst, ha]
        rfl
      refine ⟨_, hcode, ?_, fun _ _ st hev => by simp [refEval, hlv] at hev⟩
      intro st val m' hev
      simp only [refEval, hlv, Option.map_some', Option.some.injEq, Prod.mk.injEq] at hev
      obtain ⟨rfl, rfl⟩ := hev
      refine ⟨⟨setCell (setCell st.reg s.regIdx (st.mem a)) (s.regIdx + 1) (st.mem a + 1),
        setCell st.mem a (st.mem a + 1)⟩, ?_, ?_, rfl, fun k hlt => ?_⟩
      · simp [hs, memAccess_load, exec, stepInstr_load, stepInstr_store, stepInstr_arith,
          Operand.value, alu, setCell]
      · simp [setCell]
      · simp only [setCell_other _ _ (ne_of_lt hlt),
          setCell_other _ _ (ne_of_lt (lt_trans hlt (lt_add_one s.regIdx)))]
    case POSTDEC =>
      obtain ⟨x, a, hlv, ha, hcg⟩ := lvalue_operand m (hinc (by decide)) hokm
      have h1 := hcg s (Or.inl hs)
      have hcode : codegen (.node .POSTDEC v l m r) s
          = .ok (⟨s.regIdx, s.memJudge, x⟩, [memAccess s.memJudge s.regIdx a] ++
              [⟨.sub, [.reg (s.regIdx + 1), .reg s.regIdx, .imm 1]⟩,
               ⟨.store, [.mem a, .reg (s.regIdx + 1)]⟩]) := by
        simp only [codegen, h1, Res.bind, ArithOP, Kind.toInt, readTable, hst, ha]
        rfl
      refine ⟨_, hcode, ?_, fun _ _ st hev => by simp [refEval, hlv] at hev⟩
      intro st val m' hev
      simp only [refEval, hlv, Option.map_some', Option.some.injEq, Prod.mk.injEq] at hev
      obtain ⟨rfl, rfl⟩ := hev
      refine ⟨⟨setCell (setCell st.reg s.regIdx (st.mem a)) (s.regIdx + 1) (st.mem a - 1),
        setCell st.mem a (st.mem a - 1)⟩, ?_, ?_, rfl, fun k hlt => ?_⟩
      · simp [hs, memAccess_load, exec, stepInstr_load, stepInstr_store, stepInstr_arith,
          Operand.value, alu, setCell]
      · simp [setCell]
      · simp only [setCell_other _ _ (ne_of_lt hlt),
          setCell_other _ _ (ne_of_lt (lt_trans hlt (lt_add_one s.regIdx)))]
    case PREINC =>
      obtain ⟨x, a, hlv, ha, hcg⟩ := lvalue_operand m (hinc (by decide)) hokm
      have h1 := hcg s (Or.inl hs)
      have hcode : codegen (.node .PREINC v l m r) s
          = .ok (⟨s.regIdx, s.memJudge, x⟩, [memAccess s.memJudge s.regIdx a] ++
              [⟨.add, [.reg s.regIdx, .reg s.regIdx, .imm 1]⟩,
               ⟨.store, [.mem a, .reg s.regIdx]⟩]) := by
        simp only [codegen, h1, Res.bind, ArithOP, Kind.toInt, readTable, hst, ha]
        rfl
      refine ⟨_, hcode, ?_, fun _ _ st hev => by simp [refEval, hlv] at hev⟩
      intro st val m' hev
      simp only [refEval, hlv, Option.map_some', Option.some.injEq, Prod.mk.injEq] at hev
      obtain ⟨rfl, rfl⟩ := hev
      refine ⟨⟨setCell (setCell st.reg s.regIdx (st.mem a)) s.regIdx (st.mem a + 1),
        setCell st.mem a (st.mem a + 1)⟩, ?_, ?_, rfl, fun k hlt => ?_⟩
      · simp [hs, memAccess_load, exec, stepInstr_load, stepInstr_store, stepInstr_arith,
          Operand.value, alu, setCell]
      · simp [setCell]
      · simp only [setCell_other _ _ (ne_of_lt hlt)]
    case PREDEC =>
      obtain ⟨x, a, hlv, ha, hcg⟩ := lvalue_operand m (hinc (by decide)) hokm
      have h1 := hcg s (Or.inl hs)
      have hcode : codegen (.node .PREDEC v l m r) s
          = .ok (⟨s.regIdx, s.memJudge, x⟩, [memAccess s.memJudge s.regIdx a] ++
              [⟨.sub, [.reg s.regIdx, .reg s.regIdx, .imm 1]⟩,
               ⟨.store, [.mem a, .reg s.regIdx]⟩]) := by
        simp only [codegen, h1, Res.bind, ArithOP, Kind.toInt, readTable, hst, ha]
        rfl
      refine ⟨_, hcode, ?_, fun _ _ st hev => by simp [refEval, hlv] at hev⟩
      intro st val m' hev
      simp only [refEval, hlv, Option.map_some', Option.some.injEq, Prod.mk.injEq] at hev
      obtain ⟨rfl, rfl⟩ := hev
      refine ⟨⟨setCell (setCell st.reg s.regIdx (st.mem a)) s.regIdx (st.mem a - 1),
        setCell st.mem a (st.mem a - 1)⟩, ?_, ?_, rfl, fun k hlt => ?_⟩
      · simp [hs, memAccess_load, exec, stepInstr_load, stepInstr_store, stepInstr_arith,
          Operand.value, alu, setCell]
      · simp [setCell]
      · simp only [setCell_other _ _ (ne_of_lt hlt)]

/-- On a checked tree that has the shape of an expression, whose identifiers
are `x`, `y`, `z` and that holds no division, the reference evaluator has a
value from every memory. -/
theorem refEval_total : ∀ t : AST, semantic_check t = .ok () → identsOK t →
    (∀ x ∈ t.subtrees, shapeAt x) → t ≠ .null → noDivision t →
    ∀ mem : Int → Int, ∃ p, refEval t mem = some p := by
  intro t
  induction t with
  | null => intro _ _ _ h; exact absurd rfl h
  | node k v l m r ihl ihm ihr =>
    intro hc hok hsh _ hnd mem
    obtain ⟨hcl, hcm, hcr, hasg, hinc⟩ := semantic_check_node hc
    obtain ⟨h0, hokl, hokm, hokr⟩ := identsOK_node hok
    obtain ⟨hkind, hlr, hmn, hshl, hshm, hshr⟩ := shape_children hsh
    obtain ⟨hnd0, hndl, hndm, hndr⟩ := (forall_subtrees_node k v l m r).1 hnd
    simp only [AST.rootKind, ne_eq, Option.some.injEq] at hnd0
    have hmid : (isPre k = true ∨ isPost k = true ∨ k = .LPAR) →
        ∀ mem, ∃ p, refEval m mem = some p :=
      fun hk => ihm hcm hokm hshm (hmn hk) hndm
    have hlv : isIncDec k = true → ∃ a, lvalueCell m = some a := by
      intro hk
      obtain ⟨x, a, hlv, _, _⟩ := lvalue_operand m (hinc hk) hokm
      exact ⟨a, hlv⟩
    cases k
    case ASSIGN =>
      obtain ⟨_, hrn⟩ := hlr (Or.inl (by decide))
      obtain ⟨p, hp⟩ := ihr hcr hokr hshr hrn hndr mem
      obtain ⟨x, a, hlv, _, _⟩ := lvalue_operand l (hasg rfl) hokl
      simp only [refEval, hp, hlv, Option.some_bind, Option.map_some']
      exact ⟨_, rfl⟩
    case ADD | SUB | MUL =>
      obtain ⟨hln, hrn⟩ := hlr (by decide)
      obtain ⟨p, hp⟩ := ihl hcl hokl hshl hln hndl mem
      obtain ⟨q, hq⟩ := ihr hcr hokr hshr hrn hndr p.2
      simp only [refEval, hp, hq, binop, Option.some_bind, Option.map_some']
      exact ⟨_, rfl⟩
    case DIV => exact absurd rfl hnd0.1
    case REM => exact absurd rfl hnd0.2
    case PREINC | PREDEC | POSTINC | POSTDEC =>
      obtain ⟨a, ha⟩ := hlv (by decide)
      simp only [refEval, ha, Option.map_some']
      exact ⟨_, rfl⟩
    case PLUS | LPAR =>
      obtain ⟨p, hp⟩ := hmid (by decide) mem
      simp only [refEval, hp]
      exact ⟨_, rfl⟩
    case MINUS =>
      obtain ⟨p, hp⟩ := hmid (by decide) mem
      simp only [refEval, hp, Option.map_some']
      exact ⟨_, rfl⟩
    case IDENTIFIER =>
      obtain ⟨a, ha⟩ := memAd_valid (h0 rfl)
      simp only [refEval, cellOf_eq_memAd (h0 rfl), ha, Option.map_some']
      exact ⟨_, rfl⟩
    case CONSTANT => exact ⟨_, rfl⟩
    case RPAR => exact absurd rfl hkind.1
    case END => exact absurd rfl hkind.2

/-- C15: compilation preserves meaning.  For every AST that passes
`semantic_check` and whose identifiers are `x`, `y`, `z`, every register index
`n` and every state of the machine: `codegen`, started in load mode at
register index `n`, returns, and when the reference evaluator gives the
expression a value from the memory of the machine, executing the emitted
instructions ends with `r{n}` holding that value, with the memory the
evaluator leaves, and with every register below `n` as it was.  On a tree
that has the shape of an expression (as every tree of the parser has) the
evaluator gives no value only for a division by zero: it has a value when the
tree holds no division, and when it has none the instructions do not run to
their end either. -/
theorem codegen_preserves_meaning (t : AST) (hc : semantic_check t = .ok ())
    (hid : identsOK t) (n v0 : Int) (st : Machine) :
    ∃ s2 code, codegen t ⟨n, 0, v0⟩ = .ok (s2, code)
      ∧ (∀ val m', refEval t st.mem = some (val, m') →
          ∃ st', exec code st = some st' ∧ st'.reg n = val ∧ st'.mem = m' ∧
            ∀ k, k < n → st'.reg k = st.reg k)
      ∧ ((∀ x ∈ t.subtrees, shapeAt x) → t ≠ .null →
          (refEval t st.mem = none → exec code st = none)
          ∧ (noDivision t → ∃ p, refEval t st.mem = some p)) := by
  obtain ⟨p, hp, hsim, hflt⟩ := codegen_sim t hc hid ⟨n, 0, v0⟩ rfl
  exact ⟨p.1, p.2, hp, fun val m' h => hsim st val m' h,
    fun hsh hne => ⟨hflt hsh hne st, fun hnd => refEval_total t hc hid hsh hne hnd st.mem⟩⟩

/-- C15, at the AST of `x=y++*(3-z);` from a state with `y = 20`, `z = 30`:
the value is `20 * (3 - 30)`, stored to `x`, and `y` becomes 21; the emitted
instructions end with `r0` holding that value and the same memory. -/
theorem codegen_preserves_meaning_witness :
    parseLine "x=y++*(3-z);" = some (.ok sampleTree)
    ∧ (refEval sampleTree sampleMachine.mem).map (fun p => (p.1, p.2 0, p.2 4, p.2 8))
        = some (-540, -540, 21, 30)
    ∧ ((emitted sampleTree 0 0).bind fun code => .ok
        ((exec code sampleMachine).map fun st => (st.reg 0, st.mem 0, st.mem 4, st.mem 8)))
        = .ok (some (-540, -540, 21, 30))
    ∧ ∃ s2 code, codegen sampleTree ⟨0, 0, 0⟩ = .ok (s2, code)
      ∧ (∀ val m', refEval sampleTree sampleMachine.mem = some (val, m') →
          ∃ st', exec code sampleMachine = some st' ∧ st'.reg 0 = val ∧ st'.mem = m' ∧
            ∀ k, k < 0 → st'.reg k = sampleMachine.reg k)
      ∧ ((∀ x ∈ sampleTree.subtrees, shapeAt x) → sampleTree ≠ .null →
          (refEval sampleTree sampleMachine.mem = none → exec code sampleMachine = none)
          ∧ (noDivision sampleTree → ∃ p, refEval sampleTree sampleMachine.mem = some p)) :=
  ⟨by decide, by decide, by decide,
   codegen_preserves_meaning sampleTree (by decide) (by decide) 0 0 sampleMachine⟩

end Mini1
